import Mathlib

/-!
SPTK `levdur` / `rlevdur`: Levinson-Durbin recursion and its command-line tools

A shallow embedding of

* `src/main/levdur.cc` and `src/main/rlevdur.cc` (the two `main` functions),
* the constructor and accessors of `sptk::InputSourceFromArray`
  (`input_source_from_array.h`),
* `sptk::Matrix` (`matrix.h`), whose `Transpose` is only declared there and is
  modelled from the specification (§4.3), and
* the recursion classes `sptk::LevinsonDurbinRecursion` and
  `sptk::ReverseLevinsonDurbinRecursion`, whose implementation files are not among
  the sources and are therefore modelled from the specification (§4.1, §4.2).

Conventions.

* `double` values are modelled by exact rationals `ℚ`; every statement below is a
  statement of exact arithmetic.  Division follows `ℚ` (`x / 0 = 0`); statements that
  depend on a quotient carry the hypothesis that the divisor is non-zero.
* The threshold `epsilon` comes from the argument of `-f` through a string conversion
  that can yield a NaN or an infinity, and the tools test it with `epsilon < 0.0`
  only.  It is therefore a `Double`: a finite value of `ℚ`, a NaN, or a signed
  infinity, with the comparisons of IEEE 754 (every comparison with a NaN is false).
* `int` values are modelled by `Int`.  The one `int` expression that can overflow on
  input the tools accept, the frame length `num_order + 1`, is reduced to 32 bits
  (`wrapInt`); the frame counter is taken not to overflow.
* A `std::vector<double>` is a `List ℚ`.
-/

namespace sptk

/-! ## Sequences -/

/-- Element `i` of a sequence, `0` outside its range. -/
def nth (xs : List ℚ) (i : Nat) : ℚ := xs.getD i 0

/-! ## `double` values that are not numbers -/

/-- A `double` as far as its arithmetic is not needed: a finite value (a rational in
this model), a NaN, or an infinity with its sign.  The thresholds `epsilon` are of
this type, because the arguments of `-f` are; the sequences the recursions work on
are finite values and stay `ℚ`. -/
inductive Double where
  | finite (x : ℚ)
  | nan
  | inf (negative : Bool)
deriving DecidableEq, Repr

/-- A finite value is a `double`. -/
instance Double.instCoe : Coe ℚ Double := ⟨Double.finite⟩

/-- The `double` literals `0`, `1`, ... -/
instance Double.instOfNat (n : Nat) : OfNat Double n := ⟨Double.finite (OfNat.ofNat n)⟩

/-- The comparison `d < 0.0` of two `double`s: false for a NaN, true for minus
infinity only among the infinities. -/
def Double.ltZero : Double → Bool
  | .finite x => decide (x < 0)
  | .nan => false
  | .inf negative => negative

/-- The comparison `x < d` of a finite `x` with the `double` `d`: false for a NaN,
true for plus infinity only among the infinities. -/
def Double.exceeds (d : Double) (x : ℚ) : Bool :=
  match d with
  | .finite y => decide (x < y)
  | .nan => false
  | .inf negative => !negative

/-! ## Forward recursion (`sptk::LevinsonDurbinRecursion`) -/

/-- Working state of the forward recursion after some order `m`: the coefficient
array `a[0..m]`, the prediction-error energy `E_m` and the stability flag. -/
structure LDState where
  a : List ℚ
  e : ℚ
  stable : Bool
deriving DecidableEq, Repr

/-- Modelled from the spec: the reflection coefficient of
`LevinsonDurbinRecursion::Run` (levinson_durbin_recursion.cc is missing), §4.1 step 2:
`k_m = -(r[m] + Σ_{j=1}^{m-1} a_j * r[m-j]) / E_{m-1}`. -/
def parcor (r : List ℚ) (m : Nat) (s : LDState) : ℚ :=
  -(nth r m + ∑ j ∈ Finset.Ico 1 m, nth s.a j * nth r (m - j)) / s.e

/-- Modelled from the spec: the coefficient update of `LevinsonDurbinRecursion::Run`
(levinson_durbin_recursion.cc is missing), §4.1 step 2: `a[0] = 1`,
new `a_j = a_j + k_m * a_{m-j}` for `j = 1..m-1`, and `a_m = k_m`. -/
def update (m : Nat) (k : ℚ) (a : List ℚ) : List ℚ :=
  (List.range (m + 1)).map fun j =>
    if j = 0 then 1 else if j < m then nth a j + k * nth a (m - j) else k

/-- Modelled from the spec: one order of `LevinsonDurbinRecursion::Run`
(levinson_durbin_recursion.cc is missing), §4.1 step 2, without the energy guard:
coefficient update, `E_m = E_{m-1} * (1 - k_m^2)`, and the flag is cleared when
`|k_m| >= 1`. -/
def step (r : List ℚ) (m : Nat) (s : LDState) : LDState :=
  let k := parcor r m s
  ⟨update m k s.a, s.e * (1 - k ^ 2), s.stable && decide (|k| < 1)⟩

/-- Modelled from the spec: the order-0 state of `LevinsonDurbinRecursion::Run`
(levinson_durbin_recursion.cc is missing), §4.1 step 1: `E0 = r[0]`, `a[0] = 1`. -/
def initial (r : List ℚ) : LDState := ⟨[1], nth r 0, true⟩

/-- The recursion of §4.1 carried to order `m` with the energy guard left out: the
sequence of states `(a^(m), E_m, flag)` the guarded recursion follows as long as it
does not fail. -/
def recursion (r : List ℚ) : Nat → LDState
  | 0 => initial r
  | m + 1 => step r (m + 1) (recursion r m)

/-- Prediction-error energy `E_m` of the recursion on `r`. -/
def energy (r : List ℚ) (m : Nat) : ℚ := (recursion r m).e

/-- Reflection coefficient `k_m` (`m >= 1`) of the recursion on `r`. -/
def reflection (r : List ℚ) (m : Nat) : ℚ := parcor r m (recursion r (m - 1))

/-- Modelled from the spec: one guarded order of `LevinsonDurbinRecursion::Run`
(levinson_durbin_recursion.cc is missing), §4.1 step 2: "if `E_{m-1}` has magnitude
below `epsilon` the call fails and returns false". -/
def guardedStep (epsilon : Double) (r : List ℚ) (m : Nat) (s : LDState) : Option LDState :=
  if epsilon.exceeds |s.e| = true then none else some (step r m s)

/-- Modelled from the spec: the loop over the orders `1..m` of
`LevinsonDurbinRecursion::Run` (levinson_durbin_recursion.cc is missing), §4.1. -/
def guarded (epsilon : Double) (r : List ℚ) : Nat → Option LDState
  | 0 => some (initial r)
  | m + 1 => (guarded epsilon r m).bind (guardedStep epsilon r (m + 1))

/-- The object `sptk::LevinsonDurbinRecursion(num_order, epsilon)`. -/
structure LevinsonDurbinRecursion where
  num_order : Int
  epsilon : Double
deriving DecidableEq, Repr

/-- Modelled from the spec: `LevinsonDurbinRecursion::IsValid`
(levinson_durbin_recursion.h is missing), §4.1: "fails construction-time validity
check if `M < 0`". -/
def LevinsonDurbinRecursion.IsValid (c : LevinsonDurbinRecursion) : Bool :=
  decide (0 ≤ c.num_order)

/-- Modelled from the spec: `LevinsonDurbinRecursion::Run`
(levinson_durbin_recursion.cc is missing), §4.1.  The result is `none` when the call
returns false and `some (lpcOut, isStable)` when it returns true.  The input length
must equal `M + 1`. -/
def LevinsonDurbinRecursion.Run (c : LevinsonDurbinRecursion) (r : List ℚ) :
    Option (List ℚ × Bool) :=
  if c.IsValid = false ∨ (r.length : Int) ≠ c.num_order + 1 then none
  else (guarded c.epsilon r c.num_order.toNat).map fun s => (s.a, s.stable)

/-- Distance `|i - j|` between two indices. -/
def lag (i j : Nat) : Nat := (i - j) + (j - i)

/-- Left-hand side of row `i` of the symmetric Toeplitz normal equations for the
coefficients `a[0..M]`: `Σ_{j=0}^{M} a[j] * r[|i-j|]`. -/
def toeplitzRow (M : Nat) (a r : List ℚ) (i : Nat) : ℚ :=
  ∑ j ∈ Finset.range (M + 1), nth a j * nth r (lag i j)

/-! ## Reverse recursion (`sptk::ReverseLevinsonDurbinRecursion`) -/

/-- Working state of the reverse recursion at some order `m`: the coefficient set
`a^(m)[0..m]` and the prediction-error energy `E_m`. -/
structure RLDState where
  a : List ℚ
  e : ℚ
deriving DecidableEq, Repr

/-- Modelled from the spec: the step from order `m` down to order `m - 1` of
`ReverseLevinsonDurbinRecursion::Run` (reverse_levinson_durbin_recursion.cc is
missing), §4.2: with `k_m = a_m^(m)`,
`a_j^(m-1) = (a_j^(m) - k_m * a_(m-j)^(m)) / (1 - k_m^2)` for `j = 1..m-1` and
`E_(m-1) = E_m / (1 - k_m^2)`.  Coefficient 0, which no formula of §4.2 reads or
writes, is carried over unchanged. -/
def stepDown (m : Nat) (s : RLDState) : RLDState :=
  let k := nth s.a m
  ⟨(List.range m).map fun j =>
      if j = 0 then nth s.a 0 else (nth s.a j - k * nth s.a (m - j)) / (1 - k ^ 2),
    s.e / (1 - k ^ 2)⟩

/-- Modelled from the spec: the recursion of `ReverseLevinsonDurbinRecursion::Run`
(reverse_levinson_durbin_recursion.cc is missing), §4.2, started from the order-`m`
state `s` and returning `r[0..m]`.  At order `m >= 1` the call fails when
`|k_m| >= 1`; otherwise the order is stepped down, the lags `0..m-1` are recovered
from the lower order, and
`r[m] = -(a_m^(m) * E_(m-1) + Σ_{j=1}^{m-1} a_j^(m-1) * r[m-j])`.
At order 0 the forward initialisation `E0 = r[0]` is undone. -/
def reverse : Nat → RLDState → Option (List ℚ)
  | 0, s => some [s.e]
  | m + 1, s =>
    let k := nth s.a (m + 1)
    if 1 ≤ |k| then none
    else
      let t := stepDown (m + 1) s
      (reverse m t).map fun rs =>
        rs ++ [-(k * t.e + ∑ j ∈ Finset.Ico 1 (m + 1), nth t.a j * nth rs (m + 1 - j))]

/-- The state reached from the order-`M` state `s` after `d` unguarded steps down,
that is the order-`(M - d)` state. -/
def descend (M : Nat) (s : RLDState) : Nat → RLDState
  | 0 => s
  | d + 1 => stepDown (M - d) (descend M s d)

/-- The object `sptk::ReverseLevinsonDurbinRecursion(num_order, epsilon)`. -/
structure ReverseLevinsonDurbinRecursion where
  num_order : Int
  epsilon : Double
deriving DecidableEq, Repr

/-- Modelled from the spec: `ReverseLevinsonDurbinRecursion::IsValid`
(reverse_levinson_durbin_recursion.h is missing); as for the forward recursion the
order must not be negative. -/
def ReverseLevinsonDurbinRecursion.IsValid (c : ReverseLevinsonDurbinRecursion) : Bool :=
  decide (0 ≤ c.num_order)

/-- Modelled from the spec: the top-order state `ReverseLevinsonDurbinRecursion::Run`
starts from (reverse_levinson_durbin_recursion.cc is missing), §4.2: "the final energy
is reconstructed assuming `lpc[0]` encodes it".  On an input with `lpc[0] = 1` this is
also the unit energy of the other convention §4.2 names ("or defaulted to 1"). -/
def top (lpc : List ℚ) : RLDState := ⟨lpc, nth lpc 0⟩

/-- Reflection coefficient `k_m` (`1 <= m <= M`) met by the reverse recursion of order
`M` on `lpc`: the last coefficient of the order-`m` coefficient set. -/
def reverseReflection (M : Nat) (lpc : List ℚ) (m : Nat) : ℚ :=
  nth (descend M (top lpc) (M - m)).a m

/-- Modelled from the spec: `ReverseLevinsonDurbinRecursion::Run`
(reverse_levinson_durbin_recursion.cc is missing), §4.2.  The result is `none` when
the call returns false and `some autocorrelationOut` when it returns true.  The input
is `lpc[0..M]`, of length `M + 1`.  §4.2 gives `epsilon` no role in the reverse
recursion. -/
def ReverseLevinsonDurbinRecursion.Run (c : ReverseLevinsonDurbinRecursion)
    (lpc : List ℚ) : Option (List ℚ) :=
  if c.IsValid = false ∨ (lpc.length : Int) ≠ c.num_order + 1 then none
  else reverse c.num_order.toNat (top lpc)

/-! ## The command-line tools (`levdur.cc`, `rlevdur.cc`) -/

/-- `enum WarningType { kIgnore = 0, kWarn, kExit, kNumWarningTypes }` (levdur.cc). -/
inductive WarningType where
  | kIgnore
  | kWarn
  | kExit
  | kNumWarningTypes
deriving DecidableEq, Repr

/-- The integer value of an enumerator. -/
def WarningType.toInt : WarningType → Int
  | .kIgnore => 0
  | .kWarn => 1
  | .kExit => 2
  | .kNumWarningTypes => 3

/-- `static_cast<WarningType>(tmp)`. -/
def WarningType.ofInt (tmp : Int) : WarningType :=
  if tmp = 0 then .kIgnore else if tmp = 1 then .kWarn else if tmp = 2 then .kExit
  else .kNumWarningTypes

/-- `const int kDefaultNumOrder(25)`. -/
def kDefaultNumOrder : Int := 25

/-- `const double kDefaultEpsilon(0.0)`. -/
def kDefaultEpsilon : Double := 0

/-- `const WarningType kDefaultWarningType(kIgnore)`. -/
def kDefaultWarningType : WarningType := .kIgnore

/-- The two streams `PrintUsage` is called with. -/
inductive Sink where
  | cout
  | cerr
deriving DecidableEq, Repr

/-- What the process can be observed to have done when `main` returns. -/
structure Outcome where
  /-- the value returned by `main` -/
  code : Int
  /-- the chunks written to standard output by the successful `WriteStream` calls, in
  order; standard output is their concatenation -/
  out : List (List ℚ)
  /-- the `(tool, message)` pairs passed to `sptk::PrintErrorMessage`, in order -/
  err : List (String × String)
  /-- the stream `PrintUsage` was called with, if it was called -/
  usage : Option Sink
  /-- the number of `ReadStream` calls made -/
  reads : Nat
deriving DecidableEq, Repr

/-- Nothing observed yet. -/
def Outcome.start : Outcome := ⟨0, [], [], none, 0⟩

/-- `sptk::PrintErrorMessage(tool, error_message); return 1;`. -/
def Outcome.fail (o : Outcome) (tool message : String) : Outcome :=
  { o with code := 1, err := o.err ++ [(tool, message)] }

/-- `sptk::PrintErrorMessage(tool, error_message);`. -/
def Outcome.warn (o : Outcome) (tool message : String) : Outcome :=
  { o with err := o.err ++ [(tool, message)] }

/-- The surroundings of a run of a tool: the string conversions of `sptk_utils`
(their implementation is not among the sources, so they are parameters), the files
that can be opened with their contents, standard input, and whether the `WriteStream`
call for frame `i` succeeds. -/
structure Env where
  ConvertStringToInteger : String → Option Int
  ConvertStringToDouble : String → Option Double
  file : String → Option (List ℚ)
  stdin : List ℚ
  write_ok : Nat → Bool

/-- The command line as `getopt_long` presents it: the successive
`(option_char, optarg)` results up to the first `-1`, and the remaining arguments
`argv[optind..argc)`. -/
structure CommandLine where
  options : List (Char × String)
  files : List String

/-- Modelled from the spec: `sptk::IsInRange` (sptk_utils.cc is missing),
`min <= num && num <= max`. -/
def IsInRange (num min max : Int) : Bool := decide (min ≤ num ∧ num ≤ max)

/-- Modelled from the spec: `sptk::ReadStream(false, 0, 0, read_size, &sequence,
&input_stream, NULL)` (sptk_utils.cc is missing), §6: one frame of `read_size` values is
taken from the front of the stream; the call returns false when fewer values are
left.  The result is the frame read and the rest of the stream. -/
def ReadStream (read_size : Int) (stream : List ℚ) : Option (List ℚ × List ℚ) :=
  if 0 < read_size ∧ read_size.toNat ≤ stream.length then
    some (stream.take read_size.toNat, stream.drop read_size.toNat)
  else none

/-- Modelled from the spec: the values a successful `sptk::WriteStream(begin,
write_size, sequence, &std::cout, NULL)` (sptk_utils.cc is missing) writes:
`sequence[begin .. begin + write_size)`. -/
def WriteStream (beginning write_size : Int) (sequence : List ℚ) : List ℚ :=
  (sequence.drop beginning.toNat).take write_size.toNat

/-- The local variables of `main` set by the option loop (`warning_type` is a variable
of levdur.cc only; rlevdur.cc never sets or reads it). -/
structure Config where
  num_order : Int
  epsilon : Double
  warning_type : WarningType
deriving DecidableEq, Repr

/-- The option loop of `levdur.cc` (lines 98-148) from the state `c` on: `Except.ok`
is the `break` on `-1`, `Except.error` a `return` inside the loop. -/
def levdurOptions (env : Env) : List (Char × String) → Config → Except Outcome Config
  | [], c => .ok c
  | (option_char, optarg) :: rest, c =>
    if option_char = 'm' then
      match env.ConvertStringToInteger optarg with
      | none => .error (Outcome.start.fail "levdur"
          "The argument for the -m option must be a non-negative integer")
      | some num_order =>
        if num_order < 0 then .error (Outcome.start.fail "levdur"
          "The argument for the -m option must be a non-negative integer")
        else levdurOptions env rest { c with num_order := num_order }
    else if option_char = 'f' then
      match env.ConvertStringToDouble optarg with
      | none => .error (Outcome.start.fail "levdur"
          "The argument for the -f option must be a non-negative number")
      | some epsilon =>
        if epsilon.ltZero = true then .error (Outcome.start.fail "levdur"
          "The argument for the -f option must be a non-negative number")
        else levdurOptions env rest { c with epsilon := epsilon }
    else if option_char = 'e' then
      let min : Int := 0
      let max : Int := WarningType.kNumWarningTypes.toInt - 1
      match env.ConvertStringToInteger optarg with
      | none => .error (Outcome.start.fail "levdur"
          ("The argument for the -e option must be an integer in the range of "
            ++ toString min ++ " to " ++ toString max))
      | some tmp =>
        if IsInRange tmp min max = false then .error (Outcome.start.fail "levdur"
          ("The argument for the -e option must be an integer in the range of "
            ++ toString min ++ " to " ++ toString max))
        else levdurOptions env rest { c with warning_type := WarningType.ofInt tmp }
    else if option_char = 'h' then
      .error { Outcome.start with code := 0, usage := some Sink.cout }
    else
      .error { Outcome.start with code := 1, usage := some Sink.cerr }

/-- The option loop of `rlevdur.cc` (lines 88-123). -/
def rlevdurOptions (env : Env) : List (Char × String) → Config → Except Outcome Config
  | [], c => .ok c
  | (option_char, optarg) :: rest, c =>
    if option_char = 'm' then
      match env.ConvertStringToInteger optarg with
      | none => .error (Outcome.start.fail "rlevdur"
          "The argument for the -m option must be a non-negative integer")
      | some num_order =>
        if num_order < 0 then .error (Outcome.start.fail "rlevdur"
          "The argument for the -m option must be a non-negative integer")
        else rlevdurOptions env rest { c with num_order := num_order }
    else if option_char = 'f' then
      match env.ConvertStringToDouble optarg with
      | none => .error (Outcome.start.fail "rlevdur"
          "The argument for the -f option must be a non-negative number")
      | some epsilon =>
        if epsilon.ltZero = true then .error (Outcome.start.fail "rlevdur"
          "The argument for the -f option must be a non-negative number")
        else rlevdurOptions env rest { c with epsilon := epsilon }
    else if option_char = 'h' then
      .error { Outcome.start with code := 0, usage := some Sink.cout }
    else
      .error { Outcome.start with code := 1, usage := some Sink.cerr }

/-- The frame loop of `levdur.cc` (lines 184-211) from frame `frame_index` on, with
`input` the part of the input stream not yet read and `o` what has been observed so
far. -/
def levdurLoop (env : Env) (ld : LevinsonDurbinRecursion) (warning_type : WarningType)
    (length : Int) (frame_index : Nat) (input : List ℚ) (o : Outcome) : Outcome :=
  match h : ReadStream length input with
  | none => { o with code := 0, reads := o.reads + 1 }
  | some (autocorrelation_sequence, rest) =>
    let o1 : Outcome := { o with reads := o.reads + 1 }
    match ld.Run autocorrelation_sequence with
    | none => o1.fail "levdur" "Failed to solve autocorrelation normal equations"
    | some (linear_predictive_coefficients, is_stable) =>
      if is_stable = false ∧ warning_type ≠ WarningType.kIgnore then
        let o2 := o1.warn "levdur" (toString frame_index ++ "th frame is unstable")
        if warning_type = WarningType.kExit then { o2 with code := 1 }
        else if env.write_ok frame_index = false then
          o2.fail "levdur" "Failed to write linear predictive coefficients"
        else
          levdurLoop env ld warning_type length (frame_index + 1) rest
            { o2 with out := o2.out ++ [WriteStream 0 length linear_predictive_coefficients] }
      else if env.write_ok frame_index = false then
        o1.fail "levdur" "Failed to write linear predictive coefficients"
      else
        levdurLoop env ld warning_type length (frame_index + 1) rest
          { o1 with out := o1.out ++ [WriteStream 0 length linear_predictive_coefficients] }
termination_by input.length
decreasing_by
  all_goals
    simp only [ReadStream] at h
    split at h
    · rename_i hc
      simp only [Option.some.injEq, Prod.mk.injEq] at h
      rw [← h.2, List.length_drop]
      omega
    · simp at h

/-- The frame loop of `rlevdur.cc` (lines 160-178). -/
def rlevdurLoop (env : Env) (rld : ReverseLevinsonDurbinRecursion)
    (length : Int) (frame_index : Nat) (input : List ℚ) (o : Outcome) : Outcome :=
  match h : ReadStream length input with
  | none => { o with code := 0, reads := o.reads + 1 }
  | some (linear_predictive_coefficients, rest) =>
    let o1 : Outcome := { o with reads := o.reads + 1 }
    match rld.Run linear_predictive_coefficients with
    | none => o1.fail "rlevdur" "Failed to solve autocorrelation normal equations"
    | some autocorrelation_sequence =>
      if env.write_ok frame_index = false then
        o1.fail "rlevdur" "Failed to write autocorrelation sequence"
      else
        rlevdurLoop env rld length (frame_index + 1) rest
          { o1 with out := o1.out ++ [WriteStream 0 length autocorrelation_sequence] }
termination_by input.length
decreasing_by
  all_goals
    simp only [ReadStream] at h
    split at h
    · rename_i hc
      simp only [Option.some.injEq, Prod.mk.injEq] at h
      rw [← h.2, List.length_drop]
      omega
    · simp at h

/-- Lines 150-169 of both tools: `none` when the named file cannot be opened, else
the stream read from: the file when one is named, standard input otherwise. -/
def openInput (env : Env) (input_file : Option String) : Option (List ℚ) :=
  match input_file with
  | none => some env.stdin
  | some name => env.file name

/-- The value an `int` takes when the mathematical value of the expression computed
into it is `x`: reduction to 32 bits in two's complement.  (For a signed overflow the
C++ standard leaves the behaviour undefined; this is the value the usual targets
compute.) -/
def wrapInt (x : Int) : Int := (x + 2147483648) % 4294967296 - 2147483648

/-- `main` of `levdur.cc`. -/
def levdur (env : Env) (cl : CommandLine) : Outcome :=
  match levdurOptions env cl.options ⟨kDefaultNumOrder, kDefaultEpsilon, kDefaultWarningType⟩ with
  | .error o => o
  | .ok c =>
    let num_input_files := cl.files.length
    if 1 < num_input_files then Outcome.start.fail "levdur" "Too many input files"
    else
      let input_file := cl.files.head?
      match openInput env input_file with
      | none => Outcome.start.fail "levdur" ("Cannot open file " ++ input_file.getD "")
      | some input_stream =>
        let levinson_durbin_recursion : LevinsonDurbinRecursion := ⟨c.num_order, c.epsilon⟩
        if levinson_durbin_recursion.IsValid = false then
          Outcome.start.fail "levdur" "Failed to set the condition"
        else
          let length : Int := wrapInt (c.num_order + 1)
          levdurLoop env levinson_durbin_recursion c.warning_type length 0 input_stream
            Outcome.start

/-- `main` of `rlevdur.cc`. -/
def rlevdur (env : Env) (cl : CommandLine) : Outcome :=
  match rlevdurOptions env cl.options ⟨kDefaultNumOrder, kDefaultEpsilon, kDefaultWarningType⟩ with
  | .error o => o
  | .ok c =>
    let num_input_files := cl.files.length
    if 1 < num_input_files then Outcome.start.fail "rlevdur" "Too many input files"
    else
      let input_file := cl.files.head?
      match openInput env input_file with
      | none => Outcome.start.fail "rlevdur" ("Cannot open file " ++ input_file.getD "")
      | some input_stream =>
        let reverse_levinson_durbin_recursion : ReverseLevinsonDurbinRecursion :=
          ⟨c.num_order, c.epsilon⟩
        if reverse_levinson_durbin_recursion.IsValid = false then
          Outcome.start.fail "rlevdur" "Failed to set the condition"
        else
          let length : Int := wrapInt (c.num_order + 1)
          rlevdurLoop env reverse_levinson_durbin_recursion length 0 input_stream
            Outcome.start

/-- Frame `i` of a stream cut into frames of `n` values. -/
def frameAt (n : Nat) (stream : List ℚ) (i : Nat) : List ℚ :=
  (stream.drop (i * n)).take n

/-- The number of complete frames of `n` values in a stream. -/
def numFrames (n : Nat) (stream : List ℚ) : Nat := stream.length / n

/-- Whether the forward tool's loop body, run on `frame` as frame number `i`, reaches
the end of the body: `Run` returns true, the frame is not an unstable frame under
`kExit`, and the write succeeds. -/
def levdurDone (env : Env) (ld : LevinsonDurbinRecursion) (warning_type : WarningType)
    (i : Nat) (frame : List ℚ) : Bool :=
  match ld.Run frame with
  | none => false
  | some (_, is_stable) =>
    !(is_stable == false && warning_type == WarningType.kExit) && env.write_ok i

/-- The chunk the forward tool writes for `frame` when its loop body reaches the
write. -/
def levdurChunk (ld : LevinsonDurbinRecursion) (length : Int) (frame : List ℚ) : List ℚ :=
  match ld.Run frame with
  | none => []
  | some (linear_predictive_coefficients, _) =>
    WriteStream 0 length linear_predictive_coefficients

/-- Whether the reverse tool's loop body, run on `frame` as frame number `i`, reaches
the end of the body: `Run` returns true and the write succeeds. -/
def rlevdurDone (env : Env) (rld : ReverseLevinsonDurbinRecursion)
    (i : Nat) (frame : List ℚ) : Bool :=
  match rld.Run frame with
  | none => false
  | some _ => env.write_ok i

/-- The chunk the reverse tool writes for `frame` when its loop body reaches the
write. -/
def rlevdurChunk (rld : ReverseLevinsonDurbinRecursion) (length : Int) (frame : List ℚ) :
    List ℚ :=
  match rld.Run frame with
  | none => []
  | some autocorrelation_sequence => WriteStream 0 length autocorrelation_sequence

/-- The argument of `-m` is not a non-negative integer. -/
def invalidOrder (env : Env) (optarg : String) : Bool :=
  match env.ConvertStringToInteger optarg with
  | none => true
  | some num_order => decide (num_order < 0)

/-- The argument of `-f` is not a non-negative real: it does not convert to a
`double`, or it converts to a negative number, to a NaN or to an infinity. -/
def invalidEpsilon (env : Env) (optarg : String) : Bool :=
  match env.ConvertStringToDouble optarg with
  | none => true
  | some (Double.finite epsilon) => decide (epsilon < 0)
  | some Double.nan => true
  | some (Double.inf _) => true

/-- The argument of `-f` is not a number or is negative: it does not convert to a
`double`, or it converts to a negative number or to minus infinity.  Of the arguments
that are not a non-negative real this leaves out those that convert to a NaN or to
plus infinity. -/
def negativeEpsilon (env : Env) (optarg : String) : Bool :=
  match env.ConvertStringToDouble optarg with
  | none => true
  | some (Double.finite epsilon) => decide (epsilon < 0)
  | some Double.nan => false
  | some (Double.inf negative) => negative

/-- The argument of `-e` is not an integer in `0..2`. -/
def invalidWarning (env : Env) (optarg : String) : Bool :=
  match env.ConvertStringToInteger optarg with
  | none => true
  | some tmp => !decide (0 ≤ tmp ∧ tmp ≤ 2)

/-- An option of the command line violates its constraint: `-m` not a non-negative
integer, `-f` not a non-negative real, `-e` not an integer in `0..2`; `-e` has a
constraint in the forward tool only. -/
def violates (env : Env) (forward : Bool) (option : Char × String) : Bool :=
  (option.1 == 'm' && invalidOrder env option.2) ||
    (option.1 == 'f' && invalidEpsilon env option.2) ||
    (forward && option.1 == 'e' && invalidWarning env option.2)

/-- An option of the command line violates its constraint otherwise than by an `-f`
argument that converts to a NaN or to plus infinity: `-m` not a non-negative integer,
`-f` not a number or negative, `-e` (forward tool) not an integer in `0..2`. -/
def violatesNumerically (env : Env) (forward : Bool) (option : Char × String) : Bool :=
  (option.1 == 'm' && invalidOrder env option.2) ||
    (option.1 == 'f' && negativeEpsilon env option.2) ||
    (forward && option.1 == 'e' && invalidWarning env option.2)

/-- The option loop takes the option and goes on to the next one: a `-m`, a `-f` or
(forward tool) a `-e` whose argument is not rejected. -/
def accepted (env : Env) (forward : Bool) (option : Char × String) : Bool :=
  (option.1 == 'm' || option.1 == 'f' || (forward && option.1 == 'e')) &&
    !violatesNumerically env forward option

/-- Surroundings used in the examples: the conversions know the numerals `"0"`,
`"1"`, `"2"` and `"-1"`, and the conversion to `double` also `"nan"` and `"inf"`; no
file can be opened, and every write succeeds. -/
def sampleEnv (stdin : List ℚ) : Env where
  ConvertStringToInteger := fun s =>
    if s = "0" then some 0 else if s = "1" then some 1 else if s = "2" then some 2
    else if s = "-1" then some (-1) else none
  ConvertStringToDouble := fun s =>
    if s = "0" then some 0 else if s = "1" then some 1 else if s = "2" then some 2
    else if s = "-1" then some (Double.finite (-1))
    else if s = "nan" then some Double.nan
    else if s = "inf" then some (Double.inf false) else none
  file := fun _ => none
  stdin := stdin
  write_ok := fun _ => true

/-- Surroundings used in the examples: every integer argument converts to the
largest `int`, 2147483647. -/
def largestOrderEnv : Env where
  ConvertStringToInteger := fun _ => some 2147483647
  ConvertStringToDouble := fun _ => none
  file := fun _ => none
  stdin := []
  write_ok := fun _ => true

/-! ## Positive definite Toeplitz matrices -/

/-- The quadratic form `Σ_i Σ_j x_i * T[i][j] * x_j` of the `(M+1) x (M+1)` symmetric
Toeplitz matrix `T[i][j] = r[|i-j|]`. -/
def quadForm (M : Nat) (r : List ℚ) (x : Nat → ℚ) : ℚ :=
  ∑ i ∈ Finset.range (M + 1), ∑ j ∈ Finset.range (M + 1), x i * nth r (lag i j) * x j

/-- The `(M+1) x (M+1)` symmetric Toeplitz matrix of `r` is positive definite: its
quadratic form is positive at every vector `x[0..M]` that is not zero. -/
def PositiveDefinite (M : Nat) (r : List ℚ) : Prop :=
  ∀ x : Nat → ℚ, (∃ i, i ≤ M ∧ x i ≠ 0) → 0 < quadForm M r x

/-! ## The dense matrix (`matrix.h`) -/

/-- The data members of `sptk::Matrix` (matrix.h): the dimensions and the backing
store `data_`, row after row.  The row pointers `index_[i] = &data_[i * num_column_]`
are determined by these and are not stored.  The dimensions are never negative
(spec §3), so they are natural numbers. -/
structure Matrix where
  num_row_ : Nat
  num_column_ : Nat
  data_ : List ℚ
deriving DecidableEq, Repr

/-- The invariant of spec §3: "backing-store size == `rows*cols`". -/
def Matrix.Invariant (A : Matrix) : Prop := A.data_.length = A.num_row_ * A.num_column_

/-- `operator[]` of matrix.h followed by a column index, `index_[row][column]`: the
element of the backing store at `row * num_column_ + column`. -/
def Matrix.get (A : Matrix) (row column : Nat) : ℚ :=
  nth A.data_ (row * A.num_column_ + column)

/-- Modelled from the spec: `Matrix::Transpose` (matrix.cc is missing), §4.3:
"transpose into a caller-supplied output matrix".  The output matrix is given
`num_column_` rows and `num_row_` columns and element `[j][i]` of it is element
`[i][j]` of this matrix.  The result is `none` when the call returns false; the spec
names no case in which it does. -/
def Matrix.Transpose (A : Matrix) : Option Matrix :=
  some ⟨A.num_column_, A.num_row_,
    (List.range (A.num_column_ * A.num_row_)).map fun p =>
      A.get (p % A.num_row_) (p / A.num_row_)⟩

/-! ## The array input source (`input_source_from_array.h`) -/

/-- The data members of `sptk::InputSourceFromArray`.  The pointer `input_array_` is
`none` when it is `NULL` and otherwise holds the array it points to. -/
structure InputSourceFromArray where
  zero_padding_ : Bool
  read_size_ : Int
  array_size_ : Int
  input_array_ : Option (List ℚ)
  position_ : Int
  is_valid_ : Bool
deriving DecidableEq, Repr

/-- The constructor `InputSourceFromArray(zero_padding, read_size, array_size,
input_array)` (input_source_from_array.h lines 58-69). -/
def InputSourceFromArray.construct (zero_padding : Bool) (read_size array_size : Int)
    (input_array : Option (List ℚ)) : InputSourceFromArray :=
  let source : InputSourceFromArray :=
    ⟨zero_padding, read_size, array_size, input_array, 0, true⟩
  if source.read_size_ ≤ 0 ∨ source.array_size_ ≤ 0 ∨ source.input_array_ = none then
    { source with is_valid_ := false }
  else source

/-- `GetSize()` (input_source_from_array.h lines 76-78). -/
def InputSourceFromArray.GetSize (source : InputSourceFromArray) : Int := source.read_size_

/-- `GetArraySize()` (input_source_from_array.h lines 81-83). -/
def InputSourceFromArray.GetArraySize (source : InputSourceFromArray) : Int :=
  source.array_size_

/-- `IsValid()` (input_source_from_array.h lines 86-88). -/
def InputSourceFromArray.IsValid (source : InputSourceFromArray) : Bool := source.is_valid_

/-! ### Comparisons of `double`s -/

@[simp]
theorem Double.exceeds_finite (y x : ℚ) :
    (Double.finite y).exceeds x = decide (x < y) := rfl

@[simp]
theorem Double.exceeds_zero (x : ℚ) : (0 : Double).exceeds x = decide (x < 0) := rfl

@[simp]
theorem Double.exceeds_one (x : ℚ) : (1 : Double).exceeds x = decide (x < 1) := rfl

@[simp]
theorem Double.exceeds_nan (x : ℚ) : Double.nan.exceeds x = false := rfl

@[simp]
theorem Double.ltZero_finite (y : ℚ) : (Double.finite y).ltZero = decide (y < 0) := rfl

@[simp]
theorem Double.ltZero_zero : (0 : Double).ltZero = false := by
  show decide ((0 : ℚ) < 0) = false
  simp

@[simp]
theorem Double.ltZero_one : (1 : Double).ltZero = false := by
  show decide ((1 : ℚ) < 0) = false
  simp [not_lt]

@[simp]
theorem Double.ltZero_two : (2 : Double).ltZero = false := by
  show decide ((2 : ℚ) < 0) = false
  simp [not_lt]

@[simp]
theorem Double.ltZero_nan : Double.nan.ltZero = false := rfl

/-! ### Basic facts on the forward recursion -/

theorem guarded_some_eq (epsilon : Double) (r : List ℚ) :
    ∀ (m : Nat) (s : LDState), guarded epsilon r m = some s → s = recursion r m := by
  intro m
  induction m with
  | zero =>
    intro s h
    simp only [guarded, Option.some.injEq] at h
    simpa [recursion] using h.symm
  | succ m ih =>
    intro s h
    simp only [guarded] at h
    cases hg : guarded epsilon r m with
    | none => simp [hg] at h
    | some t =>
      rw [hg] at h
      have ht := ih t hg
      simp only [Option.some_bind, guardedStep] at h
      split at h
      · simp at h
      · simp only [Option.some.injEq] at h
        rw [← h, ht, recursion]

/-- The guarded recursion fails exactly when the threshold exceeds the magnitude of
some energy `E_{m-1}`, `m = 1..M`, of the unguarded recursion; this covers the
thresholds that are not numbers (a NaN never makes it fail, plus infinity makes it
fail at order 1). -/
theorem guarded_eq_none_iff_exceeds (epsilon : Double) (r : List ℚ) (M : Nat) :
    guarded epsilon r M = none ↔
      ∃ m, 1 ≤ m ∧ m ≤ M ∧ epsilon.exceeds |energy r (m - 1)| = true := by
  induction M with
  | zero =>
    simp only [guarded]
    constructor
    · intro h; simp at h
    · rintro ⟨m, h1, h2, _⟩; omega
  | succ M ih =>
    simp only [guarded]
    cases hg : guarded epsilon r M with
    | none =>
      simp only [Option.none_bind, true_iff]
      obtain ⟨m, h1, h2, h3⟩ := ih.mp hg
      exact ⟨m, h1, by omega, h3⟩
    | some t =>
      have ht := guarded_some_eq epsilon r M t hg
      simp only [Option.some_bind, guardedStep]
      constructor
      · intro h
        split at h
        · rename_i hlt
          refine ⟨M + 1, by omega, le_refl _, ?_⟩
          simpa [energy, ht] using hlt
        · simp at h
      · rintro ⟨m, h1, h2, h3⟩
        rcases Nat.lt_or_ge m (M + 1) with hlt | hge
        · have : guarded epsilon r M = none := ih.mpr ⟨m, h1, by omega, h3⟩
          rw [hg] at this
          simp at this
        · have hm : m = M + 1 := by omega
          subst hm
          have : epsilon.exceeds |t.e| = true := by simpa [energy, ht] using h3
          simp [this]

theorem guarded_eq_none_iff (epsilon : ℚ) (r : List ℚ) (M : Nat) :
    guarded epsilon r M = none ↔
      ∃ m, 1 ≤ m ∧ m ≤ M ∧ |energy r (m - 1)| < epsilon := by
  rw [guarded_eq_none_iff_exceeds]
  simp

theorem guarded_of_no_small_energy (epsilon : ℚ) (r : List ℚ) (M : Nat)
    (h : ∀ m, 1 ≤ m → m ≤ M → ¬ |energy r (m - 1)| < epsilon) :
    guarded epsilon r M = some (recursion r M) := by
  cases hg : guarded epsilon r M with
  | none =>
    obtain ⟨m, h1, h2, h3⟩ := (guarded_eq_none_iff epsilon r M).mp hg
    exact absurd h3 (h m h1 h2)
  | some t => rw [guarded_some_eq epsilon r M t hg]

theorem recursion_stable_iff (r : List ℚ) (M : Nat) :
    (recursion r M).stable = true ↔ ∀ m, 1 ≤ m → m ≤ M → |reflection r m| < 1 := by
  induction M with
  | zero =>
    simp only [recursion, initial, true_iff]
    intro m h1 h2; omega
  | succ M ih =>
    simp only [recursion, step, Bool.and_eq_true, decide_eq_true_eq, ih]
    constructor
    · rintro ⟨h1, h2⟩ m hm1 hm2
      rcases Nat.lt_or_ge m (M + 1) with hlt | hge
      · exact h1 m hm1 (by omega)
      · have hm : m = M + 1 := by omega
        subst hm
        simpa [reflection] using h2
    · intro h
      refine ⟨fun m hm1 hm2 => h m hm1 (by omega), ?_⟩
      simpa [reflection] using h (M + 1) (by omega) (le_refl _)

theorem Run_eq_of_length (M : Nat) (epsilon : ℚ) (r : List ℚ) (hlen : r.length = M + 1) :
    LevinsonDurbinRecursion.Run ⟨(M : Int), epsilon⟩ r =
      (guarded epsilon r M).map fun s => (s.a, s.stable) := by
  have h2 : ((r.length : Nat) : Int) = (M : Int) + 1 := by rw [hlen]; push_cast; ring
  simp [LevinsonDurbinRecursion.Run, LevinsonDurbinRecursion.IsValid, h2]

/-! ### The coefficient arrays of the forward recursion -/

theorem nth_map_range (n : Nat) (f : Nat → ℚ) (j : Nat) :
    nth ((List.range n).map f) j = if j < n then f j else 0 := by
  unfold nth
  by_cases h : j < n
  · simp [h, List.getElem?_range h]
  · have h2 : ((List.range n).map f)[j]? = none := by
      apply List.getElem?_eq_none
      simp only [List.length_map, List.length_range]
      omega
    simp [h, h2]

theorem recursion_length (r : List ℚ) (m : Nat) : (recursion r m).a.length = m + 1 := by
  cases m with
  | zero => simp [recursion, initial]
  | succ m => simp [recursion, step, update]

theorem recursion_nth_zero (r : List ℚ) (m : Nat) : nth (recursion r m).a 0 = 1 := by
  cases m with
  | zero => simp [recursion, initial, nth]
  | succ m =>
    simp only [recursion, step, update]
    rw [nth_map_range]
    simp

theorem recursion_nth_beyond (r : List ℚ) (m j : Nat) (h : m < j) :
    nth (recursion r m).a j = 0 := by
  unfold nth
  have h2 : (recursion r m).a[j]? = none := by
    apply List.getElem?_eq_none
    rw [recursion_length]
    omega
  simp [h2]

theorem recursion_nth_last (r : List ℚ) (m : Nat) :
    nth (recursion r (m + 1)).a (m + 1) = reflection r (m + 1) := by
  simp only [recursion, step, update]
  rw [nth_map_range]
  simp [reflection]

theorem recursion_nth_succ (r : List ℚ) (m j : Nat) (h : j ≤ m + 1) :
    nth (recursion r (m + 1)).a j =
      nth (recursion r m).a j + reflection r (m + 1) * nth (recursion r m).a (m + 1 - j) := by
  rcases Nat.eq_zero_or_pos j with h0 | hpos
  · subst h0
    rw [recursion_nth_zero, recursion_nth_zero, Nat.sub_zero,
      recursion_nth_beyond r m (m + 1) (by omega)]
    ring
  · rcases Nat.lt_or_ge j (m + 1) with hlt | hge
    · simp only [recursion, step, update]
      rw [nth_map_range]
      have hj : j ≠ 0 := by omega
      simp [hj, hlt, reflection, Nat.lt_succ_of_lt hlt]
    · have hj : j = m + 1 := by omega
      subst hj
      rw [recursion_nth_last, recursion_nth_beyond r m (m + 1) (by omega), Nat.sub_self,
        recursion_nth_zero]
      ring

/-! ### The Toeplitz normal equations -/

theorem lag_reflect (m i j : Nat) (hi : i ≤ m) (hj : j ≤ m) :
    lag i (m - j) = lag (m - i) j := by
  unfold lag
  omega

theorem lag_zero_left (j : Nat) : lag 0 j = j := by
  unfold lag
  omega

/-- Extending the Toeplitz row sum of the order-`m` coefficients by the (zero)
coefficient of index `m + 1` does not change it. -/
theorem toeplitzRow_extend (r : List ℚ) (m i : Nat) :
    ∑ j ∈ Finset.range (m + 2), nth (recursion r m).a j * nth r (lag i j) =
      toeplitzRow m (recursion r m).a r i := by
  rw [Finset.sum_range_succ, recursion_nth_beyond r m (m + 1) (by omega)]
  simp [toeplitzRow]

/-- Row `i` of the order-`m + 1` system in terms of rows `i` and `m + 1 - i` of the
order-`m` coefficients. -/
theorem toeplitzRow_succ (r : List ℚ) (m i : Nat) (hi : i ≤ m + 1) :
    toeplitzRow (m + 1) (recursion r (m + 1)).a r i =
      toeplitzRow m (recursion r m).a r i +
        reflection r (m + 1) * toeplitzRow m (recursion r m).a r (m + 1 - i) := by
  have h1 : toeplitzRow (m + 1) (recursion r (m + 1)).a r i =
      ∑ j ∈ Finset.range (m + 2), nth (recursion r m).a j * nth r (lag i j) +
        reflection r (m + 1) *
          ∑ j ∈ Finset.range (m + 2), nth (recursion r m).a (m + 1 - j) * nth r (lag i j) := by
    unfold toeplitzRow
    rw [Finset.mul_sum, ← Finset.sum_add_distrib]
    apply Finset.sum_congr rfl
    intro j hj
    rw [recursion_nth_succ r m j (by simp at hj; omega)]
    ring
  have h2 : ∑ j ∈ Finset.range (m + 2), nth (recursion r m).a (m + 1 - j) * nth r (lag i j) =
      ∑ j ∈ Finset.range (m + 2), nth (recursion r m).a j * nth r (lag (m + 1 - i) j) := by
    rw [← Finset.sum_range_reflect
      (fun j => nth (recursion r m).a j * nth r (lag (m + 1 - i) j)) (m + 2)]
    apply Finset.sum_congr rfl
    intro j hj
    have hj2 : j ≤ m + 1 := by simp at hj; omega
    have e1 : m + 2 - 1 - j = m + 1 - j := by omega
    rw [e1, ← lag_reflect (m + 1) i (m + 1 - j) hi (by omega)]
    have e2 : m + 1 - (m + 1 - j) = j := by omega
    rw [e2]
  rw [h1, h2, toeplitzRow_extend, toeplitzRow_extend]

/-- The defining equation of the reflection coefficient, cleared of its division. -/
theorem toeplitzRow_next (r : List ℚ) (m : Nat) (hE : energy r m ≠ 0) :
    toeplitzRow m (recursion r m).a r (m + 1) = -(reflection r (m + 1) * energy r m) := by
  have hk : reflection r (m + 1) * energy r m =
      -(nth r (m + 1) +
        ∑ j ∈ Finset.Ico 1 (m + 1), nth (recursion r m).a j * nth r (m + 1 - j)) := by
    simp only [reflection, parcor, energy, Nat.add_sub_cancel]
    exact div_mul_cancel₀ _ hE
  have hs : toeplitzRow m (recursion r m).a r (m + 1) =
      nth r (m + 1) +
        ∑ j ∈ Finset.Ico 1 (m + 1), nth (recursion r m).a j * nth r (m + 1 - j) := by
    unfold toeplitzRow
    rw [Finset.range_eq_Ico, Finset.sum_eq_sum_Ico_succ_bot (by omega)]
    have hl0 : lag (m + 1) 0 = m + 1 := by unfold lag; omega
    rw [recursion_nth_zero, hl0, one_mul]
    congr 1
    apply Finset.sum_congr rfl
    intro j hj
    have hj2 : j < m + 1 := (Finset.mem_Ico.mp hj).2
    have hl : lag (m + 1) j = m + 1 - j := by unfold lag; omega
    rw [hl]
  rw [hs, hk, neg_neg]

/-- Invariant of the forward recursion: the order-`m` coefficients solve the order-`m`
normal equations, with right-hand side `E_m` in row 0. -/
theorem toeplitz_invariant (r : List ℚ) (m : Nat)
    (hE : ∀ n, n < m → energy r n ≠ 0) :
    (∀ i, 1 ≤ i → i ≤ m → toeplitzRow m (recursion r m).a r i = 0) ∧
      toeplitzRow m (recursion r m).a r 0 = energy r m := by
  induction m with
  | zero =>
    refine ⟨fun i h1 h2 => by omega, ?_⟩
    simp [toeplitzRow, recursion, initial, energy, nth, lag]
  | succ m ih =>
    obtain ⟨ih1, ih0⟩ := ih (fun n hn => hE n (by omega))
    have hEm : energy r m ≠ 0 := hE m (by omega)
    have hnext := toeplitzRow_next r m hEm
    constructor
    · intro i h1 h2
      rw [toeplitzRow_succ r m i h2]
      rcases Nat.lt_or_ge i (m + 1) with hlt | hge
      · rw [ih1 i h1 (by omega), ih1 (m + 1 - i) (by omega) (by omega)]
        ring
      · have hi : i = m + 1 := by omega
        subst hi
        rw [hnext, Nat.sub_self, ih0]
        ring
    · rw [toeplitzRow_succ r m 0 (by omega), ih0, Nat.sub_zero, hnext]
      simp only [energy, recursion, step, reflection, Nat.add_sub_cancel]
      ring

theorem energy_eq_prod (r : List ℚ) (M : Nat) :
    energy r M = nth r 0 * ∏ m ∈ Finset.Icc 1 M, (1 - reflection r m ^ 2) := by
  induction M with
  | zero => simp [energy, recursion, initial]
  | succ M ih =>
    rw [Finset.prod_Icc_succ_top (by omega), ← mul_assoc, ← ih]
    simp [energy, recursion, step, reflection]

/-! ### The reverse recursion -/

theorem reverse_length : ∀ (m : Nat) (s : RLDState) (rs : List ℚ),
    reverse m s = some rs → rs.length = m + 1 := by
  intro m
  induction m with
  | zero =>
    intro s rs h
    simp only [reverse, Option.some.injEq] at h
    simp [← h]
  | succ m ih =>
    intro s rs h
    simp only [reverse] at h
    split at h
    · simp at h
    · cases hr : reverse m (stepDown (m + 1) s) with
      | none => simp [hr] at h
      | some ts =>
        rw [hr] at h
        simp only [Option.map_some', Option.some.injEq] at h
        have := ih _ ts hr
        simp [← h, this]

theorem descend_succ (m : Nat) (s : RLDState) (d : Nat) :
    descend (m + 1) s (d + 1) = descend m (stepDown (m + 1) s) d := by
  induction d with
  | zero => simp [descend]
  | succ d ih =>
    have e : m + 1 - (d + 1) = m - d := by omega
    rw [descend, ih, e]
    simp [descend]

theorem reverse_eq_none_iff : ∀ (m : Nat) (s : RLDState),
    reverse m s = none ↔ ∃ d, d < m ∧ 1 ≤ |nth (descend m s d).a (m - d)| := by
  intro m
  induction m with
  | zero =>
    intro s
    simp [reverse]
  | succ m ih =>
    intro s
    simp only [reverse]
    by_cases hk : 1 ≤ |nth s.a (m + 1)|
    · simp only [hk, if_true, true_iff]
      exact ⟨0, by omega, by simpa [descend] using hk⟩
    · simp only [hk, if_false, Option.map_eq_none']
      rw [ih]
      constructor
      · rintro ⟨d, hd, h⟩
        refine ⟨d + 1, by omega, ?_⟩
        rw [descend_succ]
        have e : m + 1 - (d + 1) = m - d := by omega
        rw [e]
        exact h
      · rintro ⟨d, hd, h⟩
        cases d with
        | zero =>
          exfalso
          apply hk
          simpa [descend] using h
        | succ d =>
          refine ⟨d, by omega, ?_⟩
          rw [descend_succ] at h
          have e : m + 1 - (d + 1) = m - d := by omega
          rw [e] at h
          exact h

theorem ReverseRun_eq_of_length (M : Nat) (epsilon : ℚ) (lpc : List ℚ)
    (hlen : lpc.length = M + 1) :
    ReverseLevinsonDurbinRecursion.Run ⟨(M : Int), epsilon⟩ lpc = reverse M (top lpc) := by
  have h2 : ((lpc.length : Nat) : Int) = (M : Int) + 1 := by rw [hlen]; push_cast; ring
  simp [ReverseLevinsonDurbinRecursion.Run, ReverseLevinsonDurbinRecursion.IsValid, h2]

/-! ### Reverse after forward -/

theorem list_eq_of_nth (n : Nat) (l1 l2 : List ℚ) (h1 : l1.length = n) (h2 : l2.length = n)
    (h : ∀ j, j < n → nth l1 j = nth l2 j) : l1 = l2 := by
  apply List.ext_getElem (by rw [h1, h2])
  intro j hj1 hj2
  have := h j (by omega)
  simpa [nth, List.getElem?_eq_getElem hj1, List.getElem?_eq_getElem hj2] using this

theorem list_eq_map_range (n : Nat) (l : List ℚ) (h : l.length = n) :
    l = (List.range n).map (nth l) := by
  apply list_eq_of_nth n _ _ h (by simp)
  intro j hj
  rw [nth_map_range]
  simp [hj]

theorem one_sub_sq_pos (k : ℚ) (h : |k| < 1) : 0 < 1 - k ^ 2 := by
  have h1 := abs_lt.mp h
  nlinarith [h1.1, h1.2]

theorem energy_ne_zero (r : List ℚ) (h0 : nth r 0 ≠ 0) (M : Nat)
    (hk : ∀ m, 1 ≤ m → m ≤ M → |reflection r m| < 1) : energy r M ≠ 0 := by
  induction M with
  | zero => simpa [energy, recursion, initial] using h0
  | succ M ih =>
    have ihM := ih (fun m h1 h2 => hk m h1 (by omega))
    have hpos := one_sub_sq_pos _ (hk (M + 1) (by omega) (le_refl _))
    have : energy r (M + 1) = energy r M * (1 - reflection r (M + 1) ^ 2) := by
      simp [energy, recursion, step, reflection]
    rw [this]
    exact mul_ne_zero ihM (ne_of_gt hpos)

/-- Stepping the order-`m + 1` coefficients of the forward recursion down gives back
its order-`m` coefficients. -/
theorem stepDown_recursion (r : List ℚ) (m : Nat) (c : ℚ)
    (hk : |reflection r (m + 1)| < 1) :
    stepDown (m + 1) ⟨(recursion r (m + 1)).a, c⟩ =
      ⟨(recursion r m).a, c / (1 - reflection r (m + 1) ^ 2)⟩ := by
  have hpos := one_sub_sq_pos _ hk
  have hne : 1 - reflection r (m + 1) ^ 2 ≠ 0 := ne_of_gt hpos
  simp only [stepDown, recursion_nth_last, RLDState.mk.injEq, and_true]
  apply list_eq_of_nth (m + 1) _ _ (by simp) (recursion_length r m)
  intro j hj
  rw [nth_map_range]
  simp only [hj, if_true]
  by_cases h0 : j = 0
  · subst h0
    simp [recursion_nth_zero]
  · simp only [h0, if_false]
    rw [recursion_nth_succ r m j (by omega), recursion_nth_succ r m (m + 1 - j) (by omega)]
    have e : m + 1 - (m + 1 - j) = j := by omega
    rw [e]
    field_simp
    ring

/-- The reverse recursion started from the order-`m` coefficients of the forward
recursion on `r` with energy `c` returns `r[0..m]` scaled by `c / E_m`. -/
theorem reverse_recursion (r : List ℚ) (h0 : nth r 0 ≠ 0) :
    ∀ (m : Nat) (c : ℚ), (∀ n, 1 ≤ n → n ≤ m → |reflection r n| < 1) →
      reverse m ⟨(recursion r m).a, c⟩ =
        some ((List.range (m + 1)).map fun i => nth r i * (c / energy r m)) := by
  intro m
  induction m with
  | zero =>
    intro c _
    have h0e : energy r 0 = nth r 0 := by simp [energy, recursion, initial]
    simp only [reverse, h0e, Option.some.injEq]
    simp only [List.range_succ, List.range_zero, List.nil_append, List.map_cons, List.map_nil]
    congr 1
    field_simp
  | succ m ih =>
    intro c hk
    have hkm := hk (m + 1) (by omega) (le_refl _)
    have hpos := one_sub_sq_pos _ hkm
    have hne : 1 - reflection r (m + 1) ^ 2 ≠ 0 := ne_of_gt hpos
    have hEm : energy r m ≠ 0 := energy_ne_zero r h0 m (fun n h1 h2 => hk n h1 (by omega))
    have hEs : energy r (m + 1) = energy r m * (1 - reflection r (m + 1) ^ 2) := by
      simp [energy, recursion, step, reflection]
    have hq : c / (1 - reflection r (m + 1) ^ 2) / energy r m = c / energy r (m + 1) := by
      rw [hEs, div_div, mul_comm]
    have hnot : ¬ 1 ≤ |reflection r (m + 1)| := not_le.mpr hkm
    simp only [reverse, recursion_nth_last, hnot, if_false]
    rw [stepDown_recursion r m c hkm, ih _ (fun n h1 h2 => hk n h1 (by omega)), hq]
    simp only [Option.map_some', Option.some.injEq]
    rw [List.range_succ (n := m + 1), List.map_append]
    congr 1
    simp only [List.map_cons, List.map_nil, List.cons.injEq, and_true]
    have hsum : ∑ j ∈ Finset.Ico 1 (m + 1), nth (recursion r m).a j *
          nth ((List.range (m + 1)).map fun i => nth r i * (c / energy r (m + 1))) (m + 1 - j) =
        (c / energy r (m + 1)) *
          ∑ j ∈ Finset.Ico 1 (m + 1), nth (recursion r m).a j * nth r (m + 1 - j) := by
      rw [Finset.mul_sum]
      apply Finset.sum_congr rfl
      intro j hj
      have hj1 := (Finset.mem_Ico.mp hj).1
      rw [nth_map_range]
      have hlt : m + 1 - j < m + 1 := by omega
      simp only [hlt, if_true]
      ring
    have hk2 : reflection r (m + 1) * energy r m =
        -(nth r (m + 1) +
          ∑ j ∈ Finset.Ico 1 (m + 1), nth (recursion r m).a j * nth r (m + 1 - j)) := by
      simp only [reflection, parcor, energy, Nat.add_sub_cancel]
      exact div_mul_cancel₀ _ hEm
    have hsum2 : ∑ j ∈ Finset.Ico 1 (m + 1), nth (recursion r m).a j * nth r (m + 1 - j) =
        -(reflection r (m + 1) * energy r m) - nth r (m + 1) := by
      rw [hk2]; ring
    rw [hsum, hsum2, hEs]
    field_simp
    ring

/-! ### The frame loops -/

theorem levdurLoop_eq (env : Env) (ld : LevinsonDurbinRecursion) (warning_type : WarningType)
    (length : Int) (frame_index : Nat) (input : List ℚ) (o : Outcome) :
    levdurLoop env ld warning_type length frame_index input o =
      match ReadStream length input with
      | none => { o with code := 0, reads := o.reads + 1 }
      | some (autocorrelation_sequence, rest) =>
        let o1 : Outcome := { o with reads := o.reads + 1 }
        match ld.Run autocorrelation_sequence with
        | none => o1.fail "levdur" "Failed to solve autocorrelation normal equations"
        | some (linear_predictive_coefficients, is_stable) =>
          if is_stable = false ∧ warning_type ≠ WarningType.kIgnore then
            let o2 := o1.warn "levdur" (toString frame_index ++ "th frame is unstable")
            if warning_type = WarningType.kExit then { o2 with code := 1 }
            else if env.write_ok frame_index = false then
              o2.fail "levdur" "Failed to write linear predictive coefficients"
            else
              levdurLoop env ld warning_type length (frame_index + 1) rest
                { o2 with
                  out := o2.out ++ [WriteStream 0 length linear_predictive_coefficients] }
          else if env.write_ok frame_index = false then
            o1.fail "levdur" "Failed to write linear predictive coefficients"
          else
            levdurLoop env ld warning_type length (frame_index + 1) rest
              { o1 with
                out := o1.out ++ [WriteStream 0 length linear_predictive_coefficients] } := by
  rw [levdurLoop]
  split
  · rename_i h; rw [h]
  · rename_i a b h; rw [h]

theorem rlevdurLoop_eq (env : Env) (rld : ReverseLevinsonDurbinRecursion)
    (length : Int) (frame_index : Nat) (input : List ℚ) (o : Outcome) :
    rlevdurLoop env rld length frame_index input o =
      match ReadStream length input with
      | none => { o with code := 0, reads := o.reads + 1 }
      | some (linear_predictive_coefficients, rest) =>
        let o1 : Outcome := { o with reads := o.reads + 1 }
        match rld.Run linear_predictive_coefficients with
        | none => o1.fail "rlevdur" "Failed to solve autocorrelation normal equations"
        | some autocorrelation_sequence =>
          if env.write_ok frame_index = false then
            o1.fail "rlevdur" "Failed to write autocorrelation sequence"
          else
            rlevdurLoop env rld length (frame_index + 1) rest
              { o1 with out := o1.out ++ [WriteStream 0 length autocorrelation_sequence] } := by
  rw [rlevdurLoop]
  split
  · rename_i h; rw [h]
  · rename_i a b h; rw [h]

theorem ReadStream_some (length : Int) (input frame rest : List ℚ)
    (h : ReadStream length input = some (frame, rest)) :
    0 < length.toNat ∧ length.toNat ≤ input.length ∧
      frame = input.take length.toNat ∧ rest = input.drop length.toNat := by
  simp only [ReadStream] at h
  split at h
  · rename_i hc
    simp only [Option.some.injEq, Prod.mk.injEq] at h
    refine ⟨by omega, hc.2, h.1.symm, h.2.symm⟩
  · simp at h

theorem ReadStream_none (length : Int) (input : List ℚ)
    (h : ReadStream length input = none) : numFrames length.toNat input = 0 := by
  simp only [ReadStream] at h
  split at h
  · simp at h
  · rename_i hc
    unfold numFrames
    by_cases h0 : 0 < length
    · have : input.length < length.toNat := by
        by_contra hcon
        exact hc ⟨h0, by omega⟩
      exact Nat.div_eq_of_lt this
    · have : length.toNat = 0 := by omega
      rw [this, Nat.div_zero]

theorem frameAt_zero (n : Nat) (input : List ℚ) : frameAt n input 0 = input.take n := by
  simp [frameAt]

theorem frameAt_drop (n : Nat) (input : List ℚ) (j : Nat) :
    frameAt n (input.drop n) j = frameAt n input (j + 1) := by
  simp only [frameAt, List.drop_drop]
  congr 2
  ring

theorem numFrames_drop (n : Nat) (input : List ℚ) (hn : 0 < n) (hle : n ≤ input.length) :
    numFrames n (input.drop n) + 1 = numFrames n input := by
  simp only [numFrames, List.length_drop]
  rw [Nat.div_eq_sub_div hn hle]

/-- Induction along the frames `ReadStream` takes off a stream. -/
theorem stream_induction (length : Int) (P : List ℚ → Prop)
    (hnone : ∀ input, ReadStream length input = none → P input)
    (hsome : ∀ input frame rest, ReadStream length input = some (frame, rest) →
      P rest → P input) :
    ∀ input, P input := by
  have key : ∀ (k : Nat) (input : List ℚ), input.length = k → P input := by
    intro k
    induction k using Nat.strong_induction_on with
    | _ k ih =>
      intro input hlen
      cases h : ReadStream length input with
      | none => exact hnone input h
      | some p =>
        obtain ⟨frame, rest⟩ := p
        obtain ⟨h1, h2, _, h4⟩ := ReadStream_some length input frame rest h
        apply hsome input frame rest h
        apply ih rest.length _ rest rfl
        rw [h4, List.length_drop, ← hlen]
        omega
  intro input
  exact key input.length input rfl

theorem levdurLoop_continue (env : Env) (ld : LevinsonDurbinRecursion) (w : WarningType)
    (length : Int) (i : Nat) (input frame rest : List ℚ) (o : Outcome)
    (h : ReadStream length input = some (frame, rest))
    (hd : levdurDone env ld w i frame = true) :
    ∃ o2 : Outcome, levdurLoop env ld w length i input o =
        levdurLoop env ld w length (i + 1) rest o2 ∧
      o2.out = o.out ++ [levdurChunk ld length frame] ∧ o2.reads = o.reads + 1 := by
  rw [levdurLoop_eq, h]
  unfold levdurDone at hd
  unfold levdurChunk
  cases hrun : ld.Run frame with
  | none => simp [hrun] at hd
  | some p =>
    obtain ⟨lpc, st⟩ := p
    simp only [hrun, Bool.and_eq_true, Bool.not_eq_true', Bool.and_eq_false_imp,
      beq_iff_eq] at hd
    obtain ⟨hx, hw⟩ := hd
    simp only [hrun, hw, Bool.true_eq_false, if_false]
    by_cases hc : st = false ∧ w ≠ WarningType.kIgnore
    · have hne : ¬ w = WarningType.kExit := by
        intro hwe
        have := hx hc.1
        simp [hwe] at this
      simp only [hc, not_false_eq_true, and_self, if_true, hne, if_false, ne_eq]
      exact ⟨_, rfl, by simp [Outcome.warn], by simp [Outcome.warn]⟩
    · simp only [hc, if_false]
      exact ⟨_, rfl, rfl, rfl⟩

theorem levdurLoop_stop (env : Env) (ld : LevinsonDurbinRecursion) (w : WarningType)
    (length : Int) (i : Nat) (input frame rest : List ℚ) (o : Outcome)
    (h : ReadStream length input = some (frame, rest))
    (hd : levdurDone env ld w i frame = false) :
    (levdurLoop env ld w length i input o).code = 1 ∧
      (levdurLoop env ld w length i input o).out = o.out ∧
      (levdurLoop env ld w length i input o).reads = o.reads + 1 := by
  rw [levdurLoop_eq, h]
  unfold levdurDone at hd
  cases hrun : ld.Run frame with
  | none => simp [hrun, Outcome.fail]
  | some p =>
    obtain ⟨lpc, st⟩ := p
    simp only [hrun] at hd
    simp only [hrun]
    by_cases hc : st = false ∧ w ≠ WarningType.kIgnore
    · by_cases hwe : w = WarningType.kExit
      · simp [hc, hwe, Outcome.warn]
      · have hw : env.write_ok i = false := by
          simpa [hc.1, hwe] using hd
        simp [hc, hwe, hw, Outcome.warn, Outcome.fail]
    · have hw : env.write_ok i = false := by
        by_cases hst : st = false
        · have hwi : w = WarningType.kIgnore := by
            by_contra hcon
            exact hc ⟨hst, hcon⟩
          simpa [hst, hwi] using hd
        · have hst2 : st = true := by simpa using hst
          simpa [hst2] using hd
      simp [hc, hw, Outcome.fail]

/-- The forward tool's frame loop, from any state: it completes the body for the
first `k` complete frames, writing their chunks in order, and makes `k + 1` reads;
either these are all the complete frames and it returns 0 on the failing read, or it
returns 1 in the body of frame `k`. -/
theorem levdurLoop_spec (env : Env) (ld : LevinsonDurbinRecursion) (w : WarningType)
    (length : Int) :
    ∀ (input : List ℚ) (i : Nat) (o : Outcome),
      ∃ k, k ≤ numFrames length.toNat input ∧
        (∀ j, j < k → levdurDone env ld w (i + j) (frameAt length.toNat input j) = true) ∧
        (levdurLoop env ld w length i input o).out =
          o.out ++ (List.range k).map
            (fun j => levdurChunk ld length (frameAt length.toNat input j)) ∧
        (levdurLoop env ld w length i input o).reads = o.reads + k + 1 ∧
        ((k = numFrames length.toNat input ∧
            (levdurLoop env ld w length i input o).code = 0) ∨
          (k < numFrames length.toNat input ∧
            (levdurLoop env ld w length i input o).code = 1 ∧
            levdurDone env ld w (i + k) (frameAt length.toNat input k) = false)) := by
  apply stream_induction length
  · intro input h i o
    refine ⟨0, Nat.zero_le _, fun j hj => by omega, ?_, ?_, ?_⟩
    · rw [levdurLoop_eq, h]; simp
    · rw [levdurLoop_eq, h]
    · left
      refine ⟨(ReadStream_none length input h).symm, ?_⟩
      rw [levdurLoop_eq, h]
  · intro input frame rest h ih i o
    obtain ⟨hn, hle, hframe, hrest⟩ := ReadStream_some length input frame rest h
    have hnum := numFrames_drop length.toNat input hn hle
    rw [← hrest] at hnum
    have hf0 : frameAt length.toNat input 0 = frame := by rw [frameAt_zero, hframe]
    have hfs : ∀ j, frameAt length.toNat rest j = frameAt length.toNat input (j + 1) := by
      intro j; rw [hrest, frameAt_drop]
    cases hd : levdurDone env ld w i frame with
    | false =>
      obtain ⟨h1, h2, h3⟩ := levdurLoop_stop env ld w length i input frame rest o h hd
      refine ⟨0, Nat.zero_le _, fun j hj => by omega, by simp [h2], by simp [h3], ?_⟩
      right
      refine ⟨by omega, h1, ?_⟩
      rw [Nat.add_zero, hf0]
      exact hd
    | true =>
      obtain ⟨o2, he, hout, hreads⟩ :=
        levdurLoop_continue env ld w length i input frame rest o h hd
      obtain ⟨k, hk, hall, hko, hkr, hkc⟩ := ih (i + 1) o2
      refine ⟨k + 1, by omega, ?_, ?_, ?_, ?_⟩
      · intro j hj
        cases j with
        | zero => rw [Nat.add_zero, hf0]; exact hd
        | succ j =>
          have := hall j (by omega)
          rw [hfs] at this
          have e : i + (j + 1) = i + 1 + j := by omega
          rw [e]
          exact this
      · rw [he, hko, hout, List.range_succ_eq_map, List.map_cons, List.map_map, hf0,
          List.append_assoc, List.singleton_append]
        congr 2
        apply List.map_congr_left
        intro j _
        simp [hfs]
      · rw [he, hkr, hreads]; omega
      · rw [he]
        rcases hkc with ⟨hk1, hk2⟩ | ⟨hk1, hk2, hk3⟩
        · left; exact ⟨by omega, hk2⟩
        · right
          refine ⟨by omega, hk2, ?_⟩
          rw [hfs] at hk3
          have e : i + (k + 1) = i + 1 + k := by omega
          rw [e]
          exact hk3

/-- The frame loop of the forward tool only appends to what has been written and to
the diagnostics. -/
theorem levdurLoop_extends (env : Env) (ld : LevinsonDurbinRecursion) (w : WarningType)
    (length : Int) :
    ∀ (input : List ℚ) (i : Nat) (o : Outcome),
      o.out <+: (levdurLoop env ld w length i input o).out ∧
        o.err <+: (levdurLoop env ld w length i input o).err := by
  apply stream_induction length
  · intro input h i o
    rw [levdurLoop_eq, h]
    exact ⟨List.prefix_refl _, List.prefix_refl _⟩
  · intro input frame rest h ih i o
    rw [levdurLoop_eq, h]
    cases hrun : ld.Run frame with
    | none =>
      simp only [hrun, Outcome.fail]
      exact ⟨List.prefix_refl _, List.prefix_append _ _⟩
    | some p =>
      obtain ⟨lpc, st⟩ := p
      simp only [hrun]
      split_ifs
      · exact ⟨List.prefix_refl _, List.prefix_append _ _⟩
      · exact ⟨List.prefix_refl _, (List.prefix_append _ _).trans (List.prefix_append _ _)⟩
      · obtain ⟨h1, h2⟩ := ih (i + 1)
          { code := o.code, out := o.out ++ [WriteStream 0 length lpc],
            err := o.err ++ [("levdur", toString i ++ "th frame is unstable")],
            usage := o.usage, reads := o.reads + 1 }
        exact ⟨(List.prefix_append _ _).trans h1, (List.prefix_append _ _).trans h2⟩
      · exact ⟨List.prefix_refl _, List.prefix_append _ _⟩
      · obtain ⟨h1, h2⟩ := ih (i + 1)
          { code := o.code, out := o.out ++ [WriteStream 0 length lpc],
            err := o.err, usage := o.usage, reads := o.reads + 1 }
        exact ⟨(List.prefix_append _ _).trans h1, h2⟩

theorem rlevdurLoop_continue (env : Env) (rld : ReverseLevinsonDurbinRecursion)
    (length : Int) (i : Nat) (input frame rest : List ℚ) (o : Outcome)
    (h : ReadStream length input = some (frame, rest))
    (hd : rlevdurDone env rld i frame = true) :
    ∃ o2 : Outcome, rlevdurLoop env rld length i input o =
        rlevdurLoop env rld length (i + 1) rest o2 ∧
      o2.out = o.out ++ [rlevdurChunk rld length frame] ∧ o2.reads = o.reads + 1 := by
  rw [rlevdurLoop_eq, h]
  unfold rlevdurDone at hd
  unfold rlevdurChunk
  cases hrun : rld.Run frame with
  | none => simp [hrun] at hd
  | some rs =>
    simp only [hrun] at hd
    simp only [hrun, hd, Bool.true_eq_false, if_false]
    exact ⟨_, rfl, rfl, rfl⟩

theorem rlevdurLoop_stop (env : Env) (rld : ReverseLevinsonDurbinRecursion)
    (length : Int) (i : Nat) (input frame rest : List ℚ) (o : Outcome)
    (h : ReadStream length input = some (frame, rest))
    (hd : rlevdurDone env rld i frame = false) :
    (rlevdurLoop env rld length i input o).code = 1 ∧
      (rlevdurLoop env rld length i input o).out = o.out ∧
      (rlevdurLoop env rld length i input o).reads = o.reads + 1 := by
  rw [rlevdurLoop_eq, h]
  unfold rlevdurDone at hd
  cases hrun : rld.Run frame with
  | none => simp [hrun, Outcome.fail]
  | some rs =>
    simp only [hrun] at hd
    simp [hrun, hd, Outcome.fail]

/-- The reverse tool's frame loop, from any state (see `levdurLoop_spec`). -/
theorem rlevdurLoop_spec (env : Env) (rld : ReverseLevinsonDurbinRecursion)
    (length : Int) :
    ∀ (input : List ℚ) (i : Nat) (o : Outcome),
      ∃ k, k ≤ numFrames length.toNat input ∧
        (∀ j, j < k → rlevdurDone env rld (i + j) (frameAt length.toNat input j) = true) ∧
        (rlevdurLoop env rld length i input o).out =
          o.out ++ (List.range k).map
            (fun j => rlevdurChunk rld length (frameAt length.toNat input j)) ∧
        (rlevdurLoop env rld length i input o).reads = o.reads + k + 1 ∧
        ((k = numFrames length.toNat input ∧
            (rlevdurLoop env rld length i input o).code = 0) ∨
          (k < numFrames length.toNat input ∧
            (rlevdurLoop env rld length i input o).code = 1 ∧
            rlevdurDone env rld (i + k) (frameAt length.toNat input k) = false)) := by
  apply stream_induction length
  · intro input h i o
    refine ⟨0, Nat.zero_le _, fun j hj => by omega, ?_, ?_, ?_⟩
    · rw [rlevdurLoop_eq, h]; simp
    · rw [rlevdurLoop_eq, h]
    · left
      refine ⟨(ReadStream_none length input h).symm, ?_⟩
      rw [rlevdurLoop_eq, h]
  · intro input frame rest h ih i o
    obtain ⟨hn, hle, hframe, hrest⟩ := ReadStream_some length input frame rest h
    have hnum := numFrames_drop length.toNat input hn hle
    rw [← hrest] at hnum
    have hf0 : frameAt length.toNat input 0 = frame := by rw [frameAt_zero, hframe]
    have hfs : ∀ j, frameAt length.toNat rest j = frameAt length.toNat input (j + 1) := by
      intro j; rw [hrest, frameAt_drop]
    cases hd : rlevdurDone env rld i frame with
    | false =>
      obtain ⟨h1, h2, h3⟩ := rlevdurLoop_stop env rld length i input frame rest o h hd
      refine ⟨0, Nat.zero_le _, fun j hj => by omega, by simp [h2], by simp [h3], ?_⟩
      right
      refine ⟨by omega, h1, ?_⟩
      rw [Nat.add_zero, hf0]
      exact hd
    | true =>
      obtain ⟨o2, he, hout, hreads⟩ :=
        rlevdurLoop_continue env rld length i input frame rest o h hd
      obtain ⟨k, hk, hall, hko, hkr, hkc⟩ := ih (i + 1) o2
      refine ⟨k + 1, by omega, ?_, ?_, ?_, ?_⟩
      · intro j hj
        cases j with
        | zero => rw [Nat.add_zero, hf0]; exact hd
        | succ j =>
          have := hall j (by omega)
          rw [hfs] at this
          have e : i + (j + 1) = i + 1 + j := by omega
          rw [e]
          exact this
      · rw [he, hko, hout, List.range_succ_eq_map, List.map_cons, List.map_map, hf0,
          List.append_assoc, List.singleton_append]
        congr 2
        apply List.map_congr_left
        intro j _
        simp [hfs]
      · rw [he, hkr, hreads]; omega
      · rw [he]
        rcases hkc with ⟨hk1, hk2⟩ | ⟨hk1, hk2, hk3⟩
        · left; exact ⟨by omega, hk2⟩
        · right
          refine ⟨by omega, hk2, ?_⟩
          rw [hfs] at hk3
          have e : i + (k + 1) = i + 1 + k := by omega
          rw [e]
          exact hk3

/-! ## The claims on the recursions -/

theorem Run_some_inv (M : Nat) (epsilon : ℚ) (r lpc : List ℚ) (is_stable : Bool)
    (hrun : LevinsonDurbinRecursion.Run ⟨(M : Int), epsilon⟩ r = some (lpc, is_stable)) :
    r.length = M + 1 ∧ lpc = (recursion r M).a ∧ is_stable = (recursion r M).stable := by
  have hlen : r.length = M + 1 := by
    by_contra hne
    have h2 : ¬ ((r.length : Nat) : Int) = (M : Int) + 1 := by
      intro hc
      apply hne
      exact_mod_cast hc
    simp [LevinsonDurbinRecursion.Run, h2] at hrun
  rw [Run_eq_of_length M epsilon r hlen] at hrun
  cases hg : guarded epsilon r M with
  | none => simp [hg] at hrun
  | some s =>
    have hs := guarded_some_eq epsilon r M s hg
    simp only [hg, Option.map_some', Option.some.injEq, Prod.mk.injEq] at hrun
    refine ⟨hlen, ?_, ?_⟩
    · rw [← hrun.1, hs]
    · rw [← hrun.2, hs]

/-- C1: for every order `M` (in particular `M >= 1`) and every autocorrelation
sequence `r[0..M]` on which
the forward `Run` succeeds with every `E_{m-1}` (`m = 1..M`) non-zero, the returned
coefficients `a[0..M]` have `a[0] = 1` and solve the symmetric Toeplitz normal
equations: `Σ_{j=0}^{M} a[j] * r[|i-j|] = 0` for every `i` in `1..M`, and
`Σ_{j=0}^{M} a[j] * r[j]` is the final prediction-error energy
`E_M = r[0] * Π_{m=1}^{M} (1 - k_m^2)`. -/
theorem forward_solves_normal_equations (M : Nat) (epsilon : ℚ) (r lpc : List ℚ)
    (is_stable : Bool)
    (hrun : LevinsonDurbinRecursion.Run ⟨(M : Int), epsilon⟩ r = some (lpc, is_stable))
    (hE : ∀ m, 1 ≤ m → m ≤ M → energy r (m - 1) ≠ 0) :
    lpc.length = M + 1 ∧ nth lpc 0 = 1 ∧
      (∀ i, 1 ≤ i → i ≤ M →
        ∑ j ∈ Finset.range (M + 1), nth lpc j * nth r (lag i j) = 0) ∧
      ∑ j ∈ Finset.range (M + 1), nth lpc j * nth r j = energy r M ∧
      energy r M = nth r 0 * ∏ m ∈ Finset.Icc 1 M, (1 - reflection r m ^ 2) := by
  obtain ⟨_, hlpc, _⟩ := Run_some_inv M epsilon r lpc is_stable hrun
  have hinv := toeplitz_invariant r M (fun n hn => by
    have := hE (n + 1) (by omega) (by omega)
    simpa using this)
  subst hlpc
  refine ⟨recursion_length r M, recursion_nth_zero r M, ?_, ?_, energy_eq_prod r M⟩
  · intro i h1 h2
    exact hinv.1 i h1 h2
  · have h0 := hinv.2
    unfold toeplitzRow at h0
    rw [← h0]
    apply Finset.sum_congr rfl
    intro j _
    rw [lag_zero_left]

/-- C3: for every order `M >= 1`, every `epsilon` and every input of length `M + 1`,
the forward `Run` returns false if and only if at some order `m` in `1..M` the
prediction-error energy `E_{m-1}` of the recursion has magnitude below `epsilon`; in
particular, when `r[0] = 0` and `epsilon > 0` the step of order 1 fails and `Run`
returns false. -/
theorem forward_fails_iff_small_energy (M : Nat) (epsilon : ℚ) (r : List ℚ) (hM : 1 ≤ M)
    (hlen : r.length = M + 1) :
    (LevinsonDurbinRecursion.Run ⟨(M : Int), epsilon⟩ r = none ↔
        ∃ m, 1 ≤ m ∧ m ≤ M ∧ |energy r (m - 1)| < epsilon) ∧
      (nth r 0 = 0 → 0 < epsilon →
        guardedStep epsilon r 1 (initial r) = none ∧
          LevinsonDurbinRecursion.Run ⟨(M : Int), epsilon⟩ r = none) := by
  have hiff : LevinsonDurbinRecursion.Run ⟨(M : Int), epsilon⟩ r = none ↔
      ∃ m, 1 ≤ m ∧ m ≤ M ∧ |energy r (m - 1)| < epsilon := by
    rw [Run_eq_of_length M epsilon r hlen, Option.map_eq_none', guarded_eq_none_iff]
  refine ⟨hiff, ?_⟩
  intro h0 heps
  have hsmall : |energy r 0| < epsilon := by
    simpa [energy, recursion, initial, h0] using heps
  constructor
  · have : |(initial r).e| < epsilon := by simpa [energy, recursion] using hsmall
    simp [guardedStep, this]
  · exact hiff.mpr ⟨1, le_refl _, hM, by simpa using hsmall⟩

/-- C4: for every input of length `M + 1` on which no energy `E_{m-1}` (`m = 1..M`) is
below `epsilon`, the forward `Run` succeeds and returns the coefficients of the full
recursion up to order `M`, whatever the magnitudes of the reflection coefficients;
the returned flag is true if and only if `|k_m| < 1` for every `m` in `1..M`; and the
coefficients and energy a step computes do not depend on the flag it is given. -/
theorem forward_succeeds_and_flags (M : Nat) (epsilon : ℚ) (r : List ℚ)
    (hlen : r.length = M + 1)
    (hE : ∀ m, 1 ≤ m → m ≤ M → ¬ |energy r (m - 1)| < epsilon) :
    (∃ lpc is_stable,
        LevinsonDurbinRecursion.Run ⟨(M : Int), epsilon⟩ r = some (lpc, is_stable) ∧
        lpc = (recursion r M).a ∧ lpc.length = M + 1 ∧ nth lpc 0 = 1 ∧
        (∀ m, 1 ≤ m → m ≤ M → nth lpc m =
          if m = M then reflection r M
          else nth (recursion r (M - 1)).a m +
            reflection r M * nth (recursion r (M - 1)).a (M - m)) ∧
        (is_stable = true ↔ ∀ m, 1 ≤ m → m ≤ M → |reflection r m| < 1)) ∧
      (∀ (m : Nat) (s : LDState) (b : Bool),
        (step r m { s with stable := b }).a = (step r m s).a ∧
          (step r m { s with stable := b }).e = (step r m s).e) := by
  constructor
  · refine ⟨(recursion r M).a, (recursion r M).stable, ?_, rfl, recursion_length r M,
      recursion_nth_zero r M, ?_, recursion_stable_iff r M⟩
    · rw [Run_eq_of_length M epsilon r hlen, guarded_of_no_small_energy epsilon r M hE]
      rfl
    · intro m h1 h2
      obtain ⟨N, rfl⟩ : ∃ N, M = N + 1 := ⟨M - 1, by omega⟩
      simp only [Nat.add_sub_cancel]
      by_cases hm : m = N + 1
      · subst hm
        simp [recursion_nth_last]
      · simp only [hm, if_false]
        exact recursion_nth_succ r N m h2
  · intro m s b
    simp [step, parcor]

/-- C5: for every order `M` and LPC input of length `M + 1`, the reverse `Run` returns
false if and only if, stepping the order from `M` down to 1, some reflection
coefficient `k_m` (the last coefficient of the order-`m` coefficient set) has
`|k_m| >= 1`; otherwise it succeeds and its output has length `M + 1`. -/
theorem reverse_fails_iff_large_reflection (M : Nat) (epsilon : ℚ) (lpc : List ℚ)
    (hlen : lpc.length = M + 1) :
    (ReverseLevinsonDurbinRecursion.Run ⟨(M : Int), epsilon⟩ lpc = none ↔
        ∃ m, 1 ≤ m ∧ m ≤ M ∧ 1 ≤ |reverseReflection M lpc m|) ∧
      ((¬ ∃ m, 1 ≤ m ∧ m ≤ M ∧ 1 ≤ |reverseReflection M lpc m|) →
        ∃ rs, ReverseLevinsonDurbinRecursion.Run ⟨(M : Int), epsilon⟩ lpc = some rs ∧
          rs.length = M + 1) := by
  have hiff : ReverseLevinsonDurbinRecursion.Run ⟨(M : Int), epsilon⟩ lpc = none ↔
      ∃ m, 1 ≤ m ∧ m ≤ M ∧ 1 ≤ |reverseReflection M lpc m| := by
    rw [ReverseRun_eq_of_length M epsilon lpc hlen, reverse_eq_none_iff]
    constructor
    · rintro ⟨d, hd, h⟩
      refine ⟨M - d, by omega, by omega, ?_⟩
      have e : M - (M - d) = d := by omega
      simpa [reverseReflection, e] using h
    · rintro ⟨m, h1, h2, h⟩
      refine ⟨M - m, by omega, ?_⟩
      have e : M - (M - m) = m := by omega
      simpa [reverseReflection, e] using h
  refine ⟨hiff, ?_⟩
  intro hno
  cases hr : ReverseLevinsonDurbinRecursion.Run ⟨(M : Int), epsilon⟩ lpc with
  | none => exact absurd (hiff.mp hr) hno
  | some rs =>
    refine ⟨rs, rfl, ?_⟩
    rw [ReverseRun_eq_of_length M epsilon lpc hlen] at hr
    exact reverse_length M (top lpc) rs hr

/-! ### The recursions on concrete inputs -/

theorem Run_4_2_1 :
    LevinsonDurbinRecursion.Run ⟨((2 : Nat) : Int), 0⟩ [4, 2, 1] = some ([1, -1 / 2, 0], true) := by
  simp [LevinsonDurbinRecursion.Run, LevinsonDurbinRecursion.IsValid, guarded, guardedStep,
    initial, step, update, parcor, nth, List.range, List.range.loop,
    Finset.sum_Ico_eq_sum_range, Finset.sum_range_succ]
  norm_num [abs_lt]

theorem energy_4_2_1 :
    energy [4, 2, 1] 0 = 4 ∧ energy [4, 2, 1] 1 = 3 ∧ energy [4, 2, 1] 2 = 3 := by
  refine ⟨?_, ?_, ?_⟩ <;>
    simp [energy, recursion, initial, step, update, parcor, nth, List.range, List.range.loop,
      Finset.sum_Ico_eq_sum_range, Finset.sum_range_succ] <;>
    norm_num

theorem Run_1_2 :
    LevinsonDurbinRecursion.Run ⟨((1 : Nat) : Int), 0⟩ [1, 2] = some ([1, -2], false) := by
  simp [LevinsonDurbinRecursion.Run, LevinsonDurbinRecursion.IsValid, guarded, guardedStep,
    initial, step, update, parcor, nth, List.range, List.range.loop]

/-! ### Instances of the claims on the recursions -/

/-- The normal equations of C1 at `r = [4, 2, 1]`, order 2. -/
theorem forward_solves_normal_equations_witness :
    (LevinsonDurbinRecursion.Run ⟨((2 : Nat) : Int), 0⟩ [4, 2, 1] =
        some ([1, -1 / 2, 0], true) ∧
      ∀ m, 1 ≤ m → m ≤ 2 → energy [4, 2, 1] (m - 1) ≠ 0) ∧
    (([1, -1 / 2, 0] : List ℚ).length = 2 + 1 ∧ nth [1, -1 / 2, 0] 0 = 1 ∧
      (∀ i, 1 ≤ i → i ≤ 2 →
        ∑ j ∈ Finset.range (2 + 1), nth [1, -1 / 2, 0] j * nth [4, 2, 1] (lag i j) = 0) ∧
      ∑ j ∈ Finset.range (2 + 1), nth [1, -1 / 2, 0] j * nth [4, 2, 1] j =
        energy [4, 2, 1] 2 ∧
      energy [4, 2, 1] 2 =
        nth [4, 2, 1] 0 * ∏ m ∈ Finset.Icc 1 2, (1 - reflection [4, 2, 1] m ^ 2)) :=
  have hE : ∀ m, 1 ≤ m → m ≤ 2 → energy [4, 2, 1] (m - 1) ≠ 0 := by
    intro m h1 h2
    interval_cases m
    · rw [energy_4_2_1.1]; norm_num
    · rw [energy_4_2_1.2.1]; norm_num
  ⟨⟨Run_4_2_1, hE⟩,
    forward_solves_normal_equations 2 0 [4, 2, 1] [1, -1 / 2, 0] true Run_4_2_1 hE⟩

/-- C3 at `r = [0, 5]`, order 1, `epsilon = 1`. -/
theorem forward_fails_iff_small_energy_witness :
    (1 ≤ 1 ∧ ([0, 5] : List ℚ).length = 1 + 1) ∧
    ((LevinsonDurbinRecursion.Run ⟨((1 : Nat) : Int), 1⟩ [0, 5] = none ↔
        ∃ m, 1 ≤ m ∧ m ≤ 1 ∧ |energy [0, 5] (m - 1)| < 1) ∧
      (nth [0, 5] 0 = 0 → (0 : ℚ) < 1 →
        guardedStep 1 [0, 5] 1 (initial [0, 5]) = none ∧
          LevinsonDurbinRecursion.Run ⟨((1 : Nat) : Int), 1⟩ [0, 5] = none)) :=
  ⟨⟨by decide, by decide⟩,
    forward_fails_iff_small_energy 1 1 [0, 5] (by decide) (by decide)⟩

/-- C4 at the unstable input `r = [1, 2]`, order 1, `epsilon = 0`. -/
theorem forward_succeeds_and_flags_witness :
    (([1, 2] : List ℚ).length = 1 + 1 ∧
      ∀ m, 1 ≤ m → m ≤ 1 → ¬ |energy [1, 2] (m - 1)| < 0) ∧
    LevinsonDurbinRecursion.Run ⟨((1 : Nat) : Int), 0⟩ [1, 2] = some ([1, -2], false) ∧
    ((∃ lpc is_stable,
        LevinsonDurbinRecursion.Run ⟨((1 : Nat) : Int), 0⟩ [1, 2] = some (lpc, is_stable) ∧
        lpc = (recursion [1, 2] 1).a ∧ lpc.length = 1 + 1 ∧ nth lpc 0 = 1 ∧
        (∀ m, 1 ≤ m → m ≤ 1 → nth lpc m =
          if m = 1 then reflection [1, 2] 1
          else nth (recursion [1, 2] (1 - 1)).a m +
            reflection [1, 2] 1 * nth (recursion [1, 2] (1 - 1)).a (1 - m)) ∧
        (is_stable = true ↔ ∀ m, 1 ≤ m → m ≤ 1 → |reflection [1, 2] m| < 1)) ∧
      (∀ (m : Nat) (s : LDState) (b : Bool),
        (step [1, 2] m { s with stable := b }).a = (step [1, 2] m s).a ∧
          (step [1, 2] m { s with stable := b }).e = (step [1, 2] m s).e)) :=
  have hE : ∀ m, 1 ≤ m → m ≤ 1 → ¬ |energy [1, 2] (m - 1)| < 0 := by
    intro m _ _
    exact not_lt.mpr (abs_nonneg _)
  ⟨⟨by decide, hE⟩, Run_1_2, forward_succeeds_and_flags 1 0 [1, 2] (by decide) hE⟩

/-- C5 at `lpc = [1, -1/2, 1]`, order 2, whose last coefficient has magnitude 1. -/
theorem reverse_fails_iff_large_reflection_witness :
    ([1, -1 / 2, 1] : List ℚ).length = 2 + 1 ∧
    ((ReverseLevinsonDurbinRecursion.Run ⟨((2 : Nat) : Int), 0⟩ [1, -1 / 2, 1] = none ↔
        ∃ m, 1 ≤ m ∧ m ≤ 2 ∧ 1 ≤ |reverseReflection 2 [1, -1 / 2, 1] m|) ∧
      ((¬ ∃ m, 1 ≤ m ∧ m ≤ 2 ∧ 1 ≤ |reverseReflection 2 [1, -1 / 2, 1] m|) →
        ∃ rs, ReverseLevinsonDurbinRecursion.Run ⟨((2 : Nat) : Int), 0⟩ [1, -1 / 2, 1] =
            some rs ∧ rs.length = 2 + 1)) :=
  ⟨by decide, reverse_fails_iff_large_reflection 2 0 [1, -1 / 2, 1] (by decide)⟩

/-! ### The option loops -/

theorem levdurOptions_error (env : Env) :
    ∀ (options : List (Char × String)) (c : Config) (o : Outcome),
      levdurOptions env options c = .error o →
        o.reads = 0 ∧ o.out = [] ∧ (o.code = 1 ∨ (o.code = 0 ∧ o.usage = some Sink.cout)) := by
  intro options
  induction options with
  | nil => intro c o h; simp [levdurOptions] at h
  | cons p rest ih =>
    intro c o h
    obtain ⟨ch, arg⟩ := p
    simp only [levdurOptions] at h
    split at h
    · split at h
      · simp only [Except.error.injEq] at h
        subst h; simp [Outcome.fail, Outcome.start]
      · split at h
        · simp only [Except.error.injEq] at h
          subst h; simp [Outcome.fail, Outcome.start]
        · exact ih _ o h
    · split at h
      · split at h
        · simp only [Except.error.injEq] at h
          subst h; simp [Outcome.fail, Outcome.start]
        · split at h
          · simp only [Except.error.injEq] at h
            subst h; simp [Outcome.fail, Outcome.start]
          · exact ih _ o h
      · split at h
        · split at h
          · simp only [Except.error.injEq] at h
            subst h; simp [Outcome.fail, Outcome.start]
          · split at h
            · simp only [Except.error.injEq] at h
              subst h; simp [Outcome.fail, Outcome.start]
            · exact ih _ o h
        · split at h
          · simp only [Except.error.injEq] at h
            subst h; simp [Outcome.start]
          · simp only [Except.error.injEq] at h
            subst h; simp [Outcome.start]

theorem rlevdurOptions_error (env : Env) :
    ∀ (options : List (Char × String)) (c : Config) (o : Outcome),
      rlevdurOptions env options c = .error o →
        o.reads = 0 ∧ o.out = [] ∧ (o.code = 1 ∨ (o.code = 0 ∧ o.usage = some Sink.cout)) := by
  intro options
  induction options with
  | nil => intro c o h; simp [rlevdurOptions] at h
  | cons p rest ih =>
    intro c o h
    obtain ⟨ch, arg⟩ := p
    simp only [rlevdurOptions] at h
    split at h
    · split at h
      · simp only [Except.error.injEq] at h
        subst h; simp [Outcome.fail, Outcome.start]
      · split at h
        · simp only [Except.error.injEq] at h
          subst h; simp [Outcome.fail, Outcome.start]
        · exact ih _ o h
    · split at h
      · split at h
        · simp only [Except.error.injEq] at h
          subst h; simp [Outcome.fail, Outcome.start]
        · split at h
          · simp only [Except.error.injEq] at h
            subst h; simp [Outcome.fail, Outcome.start]
          · exact ih _ o h
      · split at h
        · simp only [Except.error.injEq] at h
          subst h; simp [Outcome.start]
        · simp only [Except.error.injEq] at h
          subst h; simp [Outcome.start]

/-- One pass of the option loop of the forward tool: it returns, with value 1 unless
the option is `-h`, or goes on to the next option. -/
theorem levdurOptions_cons (env : Env) (p : Char × String) (rest : List (Char × String))
    (c : Config) :
    (∃ o, levdurOptions env (p :: rest) c = .error o ∧ (p.1 ≠ 'h' → o.code = 1)) ∨
      (∃ c2, levdurOptions env (p :: rest) c = levdurOptions env rest c2) := by
  obtain ⟨ch, arg⟩ := p
  simp only [levdurOptions]
  split
  · split
    · exact Or.inl ⟨_, rfl, fun _ => by simp [Outcome.fail]⟩
    · split
      · exact Or.inl ⟨_, rfl, fun _ => by simp [Outcome.fail]⟩
      · exact Or.inr ⟨_, rfl⟩
  · split
    · split
      · exact Or.inl ⟨_, rfl, fun _ => by simp [Outcome.fail]⟩
      · split
        · exact Or.inl ⟨_, rfl, fun _ => by simp [Outcome.fail]⟩
        · exact Or.inr ⟨_, rfl⟩
    · split
      · split
        · exact Or.inl ⟨_, rfl, fun _ => by simp [Outcome.fail]⟩
        · split
          · exact Or.inl ⟨_, rfl, fun _ => by simp [Outcome.fail]⟩
          · exact Or.inr ⟨_, rfl⟩
      · split
        · rename_i hh
          exact Or.inl ⟨_, rfl, fun hne => absurd hh hne⟩
        · exact Or.inl ⟨_, rfl, fun _ => rfl⟩

/-- One pass of the option loop of the reverse tool. -/
theorem rlevdurOptions_cons (env : Env) (p : Char × String) (rest : List (Char × String))
    (c : Config) :
    (∃ o, rlevdurOptions env (p :: rest) c = .error o ∧ (p.1 ≠ 'h' → o.code = 1)) ∨
      (∃ c2, rlevdurOptions env (p :: rest) c = rlevdurOptions env rest c2) := by
  obtain ⟨ch, arg⟩ := p
  simp only [rlevdurOptions]
  split
  · split
    · exact Or.inl ⟨_, rfl, fun _ => by simp [Outcome.fail]⟩
    · split
      · exact Or.inl ⟨_, rfl, fun _ => by simp [Outcome.fail]⟩
      · exact Or.inr ⟨_, rfl⟩
  · split
    · split
      · exact Or.inl ⟨_, rfl, fun _ => by simp [Outcome.fail]⟩
      · split
        · exact Or.inl ⟨_, rfl, fun _ => by simp [Outcome.fail]⟩
        · exact Or.inr ⟨_, rfl⟩
    · split
      · rename_i hh
        exact Or.inl ⟨_, rfl, fun hne => absurd hh hne⟩
      · exact Or.inl ⟨_, rfl, fun _ => rfl⟩

/-- The option loop of the forward tool returns at a violating option, or before it;
with no `-h` before it, the return value is 1. -/
theorem levdurOptions_violation (env : Env) (option : Char × String)
    (post : List (Char × String)) (hv : violatesNumerically env true option = true) :
    ∀ (pre : List (Char × String)) (c : Config),
      ∃ o, levdurOptions env (pre ++ option :: post) c = .error o ∧
        ((∀ p, p ∈ pre → p.1 ≠ 'h') → o.code = 1) := by
  intro pre
  induction pre with
  | nil =>
    intro c
    obtain ⟨ch, arg⟩ := option
    simp only [violatesNumerically, Bool.or_eq_true, Bool.and_eq_true, beq_iff_eq, Bool.true_and] at hv
    simp only [List.nil_append, levdurOptions]
    rcases hv with (⟨hm, hi⟩ | ⟨hf, hi⟩) | ⟨he, hi⟩
    · subst hm
      simp only [invalidOrder] at hi
      cases hconv : env.ConvertStringToInteger arg with
      | none =>
        simp only [hconv, if_true]
        exact ⟨_, rfl, fun _ => by simp [Outcome.fail]⟩
      | some n =>
        simp only [hconv, decide_eq_true_eq] at hi
        simp only [hconv, hi, if_true]
        exact ⟨_, rfl, fun _ => by simp [Outcome.fail]⟩
    · subst hf
      cases hconv : env.ConvertStringToDouble arg with
      | none =>
        simp only [hconv, if_true]
        exact ⟨_, rfl, fun _ => by simp [Outcome.fail]⟩
      | some x =>
        have hx : x.ltZero = true := by
          simp only [negativeEpsilon, hconv] at hi
          cases x <;> simpa [Double.ltZero] using hi
        simp only [hconv, hx, if_true]
        exact ⟨_, rfl, fun _ => by simp [Outcome.fail]⟩
    · subst he
      simp only [invalidWarning] at hi
      cases hconv : env.ConvertStringToInteger arg with
      | none =>
        simp only [hconv, if_true]
        exact ⟨_, rfl, fun _ => by simp [Outcome.fail]⟩
      | some n =>
        simp only [hconv, Bool.not_eq_true', decide_eq_false_iff_not] at hi
        have hr : IsInRange n 0 (WarningType.kNumWarningTypes.toInt - 1) = false := by
          simp only [IsInRange, WarningType.toInt, decide_eq_false_iff_not]
          intro hc
          exact hi ⟨hc.1, by omega⟩
        simp only [hconv, hr, if_true]
        exact ⟨_, rfl, fun _ => by simp [Outcome.fail]⟩
  | cons p pre ih =>
    intro c
    rcases levdurOptions_cons env p (pre ++ option :: post) c with ⟨o, ho, hc⟩ | ⟨c2, hc2⟩
    · exact ⟨o, ho, fun hnoh => hc (hnoh p (List.mem_cons_self _ _))⟩
    · obtain ⟨o, ho, hc⟩ := ih c2
      refine ⟨o, ?_, fun hnoh => hc (fun q hq => hnoh q (List.mem_cons_of_mem _ hq))⟩
      rw [List.cons_append, hc2, ho]

/-- The option loop of the reverse tool returns at a violating option, or before it;
with no `-h` before it, the return value is 1. -/
theorem rlevdurOptions_violation (env : Env) (option : Char × String)
    (post : List (Char × String)) (hv : violatesNumerically env false option = true) :
    ∀ (pre : List (Char × String)) (c : Config),
      ∃ o, rlevdurOptions env (pre ++ option :: post) c = .error o ∧
        ((∀ p, p ∈ pre → p.1 ≠ 'h') → o.code = 1) := by
  intro pre
  induction pre with
  | nil =>
    intro c
    obtain ⟨ch, arg⟩ := option
    simp only [violatesNumerically, Bool.or_eq_true, Bool.and_eq_true, beq_iff_eq, Bool.false_and,
      Bool.false_eq_true, or_false] at hv
    simp only [List.nil_append, rlevdurOptions]
    rcases hv with ⟨hm, hi⟩ | ⟨hf, hi⟩
    · subst hm
      simp only [invalidOrder] at hi
      cases hconv : env.ConvertStringToInteger arg with
      | none =>
        simp only [hconv, if_true]
        exact ⟨_, rfl, fun _ => by simp [Outcome.fail]⟩
      | some n =>
        simp only [hconv, decide_eq_true_eq] at hi
        simp only [hconv, hi, if_true]
        exact ⟨_, rfl, fun _ => by simp [Outcome.fail]⟩
    · subst hf
      cases hconv : env.ConvertStringToDouble arg with
      | none =>
        simp only [hconv, if_true]
        exact ⟨_, rfl, fun _ => by simp [Outcome.fail]⟩
      | some x =>
        have hx : x.ltZero = true := by
          simp only [negativeEpsilon, hconv] at hi
          cases x <;> simpa [Double.ltZero] using hi
        simp only [hconv, hx, if_true]
        exact ⟨_, rfl, fun _ => by simp [Outcome.fail]⟩
  | cons p pre ih =>
    intro c
    rcases rlevdurOptions_cons env p (pre ++ option :: post) c with ⟨o, ho, hc⟩ | ⟨c2, hc2⟩
    · exact ⟨o, ho, fun hnoh => hc (hnoh p (List.mem_cons_self _ _))⟩
    · obtain ⟨o, ho, hc⟩ := ih c2
      refine ⟨o, ?_, fun hnoh => hc (fun q hq => hnoh q (List.mem_cons_of_mem _ hq))⟩
      rw [List.cons_append, hc2, ho]

/-- The option loop of the forward tool goes through accepted options. -/
theorem levdurOptions_accepted (env : Env) (rest : List (Char × String)) :
    ∀ (before : List (Char × String)) (c : Config),
      (∀ p, p ∈ before → accepted env true p = true) →
      ∃ c2, levdurOptions env (before ++ rest) c = levdurOptions env rest c2 := by
  intro before
  induction before with
  | nil => intro c _; exact ⟨c, rfl⟩
  | cons p before ih =>
    intro c h
    have hp := h p (List.mem_cons_self _ _)
    have hrest : ∀ q, q ∈ before → accepted env true q = true :=
      fun q hq => h q (List.mem_cons_of_mem _ hq)
    obtain ⟨ch, arg⟩ := p
    simp only [accepted, Bool.and_eq_true, Bool.or_eq_true, beq_iff_eq, Bool.not_eq_true',
      Bool.true_and, Bool.false_and, Bool.false_eq_true, or_false] at hp
    obtain ⟨hch, hnv⟩ := hp
    simp only [List.cons_append, levdurOptions]
    by_cases hm : ch = 'm'
    · subst hm
      have hio : invalidOrder env arg = false := by
        simpa [violatesNumerically] using hnv
      cases hconv : env.ConvertStringToInteger arg with
      | none => simp [invalidOrder, hconv] at hio
      | some n =>
        have hn : ¬ n < 0 := by simpa [invalidOrder, hconv] using hio
        simp only [hconv, hn, if_true, if_false]
        exact ih _ hrest
    · by_cases hf : ch = 'f'
      · subst hf
        have hie : negativeEpsilon env arg = false := by
          simpa [violatesNumerically] using hnv
        cases hconv : env.ConvertStringToDouble arg with
        | none => simp [negativeEpsilon, hconv] at hie
        | some x =>
          have hx : x.ltZero = false := by
            simp only [negativeEpsilon, hconv] at hie
            cases x <;> simpa [Double.ltZero] using hie
          simp only [hconv, hx, if_true]
          simp only [Bool.false_eq_true, if_false, hm]
          exact ih _ hrest
      · have he : ch = 'e' := by
          rcases hch with (h1 | h1) | h1
          · exact absurd h1 hm
          · exact absurd h1 hf
          · exact h1
        subst he
        have hiw : invalidWarning env arg = false := by
          simpa [violatesNumerically] using hnv
        cases hconv : env.ConvertStringToInteger arg with
        | none => simp [invalidWarning, hconv] at hiw
        | some n =>
          have hn : IsInRange n 0 (WarningType.kNumWarningTypes.toInt - 1) = true := by
            simp only [invalidWarning, hconv, Bool.not_eq_false', decide_eq_true_eq] at hiw
            simp only [IsInRange, WarningType.toInt, decide_eq_true_eq]
            omega
          simp only [hconv, hn, if_true]
          simp only [Bool.true_eq_false, if_false, hm, hf]
          exact ih _ hrest

/-- The option loop of the reverse tool goes through accepted options. -/
theorem rlevdurOptions_accepted (env : Env) (rest : List (Char × String)) :
    ∀ (before : List (Char × String)) (c : Config),
      (∀ p, p ∈ before → accepted env false p = true) →
      ∃ c2, rlevdurOptions env (before ++ rest) c = rlevdurOptions env rest c2 := by
  intro before
  induction before with
  | nil => intro c _; exact ⟨c, rfl⟩
  | cons p before ih =>
    intro c h
    have hp := h p (List.mem_cons_self _ _)
    have hrest : ∀ q, q ∈ before → accepted env false q = true :=
      fun q hq => h q (List.mem_cons_of_mem _ hq)
    obtain ⟨ch, arg⟩ := p
    simp only [accepted, Bool.and_eq_true, Bool.or_eq_true, beq_iff_eq, Bool.not_eq_true',
      Bool.true_and, Bool.false_and, Bool.false_eq_true, or_false] at hp
    obtain ⟨hch, hnv⟩ := hp
    simp only [List.cons_append, rlevdurOptions]
    by_cases hm : ch = 'm'
    · subst hm
      have hio : invalidOrder env arg = false := by
        simpa [violatesNumerically] using hnv
      cases hconv : env.ConvertStringToInteger arg with
      | none => simp [invalidOrder, hconv] at hio
      | some n =>
        have hn : ¬ n < 0 := by simpa [invalidOrder, hconv] using hio
        simp only [hconv, hn, if_true, if_false]
        exact ih _ hrest
    · by_cases hf : ch = 'f'
      · subst hf
        have hie : negativeEpsilon env arg = false := by
          simpa [violatesNumerically] using hnv
        cases hconv : env.ConvertStringToDouble arg with
        | none => simp [negativeEpsilon, hconv] at hie
        | some x =>
          have hx : x.ltZero = false := by
            simp only [negativeEpsilon, hconv] at hie
            cases x <;> simpa [Double.ltZero] using hie
          simp only [hconv, hx, if_true]
          simp only [Bool.false_eq_true, if_false, hm]
          exact ih _ hrest
      · exfalso
        rcases hch with h1 | h1
        · exact hm h1
        · exact hf h1

/-- The option loop of the forward tool returns at the first option it does not accept:
0 with the usage on standard output and nothing else when that option is `-h`, 1
otherwise. -/
theorem levdurOptions_first (env : Env) (before : List (Char × String)) (q : Char × String)
    (after : List (Char × String)) (c : Config)
    (hbefore : ∀ p, p ∈ before → accepted env true p = true)
    (hq : accepted env true q = false) :
    ∃ o, levdurOptions env (before ++ q :: after) c = .error o ∧
      (q.1 = 'h' → o = ⟨0, [], [], some Sink.cout, 0⟩) ∧ (q.1 ≠ 'h' → o.code = 1) := by
  obtain ⟨c2, hc2⟩ := levdurOptions_accepted env (q :: after) before c hbefore
  rw [hc2]
  by_cases hv : violatesNumerically env true q = true
  · obtain ⟨o, ho, hcode⟩ := levdurOptions_violation env q after hv [] c2
    refine ⟨o, ho, ?_, fun _ => hcode (fun p hp => by simp at hp)⟩
    intro hh
    exfalso
    obtain ⟨ch, arg⟩ := q
    simp only at hh
    subst hh
    simp [violatesNumerically] at hv
  · obtain ⟨ch, arg⟩ := q
    have hch : ch ≠ 'm' ∧ ch ≠ 'f' ∧ (true = true → ch ≠ 'e') := by
      simp only [accepted, hv, Bool.and_eq_false_imp, Bool.or_eq_true, beq_iff_eq] at hq
      refine ⟨fun h => ?_, fun h => ?_, fun hf h => ?_⟩
      · simpa using hq (Or.inl (Or.inl h))
      · simpa using hq (Or.inl (Or.inr h))
      · simpa using hq (Or.inr (by simp [h]))
    obtain ⟨h1, h2, h3⟩ := hch
    have h4 : ch ≠ 'e' ∨ true = false := by
      by_cases he : ch = 'e'
      · right
        by_contra hb
        exact h3 (by simpa using hb) he
      · exact Or.inl he
    by_cases hh : ch = 'h'
    · subst hh
      refine ⟨⟨0, [], [], some Sink.cout, 0⟩, ?_, fun _ => rfl, fun hne => absurd rfl hne⟩
      simp [levdurOptions, Outcome.start]
    · refine ⟨⟨1, [], [], some Sink.cerr, 0⟩, ?_, fun hc => absurd hc hh, fun _ => rfl⟩
      rcases h4 with he | hb
      · simp [levdurOptions, h1, h2, he, hh, Outcome.start]
      · exact absurd hb (by decide)

/-- The option loop of the reverse tool returns at the first option it does not accept:
0 with the usage on standard output and nothing else when that option is `-h`, 1
otherwise. -/
theorem rlevdurOptions_first (env : Env) (before : List (Char × String)) (q : Char × String)
    (after : List (Char × String)) (c : Config)
    (hbefore : ∀ p, p ∈ before → accepted env false p = true)
    (hq : accepted env false q = false) :
    ∃ o, rlevdurOptions env (before ++ q :: after) c = .error o ∧
      (q.1 = 'h' → o = ⟨0, [], [], some Sink.cout, 0⟩) ∧ (q.1 ≠ 'h' → o.code = 1) := by
  obtain ⟨c2, hc2⟩ := rlevdurOptions_accepted env (q :: after) before c hbefore
  rw [hc2]
  by_cases hv : violatesNumerically env false q = true
  · obtain ⟨o, ho, hcode⟩ := rlevdurOptions_violation env q after hv [] c2
    refine ⟨o, ho, ?_, fun _ => hcode (fun p hp => by simp at hp)⟩
    intro hh
    exfalso
    obtain ⟨ch, arg⟩ := q
    simp only at hh
    subst hh
    simp [violatesNumerically] at hv
  · obtain ⟨ch, arg⟩ := q
    have hch : ch ≠ 'm' ∧ ch ≠ 'f' ∧ (false = true → ch ≠ 'e') := by
      simp only [accepted, hv, Bool.and_eq_false_imp, Bool.or_eq_true, beq_iff_eq] at hq
      refine ⟨fun h => ?_, fun h => ?_, fun hf h => ?_⟩
      · simpa using hq (Or.inl (Or.inl h))
      · simpa using hq (Or.inl (Or.inr h))
      · exact absurd hf (by decide)
    obtain ⟨h1, h2, h3⟩ := hch
    have h4 : ch ≠ 'e' ∨ false = false := by
      by_cases he : ch = 'e'
      · right
        by_contra hb
        exact h3 (by simpa using hb) he
      · exact Or.inl he
    by_cases hh : ch = 'h'
    · subst hh
      refine ⟨⟨0, [], [], some Sink.cout, 0⟩, ?_, fun _ => rfl, fun hne => absurd rfl hne⟩
      simp [rlevdurOptions, Outcome.start]
    · refine ⟨⟨1, [], [], some Sink.cerr, 0⟩, ?_, fun hc => absurd hc hh, fun _ => rfl⟩
      rcases h4 with he | hb
      · simp [rlevdurOptions, h1, h2, he, hh, Outcome.start]
      · simp [rlevdurOptions, h1, h2, hh, Outcome.start]

/-! ### From `main` to the frame loop -/

theorem levdurOptions_ok (env : Env) :
    ∀ (options : List (Char × String)) (c c2 : Config),
      levdurOptions env options c = .ok c2 → 0 ≤ c.num_order → c.epsilon.ltZero = false →
        0 ≤ c2.num_order ∧ c2.epsilon.ltZero = false := by
  intro options
  induction options with
  | nil =>
    intro c c2 h h1 h2
    simp only [levdurOptions, Except.ok.injEq] at h
    subst h
    exact ⟨h1, h2⟩
  | cons p rest ih =>
    intro c c2 h h1 h2
    obtain ⟨ch, arg⟩ := p
    simp only [levdurOptions] at h
    split at h
    · split at h
      · simp at h
      · split at h
        · simp at h
        · rename_i hn
          exact ih _ c2 h (by simpa using hn) h2
    · split at h
      · split at h
        · simp at h
        · split at h
          · simp at h
          · rename_i hn
            exact ih _ c2 h h1 (by simpa using hn)
      · split at h
        · split at h
          · simp at h
          · split at h
            · simp at h
            · exact ih _ c2 h h1 h2
        · split at h <;> simp at h

theorem rlevdurOptions_ok (env : Env) :
    ∀ (options : List (Char × String)) (c c2 : Config),
      rlevdurOptions env options c = .ok c2 → 0 ≤ c.num_order → c.epsilon.ltZero = false →
        0 ≤ c2.num_order ∧ c2.epsilon.ltZero = false := by
  intro options
  induction options with
  | nil =>
    intro c c2 h h1 h2
    simp only [rlevdurOptions, Except.ok.injEq] at h
    subst h
    exact ⟨h1, h2⟩
  | cons p rest ih =>
    intro c c2 h h1 h2
    obtain ⟨ch, arg⟩ := p
    simp only [rlevdurOptions] at h
    split at h
    · split at h
      · simp at h
      · split at h
        · simp at h
        · rename_i hn
          exact ih _ c2 h (by simpa using hn) h2
    · split at h
      · split at h
        · simp at h
        · split at h
          · simp at h
          · rename_i hn
            exact ih _ c2 h h1 (by simpa using hn)
      · split at h <;> simp at h

/-- Past the option loop, with at most one file argument and an input that opens,
`main` of the forward tool is its frame loop from frame 0. -/
theorem levdur_eq_loop (env : Env) (cl : CommandLine) (c : Config) (input : List ℚ)
    (hopt : levdurOptions env cl.options
      ⟨kDefaultNumOrder, kDefaultEpsilon, kDefaultWarningType⟩ = .ok c)
    (hfiles : cl.files.length ≤ 1)
    (hopen : openInput env cl.files.head? = some input) :
    levdur env cl =
      levdurLoop env ⟨c.num_order, c.epsilon⟩ c.warning_type (wrapInt (c.num_order + 1)) 0 input
        Outcome.start := by
  have hc := levdurOptions_ok env cl.options _ c hopt (by decide)
    Double.ltZero_zero
  have hf : ¬ 1 < cl.files.length := by omega
  simp [levdur, hopt, hf, hopen, LevinsonDurbinRecursion.IsValid, hc.1]

/-- Past the option loop, with at most one file argument and an input that opens,
`main` of the reverse tool is its frame loop from frame 0. -/
theorem rlevdur_eq_loop (env : Env) (cl : CommandLine) (c : Config) (input : List ℚ)
    (hopt : rlevdurOptions env cl.options
      ⟨kDefaultNumOrder, kDefaultEpsilon, kDefaultWarningType⟩ = .ok c)
    (hfiles : cl.files.length ≤ 1)
    (hopen : openInput env cl.files.head? = some input) :
    rlevdur env cl =
      rlevdurLoop env ⟨c.num_order, c.epsilon⟩ (wrapInt (c.num_order + 1)) 0 input Outcome.start := by
  have hc := rlevdurOptions_ok env cl.options _ c hopt (by decide)
    Double.ltZero_zero
  have hf : ¬ 1 < cl.files.length := by omega
  simp [rlevdur, hopt, hf, hopen, ReverseLevinsonDurbinRecursion.IsValid, hc.1]

theorem levdurDone_false (env : Env) (ld : LevinsonDurbinRecursion) (w : WarningType)
    (i : Nat) (frame : List ℚ) (h : levdurDone env ld w i frame = false) :
    ld.Run frame = none ∨
      (∃ lpc, ld.Run frame = some (lpc, false) ∧ w = WarningType.kExit) ∨
      (∃ lpc is_stable, ld.Run frame = some (lpc, is_stable) ∧ env.write_ok i = false) := by
  unfold levdurDone at h
  cases hrun : ld.Run frame with
  | none => exact Or.inl rfl
  | some p =>
    obtain ⟨lpc, st⟩ := p
    simp only [hrun, Bool.and_eq_false_imp, Bool.not_eq_true', Bool.and_eq_false_imp,
      beq_iff_eq] at h
    right
    by_cases hx : st = false ∧ w = WarningType.kExit
    · left
      exact ⟨lpc, by rw [hx.1], hx.2⟩
    · right
      refine ⟨lpc, st, rfl, h ?_⟩
      cases st with
      | true => simp
      | false =>
        have : ¬ w = WarningType.kExit := fun hw => hx ⟨rfl, hw⟩
        simp [this]

/-! ## The claims on the tools -/

/-- C6: in the forward tool's frame loop, on a frame (number `i`) on which `Run`
succeeds with `is_stable = false`: under policy 0 (`kIgnore`) no diagnostic is added,
the frame's coefficients are written and the loop goes on with frame `i + 1`; under
policy 1 (`kWarn`) the one diagnostic naming `i` is added, the coefficients are
written and the loop goes on with frame `i + 1`; under policy 2 (`kExit`) the
diagnostic is added and `main` returns 1 with nothing written for the frame.  On a
frame with `is_stable = true` no diagnostic is added under any policy.  What is
written or added for the frame stays in the output and the diagnostics of the whole
run.  (Where the coefficients are written, the write is taken to succeed.) -/
theorem unstable_frame_warning_policy (env : Env) (ld : LevinsonDurbinRecursion)
    (w : WarningType) (length : Int) (i : Nat) (input frame rest : List ℚ) (o : Outcome)
    (lpc : List ℚ) (is_stable : Bool)
    (hread : ReadStream length input = some (frame, rest))
    (hrun : ld.Run frame = some (lpc, is_stable)) :
    (is_stable = false → w = WarningType.kIgnore → env.write_ok i = true →
        levdurLoop env ld w length i input o =
          levdurLoop env ld w length (i + 1) rest
            { o with reads := o.reads + 1, out := o.out ++ [WriteStream 0 length lpc] } ∧
        (o.out ++ [WriteStream 0 length lpc]) <+:
          (levdurLoop env ld w length i input o).out) ∧
      (is_stable = false → w = WarningType.kWarn → env.write_ok i = true →
        levdurLoop env ld w length i input o =
          levdurLoop env ld w length (i + 1) rest
            { o with
              reads := o.reads + 1
              err := o.err ++ [("levdur", toString i ++ "th frame is unstable")]
              out := o.out ++ [WriteStream 0 length lpc] } ∧
        (o.err ++ [("levdur", toString i ++ "th frame is unstable")]) <+:
          (levdurLoop env ld w length i input o).err ∧
        (o.out ++ [WriteStream 0 length lpc]) <+:
          (levdurLoop env ld w length i input o).out) ∧
      (is_stable = false → w = WarningType.kExit →
        levdurLoop env ld w length i input o =
          { o with
            reads := o.reads + 1
            err := o.err ++ [("levdur", toString i ++ "th frame is unstable")]
            code := 1 }) ∧
      (is_stable = true → env.write_ok i = true →
        levdurLoop env ld w length i input o =
          levdurLoop env ld w length (i + 1) rest
            { o with reads := o.reads + 1, out := o.out ++ [WriteStream 0 length lpc] } ∧
        (o.out ++ [WriteStream 0 length lpc]) <+:
          (levdurLoop env ld w length i input o).out) := by
  refine ⟨?_, ?_, ?_, ?_⟩
  · intro hs hw hwr
    have he : levdurLoop env ld w length i input o =
        levdurLoop env ld w length (i + 1) rest
          { o with reads := o.reads + 1, out := o.out ++ [WriteStream 0 length lpc] } := by
      rw [levdurLoop_eq, hread]
      simp [hrun, hs, hw, hwr]
    refine ⟨he, ?_⟩
    rw [he]
    exact (levdurLoop_extends env ld w length rest (i + 1)
      { o with reads := o.reads + 1, out := o.out ++ [WriteStream 0 length lpc] }).1
  · intro hs hw hwr
    have he : levdurLoop env ld w length i input o =
        levdurLoop env ld w length (i + 1) rest
          { o with
            reads := o.reads + 1
            err := o.err ++ [("levdur", toString i ++ "th frame is unstable")]
            out := o.out ++ [WriteStream 0 length lpc] } := by
      rw [levdurLoop_eq, hread]
      simp [hrun, hs, hw, hwr, Outcome.warn]
    refine ⟨he, ?_, ?_⟩
    · rw [he]
      exact (levdurLoop_extends env ld w length rest (i + 1)
        { o with
          reads := o.reads + 1
          err := o.err ++ [("levdur", toString i ++ "th frame is unstable")]
          out := o.out ++ [WriteStream 0 length lpc] }).2
    · rw [he]
      exact (levdurLoop_extends env ld w length rest (i + 1)
        { o with
          reads := o.reads + 1
          err := o.err ++ [("levdur", toString i ++ "th frame is unstable")]
          out := o.out ++ [WriteStream 0 length lpc] }).1
  · intro hs hw
    rw [levdurLoop_eq, hread]
    simp [hrun, hs, hw, Outcome.warn]
  · intro hs hwr
    have he : levdurLoop env ld w length i input o =
        levdurLoop env ld w length (i + 1) rest
          { o with reads := o.reads + 1, out := o.out ++ [WriteStream 0 length lpc] } := by
      rw [levdurLoop_eq, hread]
      simp [hrun, hs, hwr]
    refine ⟨he, ?_⟩
    rw [he]
    exact (levdurLoop_extends env ld w length rest (i + 1)
      { o with reads := o.reads + 1, out := o.out ++ [WriteStream 0 length lpc] }).1

/-- C7 (as amended): in both tools a write failure is fatal: `main` returns 1 from the
body of that frame, with no further read and nothing written for the frame.  A read
failure (end of input or a short trailing frame) ends the frame loop and `main`
returns 0.  Exit code 0 is returned exactly when every complete frame of the input
was solved and written successfully (and, in the forward tool, was not an unstable
frame under policy 2). -/
theorem write_failure_fatal_read_failure_ends (env : Env) (ld : LevinsonDurbinRecursion)
    (rld : ReverseLevinsonDurbinRecursion) (w : WarningType) (length : Int) (i : Nat)
    (input : List ℚ) (o : Outcome) :
    ((ReadStream length input = none →
          levdurLoop env ld w length i input o =
            { o with code := 0, reads := o.reads + 1 }) ∧
        (∀ frame rest lpc is_stable, ReadStream length input = some (frame, rest) →
          ld.Run frame = some (lpc, is_stable) →
          ¬ (is_stable = false ∧ w = WarningType.kExit) → env.write_ok i = false →
          (levdurLoop env ld w length i input o).code = 1 ∧
            (levdurLoop env ld w length i input o).reads = o.reads + 1 ∧
            (levdurLoop env ld w length i input o).out = o.out) ∧
        ((levdurLoop env ld w length i input o).code = 0 ↔
          ∀ j, j < numFrames length.toNat input →
            levdurDone env ld w (i + j) (frameAt length.toNat input j) = true)) ∧
      ((ReadStream length input = none →
          rlevdurLoop env rld length i input o =
            { o with code := 0, reads := o.reads + 1 }) ∧
        (∀ frame rest rs, ReadStream length input = some (frame, rest) →
          rld.Run frame = some rs → env.write_ok i = false →
          (rlevdurLoop env rld length i input o).code = 1 ∧
            (rlevdurLoop env rld length i input o).reads = o.reads + 1 ∧
            (rlevdurLoop env rld length i input o).out = o.out) ∧
        ((rlevdurLoop env rld length i input o).code = 0 ↔
          ∀ j, j < numFrames length.toNat input →
            rlevdurDone env rld (i + j) (frameAt length.toNat input j) = true)) := by
  refine ⟨⟨?_, ?_, ?_⟩, ⟨?_, ?_, ?_⟩⟩
  · intro h
    rw [levdurLoop_eq, h]
  · intro frame rest lpc st hread hrun hx hwr
    have hd : levdurDone env ld w i frame = false := by
      simp [levdurDone, hrun, hwr]
    obtain ⟨h1, h2, h3⟩ := levdurLoop_stop env ld w length i input frame rest o hread hd
    exact ⟨h1, h3, h2⟩
  · obtain ⟨k, hk, hall, _, _, hkc⟩ := levdurLoop_spec env ld w length input i o
    constructor
    · intro hcode
      rcases hkc with ⟨hk1, _⟩ | ⟨_, hk2, _⟩
      · intro j hj
        exact hall j (by omega)
      · rw [hk2] at hcode
        norm_num at hcode
    · intro hdone
      rcases hkc with ⟨_, hk2⟩ | ⟨hk1, _, hk3⟩
      · exact hk2
      · rw [hdone k hk1] at hk3
        simp at hk3
  · intro h
    rw [rlevdurLoop_eq, h]
  · intro frame rest rs hread hrun hwr
    have hd : rlevdurDone env rld i frame = false := by
      simp [rlevdurDone, hrun, hwr]
    obtain ⟨h1, h2, h3⟩ := rlevdurLoop_stop env rld length i input frame rest o hread hd
    exact ⟨h1, h3, h2⟩
  · obtain ⟨k, hk, hall, _, _, hkc⟩ := rlevdurLoop_spec env rld length input i o
    constructor
    · intro hcode
      rcases hkc with ⟨hk1, _⟩ | ⟨_, hk2, _⟩
      · intro j hj
        exact hall j (by omega)
      · rw [hk2] at hcode
        norm_num at hcode
    · intro hdone
      rcases hkc with ⟨_, hk2⟩ | ⟨hk1, _, hk3⟩
      · exact hk2
      · rw [hdone k hk1] at hk3
        simp at hk3

/-- C8 (as amended): in the forward tool, if the frame loop stops before the input
is exhausted (it makes no read beyond the last complete frame), then `main` returns 1
and, on the frame at which it stopped, either `Run` returned false, or `Run`
succeeded with `is_stable = false` under policy 2, or `Run` succeeded and the write
of the frame's coefficients failed. -/
theorem early_stop_causes (env : Env) (ld : LevinsonDurbinRecursion) (w : WarningType)
    (length : Int) (input : List ℚ) (o : Outcome)
    (hstop : (levdurLoop env ld w length 0 input o).reads ≤
      o.reads + numFrames length.toNat input) :
    ∃ j, j < numFrames length.toNat input ∧
      (levdurLoop env ld w length 0 input o).reads = o.reads + j + 1 ∧
      (levdurLoop env ld w length 0 input o).code = 1 ∧
      (ld.Run (frameAt length.toNat input j) = none ∨
        (∃ lpc, ld.Run (frameAt length.toNat input j) = some (lpc, false) ∧
          w = WarningType.kExit) ∨
        (∃ lpc is_stable, ld.Run (frameAt length.toNat input j) = some (lpc, is_stable) ∧
          env.write_ok j = false)) := by
  obtain ⟨k, hk, _, _, hkr, hkc⟩ := levdurLoop_spec env ld w length input 0 o
  rcases hkc with ⟨hk1, _⟩ | ⟨hk1, hk2, hk3⟩
  · rw [hkr] at hstop
    omega
  · refine ⟨k, hk1, hkr, hk2, ?_⟩
    have := levdurDone_false env ld w (0 + k) _ hk3
    simpa using this

/-- C9: in the reverse tool, for every command line that reaches the frame loop and
every input stream, if `Run` returns false on frame `i` (the frames before it having
been solved and written), `main` returns 1, the output consists exactly of the
reconstructed autocorrelation frames of frames `0..i-1` in order, and no frame after
frame `i` is read. -/
theorem reverse_failure_is_fatal (env : Env) (cl : CommandLine) (c : Config)
    (input : List ℚ) (i : Nat)
    (hopt : rlevdurOptions env cl.options
      ⟨kDefaultNumOrder, kDefaultEpsilon, kDefaultWarningType⟩ = .ok c)
    (hfiles : cl.files.length ≤ 1)
    (hopen : openInput env cl.files.head? = some input)
    (hi : i < numFrames (wrapInt (c.num_order + 1)).toNat input)
    (hprev : ∀ j, j < i →
      rlevdurDone env ⟨c.num_order, c.epsilon⟩ j
        (frameAt (wrapInt (c.num_order + 1)).toNat input j) = true)
    (hfail : ReverseLevinsonDurbinRecursion.Run ⟨c.num_order, c.epsilon⟩
      (frameAt (wrapInt (c.num_order + 1)).toNat input i) = none) :
    (rlevdur env cl).code = 1 ∧
      (rlevdur env cl).out = (List.range i).map (fun j =>
        rlevdurChunk ⟨c.num_order, c.epsilon⟩ (wrapInt (c.num_order + 1))
          (frameAt (wrapInt (c.num_order + 1)).toNat input j)) ∧
      (rlevdur env cl).reads = i + 1 := by
  rw [rlevdur_eq_loop env cl c input hopt hfiles hopen]
  obtain ⟨k, hk, hall, hko, hkr, hkc⟩ :=
    rlevdurLoop_spec env ⟨c.num_order, c.epsilon⟩ (wrapInt (c.num_order + 1)) input 0 Outcome.start
  have hnot : rlevdurDone env ⟨c.num_order, c.epsilon⟩ i
      (frameAt (wrapInt (c.num_order + 1)).toNat input i) = false := by
    simp [rlevdurDone, hfail]
  have hki : k = i := by
    rcases Nat.lt_trichotomy k i with hlt | heq | hgt
    · exfalso
      rcases hkc with ⟨hk1, _⟩ | ⟨_, _, hk3⟩
      · omega
      · have := hprev k hlt
        rw [Nat.zero_add] at hk3
        rw [this] at hk3
        simp at hk3
    · exact heq
    · exfalso
      have := hall i hgt
      rw [Nat.zero_add, hnot] at this
      simp at this
  subst hki
  rcases hkc with ⟨hk1, _⟩ | ⟨_, hk2, _⟩
  · omega
  · refine ⟨hk2, ?_, ?_⟩
    · rw [hko]; simp [Outcome.start]
    · rw [hkr]; simp [Outcome.start]

/-- C10 (as amended): for every command line of the forward or reverse tool in which
an option is rejected by its test (`-m` whose argument is not an integer or is
negative, `-f` whose argument is not a number or is negative, or for the forward tool
`-e` whose argument is not an integer in `0..2`), `main` returns without reading or
writing any frame, and it returns 1 or, with the usage printed to standard output, 0.
It returns 1 when no `-h` comes before that option.  It returns 0, having printed the
usage to standard output and nothing else, when a `-h` comes before that option and
every option before the `-h` is an accepted `-m`, `-f` or `-e`.  It returns 1 when an
option other than `-h` that is not accepted comes before that option with only
accepted options before it. -/
theorem invalid_option_exits (env : Env) (cl : CommandLine)
    (pre post : List (Char × String)) (option : Char × String)
    (hopts : cl.options = pre ++ option :: post) :
    (violatesNumerically env true option = true →
        (levdur env cl).reads = 0 ∧ (levdur env cl).out = [] ∧
          ((levdur env cl).code = 1 ∨
            ((levdur env cl).code = 0 ∧ (levdur env cl).usage = some Sink.cout)) ∧
          ((∀ p, p ∈ pre → p.1 ≠ 'h') → (levdur env cl).code = 1) ∧
          (∀ before arg after, pre = before ++ ('h', arg) :: after →
            (∀ p, p ∈ before → accepted env true p = true) →
            levdur env cl = ⟨0, [], [], some Sink.cout, 0⟩) ∧
          (∀ before q after, pre = before ++ q :: after →
            (∀ p, p ∈ before → accepted env true p = true) →
            accepted env true q = false → q.1 ≠ 'h' → (levdur env cl).code = 1)) ∧
      (violatesNumerically env false option = true →
        (rlevdur env cl).reads = 0 ∧ (rlevdur env cl).out = [] ∧
          ((rlevdur env cl).code = 1 ∨
            ((rlevdur env cl).code = 0 ∧ (rlevdur env cl).usage = some Sink.cout)) ∧
          ((∀ p, p ∈ pre → p.1 ≠ 'h') → (rlevdur env cl).code = 1) ∧
          (∀ before arg after, pre = before ++ ('h', arg) :: after →
            (∀ p, p ∈ before → accepted env false p = true) →
            rlevdur env cl = ⟨0, [], [], some Sink.cout, 0⟩) ∧
          (∀ before q after, pre = before ++ q :: after →
            (∀ p, p ∈ before → accepted env false p = true) →
            accepted env false q = false → q.1 ≠ 'h' → (rlevdur env cl).code = 1)) := by
  constructor
  · intro hv
    obtain ⟨o, ho, hc⟩ := levdurOptions_violation env option post hv pre
      ⟨kDefaultNumOrder, kDefaultEpsilon, kDefaultWarningType⟩
    have he := levdurOptions_error env _ _ o ho
    have hl : levdur env cl = o := by
      simp [levdur, hopts, ho]
    refine ⟨?_, ?_, ?_, ?_, ?_, ?_⟩
    · rw [hl]; exact he.1
    · rw [hl]; exact he.2.1
    · rw [hl]; exact he.2.2
    · rw [hl]; exact hc
    · intro before arg after hpre hacc
      obtain ⟨o2, ho2, h0, _⟩ := levdurOptions_first env before ('h', arg)
        (after ++ option :: post) ⟨kDefaultNumOrder, kDefaultEpsilon, kDefaultWarningType⟩
        hacc (by simp [accepted])
      have hl2 : levdur env cl = o2 := by
        simp [levdur, hopts, hpre, ho2]
      rw [hl2]
      exact h0 rfl
    · intro before q after hpre hacc hq hne
      obtain ⟨o2, ho2, _, h1⟩ := levdurOptions_first env before q
        (after ++ option :: post) ⟨kDefaultNumOrder, kDefaultEpsilon, kDefaultWarningType⟩
        hacc hq
      have hl2 : levdur env cl = o2 := by
        simp [levdur, hopts, hpre, ho2]
      rw [hl2]
      exact h1 hne
  · intro hv
    obtain ⟨o, ho, hc⟩ := rlevdurOptions_violation env option post hv pre
      ⟨kDefaultNumOrder, kDefaultEpsilon, kDefaultWarningType⟩
    have he := rlevdurOptions_error env _ _ o ho
    have hl : rlevdur env cl = o := by
      simp [rlevdur, hopts, ho]
    refine ⟨?_, ?_, ?_, ?_, ?_, ?_⟩
    · rw [hl]; exact he.1
    · rw [hl]; exact he.2.1
    · rw [hl]; exact he.2.2
    · rw [hl]; exact hc
    · intro before arg after hpre hacc
      obtain ⟨o2, ho2, h0, _⟩ := rlevdurOptions_first env before ('h', arg)
        (after ++ option :: post) ⟨kDefaultNumOrder, kDefaultEpsilon, kDefaultWarningType⟩
        hacc (by simp [accepted])
      have hl2 : rlevdur env cl = o2 := by
        simp [rlevdur, hopts, hpre, ho2]
      rw [hl2]
      exact h0 rfl
    · intro before q after hpre hacc hq hne
      obtain ⟨o2, ho2, _, h1⟩ := rlevdurOptions_first env before q
        (after ++ option :: post) ⟨kDefaultNumOrder, kDefaultEpsilon, kDefaultWarningType⟩
        hacc hq
      have hl2 : rlevdur env cl = o2 := by
        simp [rlevdur, hopts, hpre, ho2]
      rw [hl2]
      exact h1 hne

/-! ### Instances of the claims on the tools -/

theorem Run_order1 :
    LevinsonDurbinRecursion.Run ⟨1, 0⟩ [1, 2] = some ([1, -2], false) ∧
      LevinsonDurbinRecursion.Run ⟨1, 0⟩ [4, 2] = some ([1, -1 / 2], true) := by
  constructor
  · simp [LevinsonDurbinRecursion.Run, LevinsonDurbinRecursion.IsValid, guarded, guardedStep,
      initial, step, update, parcor, nth, List.range, List.range.loop]
  · simp [LevinsonDurbinRecursion.Run, LevinsonDurbinRecursion.IsValid, guarded, guardedStep,
      initial, step, update, parcor, nth, List.range, List.range.loop]
    norm_num [abs_lt]

theorem ReverseRun_order1 :
    ReverseLevinsonDurbinRecursion.Run ⟨1, 0⟩ [1, 1 / 2] = some [4 / 3, -2 / 3] ∧
      ReverseLevinsonDurbinRecursion.Run ⟨1, 0⟩ [1, 1] = none := by
  constructor
  · simp [ReverseLevinsonDurbinRecursion.Run, ReverseLevinsonDurbinRecursion.IsValid, reverse,
      top, stepDown, nth, List.range, List.range.loop]
    norm_num [abs_lt]
  · simp [ReverseLevinsonDurbinRecursion.Run, ReverseLevinsonDurbinRecursion.IsValid, reverse,
      top, nth]

theorem levdurLoop_nil (env : Env) (ld : LevinsonDurbinRecursion) (w : WarningType)
    (i : Nat) (o : Outcome) :
    levdurLoop env ld w 2 i [] o = { o with code := 0, reads := o.reads + 1 } := by
  rw [levdurLoop_eq]
  simp [ReadStream]

/-- C6 on the unstable frame `[1, 2]` (order 1) under policy 1: the diagnostic names
frame 0, the coefficients `[1, -2]` are written and the loop goes on to the end of
the input. -/
theorem unstable_frame_warning_policy_witness :
    (ReadStream 2 [1, 2] = some ([1, 2], []) ∧
      LevinsonDurbinRecursion.Run ⟨1, 0⟩ [1, 2] = some ([1, -2], false)) ∧
    levdurLoop (sampleEnv []) ⟨1, 0⟩ WarningType.kWarn 2 0 [1, 2] Outcome.start =
      ⟨0, [[1, -2]], [("levdur", "0th frame is unstable")], none, 2⟩ := by
  have hread : ReadStream 2 [1, 2] = some ([1, 2], []) := by simp [ReadStream]
  refine ⟨⟨hread, Run_order1.1⟩, ?_⟩
  rw [((unstable_frame_warning_policy (sampleEnv []) ⟨1, 0⟩ WarningType.kWarn 2 0 [1, 2] [1, 2]
    [] Outcome.start [1, -2] false hread Run_order1.1).2.1 rfl rfl rfl).1, levdurLoop_nil]
  simp [Outcome.start, WriteStream]
  rfl

theorem sampleEnv_convert (stdin : List ℚ) :
    (sampleEnv stdin).ConvertStringToInteger "1" = some 1 ∧
      (sampleEnv stdin).ConvertStringToInteger "2" = some 2 ∧
      (sampleEnv stdin).ConvertStringToInteger "-1" = some (-1) :=
  ⟨rfl, rfl, rfl⟩

theorem sampleEnv_order1 (stdin : List ℚ) :
    levdurOptions (sampleEnv stdin) [('m', "1")]
        ⟨kDefaultNumOrder, kDefaultEpsilon, kDefaultWarningType⟩ =
      .ok ⟨1, 0, WarningType.kIgnore⟩ ∧
    levdurOptions (sampleEnv stdin) [('m', "1"), ('e', "2")]
        ⟨kDefaultNumOrder, kDefaultEpsilon, kDefaultWarningType⟩ =
      .ok ⟨1, 0, WarningType.kExit⟩ ∧
    rlevdurOptions (sampleEnv stdin) [('m', "1")]
        ⟨kDefaultNumOrder, kDefaultEpsilon, kDefaultWarningType⟩ =
      .ok ⟨1, 0, WarningType.kIgnore⟩ := by
  obtain ⟨h1, h2, _⟩ := sampleEnv_convert stdin
  refine ⟨?_, ?_, ?_⟩
  · simp [levdurOptions, h1, kDefaultEpsilon, kDefaultWarningType]
  · simp [levdurOptions, h1, h2, kDefaultEpsilon, IsInRange, WarningType.toInt,
      WarningType.ofInt]
  · simp [rlevdurOptions, h1, kDefaultEpsilon, kDefaultWarningType]

/-- C7 as stated fails: with order 1 (frames of two values) and the input `4, 2, 1`,
the forward tool solves and writes the frame `[4, 2]`, the read of the short frame
`[1]` fails, and `main` returns 0. -/
theorem short_frame_counterexample :
    ReadStream 2 [4, 2, 1] = some ([4, 2], [1]) ∧ ReadStream 2 [1] = none ∧
      levdur (sampleEnv [4, 2, 1]) ⟨[('m', "1")], []⟩ =
        ⟨0, [[1, -1 / 2]], [], none, 2⟩ := by
  have h1 : ReadStream 2 [4, 2, 1] = some ([4, 2], [1]) := by simp [ReadStream]
  have h2 : ReadStream 2 [1] = none := by simp [ReadStream]
  refine ⟨h1, h2, ?_⟩
  rw [levdur_eq_loop (sampleEnv [4, 2, 1]) ⟨[('m', "1")], []⟩ ⟨1, 0, WarningType.kIgnore⟩
    [4, 2, 1] (sampleEnv_order1 _).1 (by simp) rfl]
  have e : wrapInt ((1 : Int) + 1) = 2 := by decide
  simp only [e]
  rw [levdurLoop_eq, h1]
  simp only [Run_order1.2]
  have hw : (sampleEnv [4, 2, 1]).write_ok 0 = true := rfl
  simp only [hw]
  simp
  rw [levdurLoop_eq, h2]
  simp [Outcome.start, WriteStream]

/-- The amended C7 on the input `4` with frames of two values: the read fails and the
loop returns 0 after one read. -/
theorem write_failure_fatal_read_failure_ends_witness :
    ReadStream 2 [4] = none ∧
      levdurLoop (sampleEnv []) ⟨1, 0⟩ WarningType.kIgnore 2 0 [4] Outcome.start =
        { Outcome.start with code := 0, reads := Outcome.start.reads + 1 } :=
  have h : ReadStream 2 [4] = none := by simp [ReadStream]
  ⟨h, (write_failure_fatal_read_failure_ends (sampleEnv []) ⟨1, 0⟩ ⟨1, 0⟩
    WarningType.kIgnore 2 0 [4] Outcome.start).1.1 h⟩

theorem levdurLoop_exit_sample :
    levdurLoop (sampleEnv [1, 2, 1, 2]) ⟨1, 0⟩ WarningType.kExit 2 0 [1, 2, 1, 2]
        Outcome.start =
      ⟨1, [], [("levdur", "0th frame is unstable")], none, 1⟩ := by
  have h1 : ReadStream 2 [1, 2, 1, 2] = some ([1, 2], [1, 2]) := by simp [ReadStream]
  rw [levdurLoop_eq, h1]
  simp only [Run_order1.1]
  simp [Outcome.start, Outcome.warn]
  rfl

theorem sample_frames :
    numFrames 2 [1, 2, 1, 2] = 2 ∧ frameAt 2 [1, 2, 1, 2] 0 = [1, 2] ∧
      numFrames 2 [1, 1 / 2, 1, 1] = 2 ∧ frameAt 2 [1, 1 / 2, 1, 1] 0 = [1, 1 / 2] ∧
      frameAt 2 [1, 1 / 2, 1, 1] 1 = [1, 1] := by
  simp [numFrames, frameAt]

/-- C8 as stated fails: under policy 2, with order 1 and the input `1, 2, 1, 2` (two
complete frames), the forward tool stops at frame 0 (one read, return value 1)
although `Run` returned true on that frame (with `is_stable = false`). -/
theorem early_stop_counterexample :
    (levdur (sampleEnv [1, 2, 1, 2]) ⟨[('m', "1"), ('e', "2")], []⟩).reads = 1 ∧
      (levdur (sampleEnv [1, 2, 1, 2]) ⟨[('m', "1"), ('e', "2")], []⟩).code = 1 ∧
      numFrames 2 [1, 2, 1, 2] = 2 ∧
      LevinsonDurbinRecursion.Run ⟨1, 0⟩ (frameAt 2 [1, 2, 1, 2] 0) =
        some ([1, -2], false) ∧
      LevinsonDurbinRecursion.Run ⟨1, 0⟩ (frameAt 2 [1, 2, 1, 2] 0) ≠ none := by
  have hl : levdur (sampleEnv [1, 2, 1, 2]) ⟨[('m', "1"), ('e', "2")], []⟩ =
      ⟨1, [], [("levdur", "0th frame is unstable")], none, 1⟩ := by
    rw [levdur_eq_loop (sampleEnv [1, 2, 1, 2]) ⟨[('m', "1"), ('e', "2")], []⟩
      ⟨1, 0, WarningType.kExit⟩ [1, 2, 1, 2] (sampleEnv_order1 _).2.1 (by simp) rfl]
    have e : wrapInt ((1 : Int) + 1) = 2 := by decide
    simp only [e]
    exact levdurLoop_exit_sample
  rw [hl, sample_frames.2.1, Run_order1.1]
  exact ⟨rfl, rfl, sample_frames.1, rfl, by simp⟩

/-- The amended C8 on the same run: the loop made one read of an input with two
complete frames, so it stopped at frame 0, where `Run` succeeded with
`is_stable = false` under policy 2. -/
theorem early_stop_causes_witness :
    (levdurLoop (sampleEnv [1, 2, 1, 2]) ⟨1, 0⟩ WarningType.kExit 2 0 [1, 2, 1, 2]
        Outcome.start).reads ≤ Outcome.start.reads + numFrames (2 : Int).toNat [1, 2, 1, 2] ∧
    ∃ j, j < numFrames (2 : Int).toNat [1, 2, 1, 2] ∧
      (levdurLoop (sampleEnv [1, 2, 1, 2]) ⟨1, 0⟩ WarningType.kExit 2 0 [1, 2, 1, 2]
        Outcome.start).reads = Outcome.start.reads + j + 1 ∧
      (levdurLoop (sampleEnv [1, 2, 1, 2]) ⟨1, 0⟩ WarningType.kExit 2 0 [1, 2, 1, 2]
        Outcome.start).code = 1 ∧
      (LevinsonDurbinRecursion.Run ⟨1, 0⟩ (frameAt (2 : Int).toNat [1, 2, 1, 2] j) = none ∨
        (∃ lpc, LevinsonDurbinRecursion.Run ⟨1, 0⟩ (frameAt (2 : Int).toNat [1, 2, 1, 2] j) =
            some (lpc, false) ∧ WarningType.kExit = WarningType.kExit) ∨
        (∃ lpc is_stable,
          LevinsonDurbinRecursion.Run ⟨1, 0⟩ (frameAt (2 : Int).toNat [1, 2, 1, 2] j) =
            some (lpc, is_stable) ∧ (sampleEnv [1, 2, 1, 2]).write_ok j = false)) :=
  have h : (levdurLoop (sampleEnv [1, 2, 1, 2]) ⟨1, 0⟩ WarningType.kExit 2 0 [1, 2, 1, 2]
      Outcome.start).reads ≤
        Outcome.start.reads + numFrames (2 : Int).toNat [1, 2, 1, 2] := by
    rw [levdurLoop_exit_sample]
    have : (2 : Int).toNat = 2 := rfl
    rw [this, sample_frames.1]
    decide
  ⟨h, early_stop_causes (sampleEnv [1, 2, 1, 2]) ⟨1, 0⟩ WarningType.kExit 2 [1, 2, 1, 2]
    Outcome.start h⟩

/-- C9 on the input `1, 1/2, 1, 1` with order 1: frame 0 is reconstructed as
`[4/3, -2/3]` and written, `Run` returns false on frame 1 (`|k_1| = 1`), and `main`
returns 1 after two reads with only frame 0 written. -/
theorem reverse_failure_is_fatal_witness :
    (ReverseLevinsonDurbinRecursion.Run ⟨1, 0⟩ (frameAt 2 [1, 1 / 2, 1, 1] 1) = none ∧
      ReverseLevinsonDurbinRecursion.Run ⟨1, 0⟩ (frameAt 2 [1, 1 / 2, 1, 1] 0) =
        some [4 / 3, -2 / 3]) ∧
    ((rlevdur (sampleEnv [1, 1 / 2, 1, 1]) ⟨[('m', "1")], []⟩).code = 1 ∧
      (rlevdur (sampleEnv [1, 1 / 2, 1, 1]) ⟨[('m', "1")], []⟩).out = [[4 / 3, -2 / 3]] ∧
      (rlevdur (sampleEnv [1, 1 / 2, 1, 1]) ⟨[('m', "1")], []⟩).reads = 2) := by
  have e : ((wrapInt ((1 : Int) + 1)).toNat) = 2 := by decide
  have hf1 : ReverseLevinsonDurbinRecursion.Run ⟨1, 0⟩ (frameAt 2 [1, 1 / 2, 1, 1] 1) = none := by
    rw [sample_frames.2.2.2.2]; exact ReverseRun_order1.2
  have hf0 : ReverseLevinsonDurbinRecursion.Run ⟨1, 0⟩ (frameAt 2 [1, 1 / 2, 1, 1] 0) =
      some [4 / 3, -2 / 3] := by
    rw [sample_frames.2.2.2.1]; exact ReverseRun_order1.1
  have h := reverse_failure_is_fatal (sampleEnv [1, 1 / 2, 1, 1]) ⟨[('m', "1")], []⟩
    ⟨1, 0, WarningType.kIgnore⟩ [1, 1 / 2, 1, 1] 1 (sampleEnv_order1 _).2.2 (by simp) rfl
    (by rw [e, sample_frames.2.2.1]; decide)
    (by
      intro j hj
      have hj0 : j = 0 := by omega
      subst hj0
      rw [e]
      simp only [rlevdurDone, hf0]
      rfl)
    (by rw [e]; exact hf1)
  refine ⟨⟨hf1, hf0⟩, h.1, ?_, h.2.2⟩
  rw [h.2.1]
  show List.map (fun j => rlevdurChunk ⟨1, 0⟩ 2 (frameAt 2 [1, 1 / 2, 1, 1] j))
    (List.range 1) = _
  simp only [List.range, List.range.loop, List.map, rlevdurChunk, hf0]
  simp [WriteStream]

/-- C10 as stated fails: on `levdur -h -m -1` the argument of `-m` is not a
non-negative integer, yet `main` prints the usage and returns 0. -/
theorem invalid_option_counterexample :
    violates (sampleEnv []) true ('m', "-1") = true ∧
      levdur (sampleEnv []) ⟨[('h', ""), ('m', "-1")], []⟩ =
        ⟨0, [], [], some Sink.cout, 0⟩ := by
  constructor
  · simp [violates, invalidOrder, (sampleEnv_convert []).2.2]
  · simp [levdur, levdurOptions, Outcome.start]

/-- The amended C10 on `levdur -m -1` and `rlevdur -m -1`, which return 1 without a
read, and on `levdur -h -m -1` and `rlevdur -h -m -1`, which print the usage to
standard output and return 0. -/
theorem invalid_option_exits_witness :
    violatesNumerically (sampleEnv []) true ('m', "-1") = true ∧
      violatesNumerically (sampleEnv []) false ('m', "-1") = true ∧
      (levdur (sampleEnv []) ⟨[('m', "-1")], []⟩).code = 1 ∧
      (levdur (sampleEnv []) ⟨[('m', "-1")], []⟩).reads = 0 ∧
      (rlevdur (sampleEnv []) ⟨[('m', "-1")], []⟩).code = 1 ∧
      (rlevdur (sampleEnv []) ⟨[('m', "-1")], []⟩).reads = 0 ∧
      levdur (sampleEnv []) ⟨[('h', ""), ('m', "-1")], []⟩ = ⟨0, [], [], some Sink.cout, 0⟩ ∧
      rlevdur (sampleEnv []) ⟨[('h', ""), ('m', "-1")], []⟩ =
        ⟨0, [], [], some Sink.cout, 0⟩ := by
  have hv1 : violatesNumerically (sampleEnv []) true ('m', "-1") = true := by
    simp [violatesNumerically, invalidOrder, (sampleEnv_convert []).2.2]
  have hv2 : violatesNumerically (sampleEnv []) false ('m', "-1") = true := by
    simp [violatesNumerically, invalidOrder, (sampleEnv_convert []).2.2]
  have h := invalid_option_exits (sampleEnv []) ⟨[('m', "-1")], []⟩ [] [] ('m', "-1") rfl
  have ha := h.1 hv1
  have hb := h.2 hv2
  have g := invalid_option_exits (sampleEnv []) ⟨[('h', ""), ('m', "-1")], []⟩ [('h', "")] []
    ('m', "-1") rfl
  have ga := (g.1 hv1).2.2.2.2.1 [] "" [] rfl (by simp)
  have gb := (g.2 hv2).2.2.2.2.1 [] "" [] rfl (by simp)
  exact ⟨hv1, hv2, ha.2.2.2.1 (by simp), ha.1, hb.2.2.2.1 (by simp), hb.1, ga, gb⟩

/-- An `-f` argument that converts to a NaN is not a non-negative real, and the test
`epsilon < 0.0` lets it through: on `levdur -f nan -m 1` with the input `4, 2` the
option loop ends with a NaN epsilon, and the frame is solved and written. -/
theorem nan_epsilon_passes :
    violates (sampleEnv [4, 2]) true ('f', "nan") = true ∧
      violatesNumerically (sampleEnv [4, 2]) true ('f', "nan") = false ∧
      levdurOptions (sampleEnv [4, 2]) [('f', "nan"), ('m', "1")]
          ⟨kDefaultNumOrder, kDefaultEpsilon, kDefaultWarningType⟩ =
        .ok ⟨1, Double.nan, WarningType.kIgnore⟩ ∧
      rlevdurOptions (sampleEnv [4, 2]) [('f', "nan"), ('m', "1")]
          ⟨kDefaultNumOrder, kDefaultEpsilon, kDefaultWarningType⟩ =
        .ok ⟨1, Double.nan, WarningType.kIgnore⟩ ∧
      levdur (sampleEnv [4, 2]) ⟨[('f', "nan"), ('m', "1")], []⟩ =
        ⟨0, [[1, -1 / 2]], [], none, 2⟩ := by
  have hn : (sampleEnv [4, 2]).ConvertStringToDouble "nan" = some Double.nan := rfl
  have h1 := (sampleEnv_convert [4, 2]).1
  have hopt : levdurOptions (sampleEnv [4, 2]) [('f', "nan"), ('m', "1")]
      ⟨kDefaultNumOrder, kDefaultEpsilon, kDefaultWarningType⟩ =
        .ok ⟨1, Double.nan, WarningType.kIgnore⟩ := by
    simp [levdurOptions, hn, h1, kDefaultWarningType]
  have hrun : LevinsonDurbinRecursion.Run ⟨1, Double.nan⟩ [4, 2] =
      some ([1, -1 / 2], true) := by
    simp [LevinsonDurbinRecursion.Run, LevinsonDurbinRecursion.IsValid, guarded, guardedStep,
      initial, step, update, parcor, nth, List.range, List.range.loop]
    norm_num [abs_lt]
  have hr1 : ReadStream 2 [4, 2] = some ([4, 2], []) := by simp [ReadStream]
  have hr2 : ReadStream 2 [] = none := by simp [ReadStream]
  refine ⟨?_, ?_, hopt, ?_, ?_⟩
  · simp [violates, invalidEpsilon, hn]
  · simp [violatesNumerically, negativeEpsilon, hn]
  · simp [rlevdurOptions, hn, h1, kDefaultWarningType]
  · rw [levdur_eq_loop (sampleEnv [4, 2]) ⟨[('f', "nan"), ('m', "1")], []⟩
      ⟨1, Double.nan, WarningType.kIgnore⟩ [4, 2] hopt (by simp) rfl]
    have e : wrapInt ((1 : Int) + 1) = 2 := by decide
    simp only [e]
    rw [levdurLoop_eq, hr1]
    simp only [hrun]
    have hw : (sampleEnv [4, 2]).write_ok 0 = true := rfl
    simp only [hw]
    simp
    rw [levdurLoop_eq, hr2]
    simp [Outcome.start, WriteStream]

/-! ## The claims on order 0, the matrix and the array input source -/

/-- C14: for order 0, for every `epsilon` and every one-element input `[r0]`, the
forward `Run` succeeds and returns `lpc = [1]` with `isStable = true`, whatever the
value of `r0`. -/
theorem order_zero_returns_one (epsilon r0 : ℚ) :
    LevinsonDurbinRecursion.Run ⟨0, epsilon⟩ [r0] = some ([1], true) := by
  simp [LevinsonDurbinRecursion.Run, LevinsonDurbinRecursion.IsValid, guarded, initial]

/-- C17: an `InputSourceFromArray` constructed with `(zero_padding, read_size,
array_size, input_array)` reports `IsValid() = true` if and only if `read_size > 0`,
`array_size > 0` and `input_array` is not null; `GetSize()` returns `read_size` and
`GetArraySize()` returns `array_size`, valid or not. -/
theorem array_source_validity (zero_padding : Bool) (read_size array_size : Int)
    (input_array : Option (List ℚ)) :
    ((InputSourceFromArray.construct zero_padding read_size array_size
          input_array).IsValid = true ↔
        0 < read_size ∧ 0 < array_size ∧ input_array ≠ none) ∧
      (InputSourceFromArray.construct zero_padding read_size array_size
        input_array).GetSize = read_size ∧
      (InputSourceFromArray.construct zero_padding read_size array_size
        input_array).GetArraySize = array_size := by
  unfold InputSourceFromArray.construct InputSourceFromArray.IsValid
    InputSourceFromArray.GetSize InputSourceFromArray.GetArraySize
  by_cases h : read_size ≤ 0 ∨ array_size ≤ 0 ∨ input_array = none
  · simp only [h, if_true, Bool.false_eq_true, false_iff, and_self, and_true]
    rintro ⟨h1, h2, h3⟩
    rcases h with h | h | h
    · omega
    · omega
    · exact h3 h
  · simp only [h, if_false, true_iff, and_self, and_true]
    push_neg at h
    exact ⟨by omega, by omega, h.2.2⟩

theorem transpose_index (R C q : Nat) (hq : q < R * C) :
    q % C * R + q / C < C * R ∧ (q % C * R + q / C) % R = q / C ∧
      (q % C * R + q / C) / R = q % C := by
  have hC : 0 < C := by
    rcases Nat.eq_zero_or_pos C with h | h
    · subst h; simp at hq
    · exact h
  have hR : 0 < R := by
    rcases Nat.eq_zero_or_pos R with h | h
    · subst h; simp at hq
    · exact h
  have h1 : q / C < R := (Nat.div_lt_iff_lt_mul hC).mpr hq
  have h2 : q % C < C := Nat.mod_lt q hC
  refine ⟨?_, ?_, ?_⟩
  · calc q % C * R + q / C < q % C * R + R := by omega
      _ = (q % C + 1) * R := by ring
      _ ≤ C * R := Nat.mul_le_mul_right R h2
  · rw [Nat.add_comm, Nat.add_mul_mod_self_right, Nat.mod_eq_of_lt h1]
  · rw [Nat.add_comm, Nat.add_mul_div_right _ _ hR, Nat.div_eq_of_lt h1, Nat.zero_add]

theorem transpose_entry (R i j : Nat) (hi : i < R) :
    (j * R + i) % R = i ∧ (j * R + i) / R = j := by
  have hR : 0 < R := by omega
  constructor
  · rw [Nat.add_comm, Nat.add_mul_mod_self_right, Nat.mod_eq_of_lt hi]
  · rw [Nat.add_comm, Nat.add_mul_div_right _ _ hR, Nat.div_eq_of_lt hi, Nat.zero_add]

/-- C15: for every matrix `A` of any dimensions `rows x cols` (zero rows or zero
columns included) that satisfies the invariant on its backing store, `Transpose` of
`A` into `B` succeeds and gives a `cols x rows` matrix with `B[j][i] = A[i][j]`, and
transposing `B` gives a matrix equal to `A`, in dimensions and in every element. -/
theorem transpose_involution (A : Matrix) (hA : A.Invariant) :
    ∃ B, A.Transpose = some B ∧ B.num_row_ = A.num_column_ ∧
      B.num_column_ = A.num_row_ ∧ B.Invariant ∧
      (∀ i j, i < A.num_row_ → j < A.num_column_ → B.get j i = A.get i j) ∧
      B.Transpose = some A := by
  refine ⟨_, rfl, rfl, rfl, ?_, ?_, ?_⟩
  · simp [Matrix.Invariant]
  · intro i j hi hj
    obtain ⟨e1, e2⟩ := transpose_entry A.num_row_ i j hi
    have hlt : j * A.num_row_ + i < A.num_column_ * A.num_row_ := by
      calc j * A.num_row_ + i < j * A.num_row_ + A.num_row_ := by omega
        _ = (j + 1) * A.num_row_ := by ring
        _ ≤ A.num_column_ * A.num_row_ := Nat.mul_le_mul_right _ hj
    simp only [Matrix.get]
    rw [nth_map_range]
    simp only [hlt, if_true, e1, e2, Matrix.get]
  · obtain ⟨R, C, data⟩ := A
    simp only [Matrix.Invariant] at hA
    simp only [Matrix.Transpose, Option.some.injEq, Matrix.mk.injEq, true_and]
    symm
    apply list_eq_of_nth (R * C) _ _ hA (by simp)
    intro q hq
    obtain ⟨e0, e1, e2⟩ := transpose_index R C q hq
    rw [nth_map_range]
    simp only [hq, if_true, Matrix.get]
    rw [nth_map_range]
    simp only [e0, if_true, e1, e2, Matrix.get]
    rw [Nat.div_add_mod']

/-- C15 on a `2 x 3` matrix and on a matrix with no rows. -/
theorem transpose_involution_witness :
    ((⟨2, 3, [1, 2, 3, 4, 5, 6]⟩ : Matrix).Invariant ∧ (⟨0, 3, []⟩ : Matrix).Invariant) ∧
    (⟨2, 3, [1, 2, 3, 4, 5, 6]⟩ : Matrix).Transpose = some ⟨3, 2, [1, 4, 2, 5, 3, 6]⟩ ∧
    (∃ B, (⟨2, 3, [1, 2, 3, 4, 5, 6]⟩ : Matrix).Transpose = some B ∧ B.num_row_ = 3 ∧
      B.num_column_ = 2 ∧ B.Invariant ∧
      (∀ i j, i < 2 → j < 3 →
        B.get j i = (⟨2, 3, [1, 2, 3, 4, 5, 6]⟩ : Matrix).get i j) ∧
      B.Transpose = some ⟨2, 3, [1, 2, 3, 4, 5, 6]⟩) ∧
    (∃ B, (⟨0, 3, []⟩ : Matrix).Transpose = some B ∧ B.num_row_ = 3 ∧
      B.num_column_ = 0 ∧ B.Invariant ∧
      (∀ i j, i < 0 → j < 3 → B.get j i = (⟨0, 3, []⟩ : Matrix).get i j) ∧
      B.Transpose = some ⟨0, 3, []⟩) :=
  have h1 : (⟨2, 3, [1, 2, 3, 4, 5, 6]⟩ : Matrix).Invariant := by
    simp [Matrix.Invariant]
  have h2 : (⟨0, 3, []⟩ : Matrix).Invariant := by simp [Matrix.Invariant]
  ⟨⟨h1, h2⟩,
    by simp [Matrix.Transpose, Matrix.get, nth, List.range, List.range.loop],
    transpose_involution ⟨2, 3, [1, 2, 3, 4, 5, 6]⟩ h1,
    transpose_involution ⟨0, 3, []⟩ h2⟩

/-! ## Stability on positive definite input -/

theorem sum_range_truncate (f : Nat → ℚ) (m M : Nat) (h : m ≤ M)
    (hz : ∀ j, m < j → f j = 0) :
    ∑ j ∈ Finset.range (M + 1), f j = ∑ j ∈ Finset.range (m + 1), f j := by
  symm
  apply Finset.sum_subset
  · intro j hj
    simp only [Finset.mem_range] at hj ⊢
    omega
  · intro j _ hj
    simp only [Finset.mem_range, not_lt] at hj
    exact hz j (by omega)

/-- The quadratic form at the order-`m` coefficients of the forward recursion
(continued by zeros) is the prediction-error energy `E_m`. -/
theorem quadForm_recursion (M : Nat) (r : List ℚ) (m : Nat) (hm : m ≤ M)
    (hE : ∀ n, n < m → energy r n ≠ 0) :
    quadForm M r (fun i => nth (recursion r m).a i) = energy r m := by
  obtain ⟨hrows, hrow0⟩ := toeplitz_invariant r m hE
  have hinner : ∀ i, ∑ j ∈ Finset.range (M + 1),
      nth (recursion r m).a i * nth r (lag i j) * nth (recursion r m).a j =
        nth (recursion r m).a i * toeplitzRow m (recursion r m).a r i := by
    intro i
    unfold toeplitzRow
    rw [← sum_range_truncate (fun j => nth (recursion r m).a j * nth r (lag i j)) m M hm
      (fun j hj => by simp [recursion_nth_beyond r m j hj]), Finset.mul_sum]
    apply Finset.sum_congr rfl
    intro j _
    ring
  unfold quadForm
  simp only [hinner]
  rw [sum_range_truncate
    (fun i => nth (recursion r m).a i * toeplitzRow m (recursion r m).a r i) m M hm
    (fun i hi => by simp [recursion_nth_beyond r m i hi]), Finset.sum_range_succ']
  rw [recursion_nth_zero, hrow0, one_mul]
  have hzero : ∑ i ∈ Finset.range m,
      nth (recursion r m).a (i + 1) * toeplitzRow m (recursion r m).a r (i + 1) = 0 := by
    apply Finset.sum_eq_zero
    intro i hi
    simp only [Finset.mem_range] at hi
    rw [hrows (i + 1) (by omega) (by omega), mul_zero]
  rw [hzero, zero_add]

/-- On positive definite input every prediction-error energy is positive. -/
theorem energy_pos (M : Nat) (r : List ℚ) (hpd : PositiveDefinite M r) :
    ∀ m, m ≤ M → 0 < energy r m := by
  intro m
  induction m using Nat.strong_induction_on with
  | _ m ih =>
    intro hm
    have hE : ∀ n, n < m → energy r n ≠ 0 :=
      fun n hn => ne_of_gt (ih n hn (by omega))
    rw [← quadForm_recursion M r m hm hE]
    apply hpd
    exact ⟨0, Nat.zero_le _, by rw [recursion_nth_zero]; norm_num⟩

theorem energy_succ (r : List ℚ) (m : Nat) :
    energy r (m + 1) = energy r m * (1 - reflection r (m + 1) ^ 2) := by
  simp [energy, recursion, step, reflection]

/-- C13: for every order `M` and every autocorrelation sequence `r[0..M]` whose
`(M+1) x (M+1)` symmetric Toeplitz matrix `T[i][j] = r[|i-j|]` is positive definite,
the forward `Run` with `epsilon = 0` succeeds with `isStable = true`, every reflection
coefficient `k_m`, `m` in `1..M`, has magnitude strictly less than 1, and every
prediction-error energy is positive. -/
theorem positive_definite_is_stable (M : Nat) (r : List ℚ) (hlen : r.length = M + 1)
    (hpd : PositiveDefinite M r) :
    (∃ lpc, LevinsonDurbinRecursion.Run ⟨(M : Int), 0⟩ r = some (lpc, true)) ∧
      (∀ m, 1 ≤ m → m ≤ M → |reflection r m| < 1) ∧
      (∀ m, m ≤ M → 0 < energy r m) := by
  have hpos := energy_pos M r hpd
  have hk : ∀ m, 1 ≤ m → m ≤ M → |reflection r m| < 1 := by
    intro m h1 h2
    obtain ⟨n, rfl⟩ : ∃ n, m = n + 1 := ⟨m - 1, by omega⟩
    have hn := hpos n (by omega)
    have hs := hpos (n + 1) h2
    rw [energy_succ] at hs
    have hfac : 0 < 1 - reflection r (n + 1) ^ 2 := by
      by_contra hcon
      have hle : 1 - reflection r (n + 1) ^ 2 ≤ 0 := not_lt.mp hcon
      have := mul_nonpos_of_nonneg_of_nonpos (le_of_lt hn) hle
      exact absurd hs (not_lt.mpr this)
    rw [abs_lt]
    constructor <;> nlinarith
  refine ⟨⟨(recursion r M).a, ?_⟩, hk, hpos⟩
  show LevinsonDurbinRecursion.Run ⟨(M : Int), Double.finite 0⟩ r = _
  rw [Run_eq_of_length M 0 r hlen, guarded_of_no_small_energy 0 r M
    (fun m _ _ => not_lt.mpr (abs_nonneg _))]
  simp [(recursion_stable_iff r M).mpr hk]

theorem positiveDefinite_4_2_1 : PositiveDefinite 2 [4, 2, 1] := by
  intro x hx
  obtain ⟨i, hi, hxi⟩ := hx
  have hq : quadForm 2 [4, 2, 1] x =
      2 * (x 0 + x 1) ^ 2 + 2 * (x 1 + x 2) ^ 2 + (x 0 + x 2) ^ 2 + x 0 ^ 2 + x 2 ^ 2 := by
    simp [quadForm, Finset.sum_range_succ, nth, lag]
    ring
  rw [hq]
  have h0 : 0 ≤ (x 0 + x 1) ^ 2 := sq_nonneg _
  have h1 : 0 ≤ (x 1 + x 2) ^ 2 := sq_nonneg _
  have h2 : 0 ≤ (x 0 + x 2) ^ 2 := sq_nonneg _
  have h3 : 0 ≤ x 0 ^ 2 := sq_nonneg _
  have h4 : 0 ≤ x 2 ^ 2 := sq_nonneg _
  by_contra hcon
  have hle := not_lt.mp hcon
  have e3 : x 0 ^ 2 = 0 := by nlinarith
  have e4 : x 2 ^ 2 = 0 := by nlinarith
  have e0 : (x 0 + x 1) ^ 2 = 0 := by nlinarith
  have z0 : x 0 = 0 := by simpa using e3
  have z2 : x 2 = 0 := by simpa using e4
  have z1 : x 1 = 0 := by
    have : x 0 + x 1 = 0 := by simpa using e0
    linarith
  interval_cases i
  · exact hxi z0
  · exact hxi z1
  · exact hxi z2

/-- C13 at `r = [4, 2, 1]`, order 2, whose Toeplitz form is
`2 (x0 + x1)^2 + 2 (x1 + x2)^2 + (x0 + x2)^2 + x0^2 + x2^2`. -/
theorem positive_definite_is_stable_witness :
    (([4, 2, 1] : List ℚ).length = 2 + 1 ∧ PositiveDefinite 2 [4, 2, 1]) ∧
    ((∃ lpc, LevinsonDurbinRecursion.Run ⟨((2 : Nat) : Int), 0⟩ [4, 2, 1] =
        some (lpc, true)) ∧
      (∀ m, 1 ≤ m → m ≤ 2 → |reflection [4, 2, 1] m| < 1) ∧
      (∀ m, m ≤ 2 → 0 < energy [4, 2, 1] m)) :=
  ⟨⟨rfl, positiveDefinite_4_2_1⟩,
    positive_definite_is_stable 2 [4, 2, 1] rfl positiveDefinite_4_2_1⟩

/-! ## The claims on the input file and on the output of the forward tool -/

theorem Run_length (c : LevinsonDurbinRecursion) (r lpc : List ℚ) (is_stable : Bool)
    (h : c.Run r = some (lpc, is_stable)) :
    (r.length : Int) = c.num_order + 1 ∧ lpc.length = r.length := by
  unfold LevinsonDurbinRecursion.Run at h
  split at h
  · simp at h
  · rename_i hc
    push_neg at hc
    obtain ⟨hv, hl⟩ := hc
    have h0 : 0 ≤ c.num_order := by
      simpa [LevinsonDurbinRecursion.IsValid] using hv
    refine ⟨hl, ?_⟩
    cases hg : guarded c.epsilon r c.num_order.toNat with
    | none => simp [hg] at h
    | some t =>
      have ht := guarded_some_eq c.epsilon r _ t hg
      simp only [hg, Option.map_some', Option.some.injEq, Prod.mk.injEq] at h
      rw [← h.1, ht, recursion_length]
      omega

/-- C11 (as amended): in both tools, once the option loop has accepted every option:
with two or more positional arguments `main` returns 1 before any read; with exactly
one, the frame loop reads from that file, and when the file cannot be opened `main`
returns 1 before any read, whatever standard input holds; with none, the frame loop
reads from standard input. -/
theorem input_file_argument (env : Env) (cl : CommandLine) (c : Config) :
    (levdurOptions env cl.options
        ⟨kDefaultNumOrder, kDefaultEpsilon, kDefaultWarningType⟩ = .ok c →
      (2 ≤ cl.files.length →
        levdur env cl = ⟨1, [], [("levdur", "Too many input files")], none, 0⟩) ∧
      (∀ name, cl.files = [name] → env.file name = none →
        levdur env cl = ⟨1, [], [("levdur", "Cannot open file " ++ name)], none, 0⟩) ∧
      (∀ name stream, cl.files = [name] → env.file name = some stream →
        levdur env cl =
          levdurLoop env ⟨c.num_order, c.epsilon⟩ c.warning_type
            (wrapInt (c.num_order + 1)) 0 stream Outcome.start) ∧
      (cl.files = [] →
        levdur env cl =
          levdurLoop env ⟨c.num_order, c.epsilon⟩ c.warning_type
            (wrapInt (c.num_order + 1)) 0 env.stdin Outcome.start)) ∧
    (rlevdurOptions env cl.options
        ⟨kDefaultNumOrder, kDefaultEpsilon, kDefaultWarningType⟩ = .ok c →
      (2 ≤ cl.files.length →
        rlevdur env cl = ⟨1, [], [("rlevdur", "Too many input files")], none, 0⟩) ∧
      (∀ name, cl.files = [name] → env.file name = none →
        rlevdur env cl = ⟨1, [], [("rlevdur", "Cannot open file " ++ name)], none, 0⟩) ∧
      (∀ name stream, cl.files = [name] → env.file name = some stream →
        rlevdur env cl =
          rlevdurLoop env ⟨c.num_order, c.epsilon⟩ (wrapInt (c.num_order + 1)) 0 stream
            Outcome.start) ∧
      (cl.files = [] →
        rlevdur env cl =
          rlevdurLoop env ⟨c.num_order, c.epsilon⟩ (wrapInt (c.num_order + 1)) 0 env.stdin
            Outcome.start)) := by
  constructor
  · intro hopt
    refine ⟨?_, ?_, ?_, ?_⟩
    · intro h2
      have hf : 1 < cl.files.length := by omega
      simp [levdur, hopt, hf, Outcome.fail, Outcome.start]
    · intro name hfiles hfile
      simp [levdur, hopt, hfiles, openInput, hfile, Outcome.fail, Outcome.start]
    · intro name stream hfiles hfile
      exact levdur_eq_loop env cl c stream hopt (by simp [hfiles])
        (by simp [hfiles, openInput, hfile])
    · intro hfiles
      exact levdur_eq_loop env cl c env.stdin hopt (by simp [hfiles])
        (by simp [hfiles, openInput])
  · intro hopt
    refine ⟨?_, ?_, ?_, ?_⟩
    · intro h2
      have hf : 1 < cl.files.length := by omega
      simp [rlevdur, hopt, hf, Outcome.fail, Outcome.start]
    · intro name hfiles hfile
      simp [rlevdur, hopt, hfiles, openInput, hfile, Outcome.fail, Outcome.start]
    · intro name stream hfiles hfile
      exact rlevdur_eq_loop env cl c stream hopt (by simp [hfiles])
        (by simp [hfiles, openInput, hfile])
    · intro hfiles
      exact rlevdur_eq_loop env cl c env.stdin hopt (by simp [hfiles])
        (by simp [hfiles, openInput])

/-- C11 as stated fails: on `levdur -h a b` there are two positional arguments, yet
`main` prints the usage and returns 0. -/
theorem input_file_counterexample :
    2 ≤ (["a", "b"] : List String).length ∧
      levdur (sampleEnv []) ⟨[('h', "")], ["a", "b"]⟩ = ⟨0, [], [], some Sink.cout, 0⟩ := by
  constructor
  · decide
  · simp [levdur, levdurOptions, Outcome.start]

/-- The amended C11 on `levdur -m 1 a b`, on `levdur -m 1 a` where no file opens, and
on `levdur -m 1` with the input `4, 2, 1` on standard input. -/
theorem input_file_argument_witness :
    levdurOptions (sampleEnv [4, 2, 1]) [('m', "1")]
        ⟨kDefaultNumOrder, kDefaultEpsilon, kDefaultWarningType⟩ =
      .ok ⟨1, 0, WarningType.kIgnore⟩ ∧
    levdur (sampleEnv [4, 2, 1]) ⟨[('m', "1")], ["a", "b"]⟩ =
      ⟨1, [], [("levdur", "Too many input files")], none, 0⟩ ∧
    levdur (sampleEnv [4, 2, 1]) ⟨[('m', "1")], ["a"]⟩ =
      ⟨1, [], [("levdur", "Cannot open file " ++ "a")], none, 0⟩ ∧
    levdur (sampleEnv [4, 2, 1]) ⟨[('m', "1")], []⟩ =
      levdurLoop (sampleEnv [4, 2, 1]) ⟨1, 0⟩ WarningType.kIgnore (wrapInt (1 + 1)) 0
        [4, 2, 1] Outcome.start :=
  have h := (sampleEnv_order1 [4, 2, 1]).1
  ⟨h,
    (input_file_argument (sampleEnv [4, 2, 1]) ⟨[('m', "1")], ["a", "b"]⟩
      ⟨1, 0, WarningType.kIgnore⟩).1 h |>.1 (by decide),
    (input_file_argument (sampleEnv [4, 2, 1]) ⟨[('m', "1")], ["a"]⟩
      ⟨1, 0, WarningType.kIgnore⟩).1 h |>.2.1 "a" rfl rfl,
    (input_file_argument (sampleEnv [4, 2, 1]) ⟨[('m', "1")], []⟩
      ⟨1, 0, WarningType.kIgnore⟩).1 h |>.2.2.2 rfl⟩

theorem frameAt_length_le (n : Nat) (input : List ℚ) (j : Nat) :
    (frameAt n input j).length ≤ n := by
  simp only [frameAt, List.length_take]
  omega

/-- The chunk written for a frame of the stream on which `Run` succeeds is the whole
coefficient vector `Run` returns, of `num_order + 1` values. -/
theorem levdurChunk_of_Run (ld : LevinsonDurbinRecursion) (length : Int) (input : List ℚ)
    (j : Nat) (lpc : List ℚ) (is_stable : Bool)
    (h : ld.Run (frameAt length.toNat input j) = some (lpc, is_stable)) :
    levdurChunk ld length (frameAt length.toNat input j) = lpc ∧
      (lpc.length : Int) = ld.num_order + 1 := by
  obtain ⟨h1, h2⟩ := Run_length ld _ lpc is_stable h
  have h3 := frameAt_length_le length.toNat input j
  constructor
  · simp only [levdurChunk, h, WriteStream]
    have e : (0 : Int).toNat = 0 := rfl
    rw [e, List.drop_zero]
    exact List.take_of_length_le (by omega)
  · rw [h2]; exact h1

theorem levdurDone_true (env : Env) (ld : LevinsonDurbinRecursion) (w : WarningType)
    (i : Nat) (frame : List ℚ) (h : levdurDone env ld w i frame = true) :
    ∃ lpc is_stable, ld.Run frame = some (lpc, is_stable) ∧
      (is_stable = false → w ≠ WarningType.kExit) ∧ env.write_ok i = true := by
  unfold levdurDone at h
  cases hrun : ld.Run frame with
  | none => simp [hrun] at h
  | some p =>
    obtain ⟨lpc, st⟩ := p
    simp only [hrun, Bool.and_eq_true, Bool.not_eq_true', Bool.and_eq_false_imp,
      beq_iff_eq] at h
    refine ⟨lpc, st, rfl, fun hst hw => ?_, h.2⟩
    have := h.1 hst
    rw [hw] at this
    simp at this

/-- C12: when the forward tool reaches its frame loop on the input stream `input`, with
an order below the largest `int` (so that a frame has `order + 1` values), there is a
number `k` of frames such that: for each of the first `k` complete frames, in input
order, `Run` succeeds, the frame is not an unstable one under policy 2, the write
succeeds, and the `j`-th chunk of the output is the `order + 1` coefficients `Run`
returns for frame `j`; the output has exactly `k` chunks; and frame `k`, unless the
`k` frames are all the complete frames, is a terminating one (`Run` fails, or the frame
is unstable under policy 2, or the write fails).  So `k` is the first terminating frame
and nothing is written for it or for a later frame.  When `Run` succeeds on every
complete frame, every write succeeds and the warning policy is 0 or 1, `main` returns
0 having written exactly one chunk of `order + 1` values per complete frame. -/
theorem forward_output_in_frame_order (env : Env) (cl : CommandLine) (c : Config)
    (input : List ℚ)
    (hopt : levdurOptions env cl.options
      ⟨kDefaultNumOrder, kDefaultEpsilon, kDefaultWarningType⟩ = .ok c)
    (hord : c.num_order < 2147483647)
    (hfiles : cl.files.length ≤ 1)
    (hopen : openInput env cl.files.head? = some input) :
    (∃ k, k ≤ numFrames (c.num_order + 1).toNat input ∧
        (levdur env cl).out.length = k ∧
        (∀ j, j < k → ∃ lpc is_stable,
          LevinsonDurbinRecursion.Run ⟨c.num_order, c.epsilon⟩
            (frameAt (c.num_order + 1).toNat input j) = some (lpc, is_stable) ∧
          (levdur env cl).out[j]? = some lpc ∧
          (lpc.length : Int) = c.num_order + 1 ∧
          (is_stable = false → c.warning_type ≠ WarningType.kExit) ∧
          env.write_ok j = true) ∧
        (k < numFrames (c.num_order + 1).toNat input →
          LevinsonDurbinRecursion.Run ⟨c.num_order, c.epsilon⟩
              (frameAt (c.num_order + 1).toNat input k) = none ∨
            (∃ lpc, LevinsonDurbinRecursion.Run ⟨c.num_order, c.epsilon⟩
              (frameAt (c.num_order + 1).toNat input k) = some (lpc, false) ∧
              c.warning_type = WarningType.kExit) ∨
            (∃ lpc is_stable, LevinsonDurbinRecursion.Run ⟨c.num_order, c.epsilon⟩
              (frameAt (c.num_order + 1).toNat input k) = some (lpc, is_stable) ∧
              env.write_ok k = false))) ∧
      ((∀ j, j < numFrames (c.num_order + 1).toNat input →
          LevinsonDurbinRecursion.Run ⟨c.num_order, c.epsilon⟩
            (frameAt (c.num_order + 1).toNat input j) ≠ none) →
        (∀ j, j < numFrames (c.num_order + 1).toNat input → env.write_ok j = true) →
        (c.warning_type = WarningType.kIgnore ∨ c.warning_type = WarningType.kWarn) →
        (levdur env cl).code = 0 ∧
          (levdur env cl).out.length = numFrames (c.num_order + 1).toNat input ∧
          ∀ j, j < numFrames (c.num_order + 1).toNat input →
            ∃ lpc is_stable,
              LevinsonDurbinRecursion.Run ⟨c.num_order, c.epsilon⟩
                (frameAt (c.num_order + 1).toNat input j) = some (lpc, is_stable) ∧
              (levdur env cl).out[j]? = some lpc ∧
              (lpc.length : Int) = c.num_order + 1) := by
  have hc := levdurOptions_ok env cl.options _ c hopt (by decide) Double.ltZero_zero
  have hwrap : wrapInt (c.num_order + 1) = c.num_order + 1 := by
    have h0 := hc.1
    unfold wrapInt
    omega
  rw [levdur_eq_loop env cl c input hopt hfiles hopen, hwrap]
  obtain ⟨k, hk, hall, hko, _, hkc⟩ :=
    levdurLoop_spec env ⟨c.num_order, c.epsilon⟩ c.warning_type (c.num_order + 1)
      input 0 Outcome.start
  have hout : (levdurLoop env ⟨c.num_order, c.epsilon⟩ c.warning_type
      (c.num_order + 1) 0 input Outcome.start).out =
        (List.range k).map (fun j =>
          levdurChunk ⟨c.num_order, c.epsilon⟩ (c.num_order + 1)
            (frameAt (c.num_order + 1).toNat input j)) := by
    rw [hko]; simp [Outcome.start]
  have hchunk : ∀ j, j < k → ∃ lpc is_stable,
      LevinsonDurbinRecursion.Run ⟨c.num_order, c.epsilon⟩
        (frameAt (c.num_order + 1).toNat input j) = some (lpc, is_stable) ∧
      (levdurLoop env ⟨c.num_order, c.epsilon⟩ c.warning_type
        (c.num_order + 1) 0 input Outcome.start).out[j]? = some lpc ∧
      (lpc.length : Int) = c.num_order + 1 ∧
      (is_stable = false → c.warning_type ≠ WarningType.kExit) ∧
      env.write_ok j = true := by
    intro j hj
    have hd := hall j hj
    rw [Nat.zero_add] at hd
    obtain ⟨lpc, st, hrun, hst, hw⟩ := levdurDone_true env _ _ _ _ hd
    obtain ⟨h1, h2⟩ := levdurChunk_of_Run ⟨c.num_order, c.epsilon⟩
      (c.num_order + 1) input j lpc st hrun
    refine ⟨lpc, st, hrun, ?_, h2, hst, hw⟩
    rw [hout, List.getElem?_map, List.getElem?_range hj, Option.map_some', h1]
  constructor
  · refine ⟨k, hk, ?_, hchunk, ?_⟩
    · rw [hout, List.length_map, List.length_range]
    · intro hlt
      rcases hkc with ⟨hk1, _⟩ | ⟨_, _, hk3⟩
      · omega
      · rw [Nat.zero_add] at hk3
        exact levdurDone_false env _ _ _ _ hk3
  · intro hrun hwrite hpolicy
    have hkn : k = numFrames (c.num_order + 1).toNat input := by
      rcases hkc with ⟨hk1, _⟩ | ⟨hk1, _, hk3⟩
      · exact hk1
      · exfalso
        rw [Nat.zero_add] at hk3
        rcases levdurDone_false env _ _ _ _ hk3 with h | ⟨lpc, _, hw⟩ | ⟨lpc, st, _, hw⟩
        · exact hrun k hk1 h
        · rcases hpolicy with hp | hp <;> rw [hp] at hw <;> simp at hw
        · rw [hwrite k hk1] at hw
          simp at hw
    have hcode : (levdurLoop env ⟨c.num_order, c.epsilon⟩ c.warning_type
        (c.num_order + 1) 0 input Outcome.start).code = 0 := by
      rcases hkc with ⟨_, hk2⟩ | ⟨hk1, _, _⟩
      · exact hk2
      · omega
    refine ⟨hcode, ?_, ?_⟩
    · rw [hout, List.length_map, List.length_range, hkn]
    · intro j hj
      obtain ⟨lpc, st, h1, h2, h3, _⟩ := hchunk j (by omega)
      exact ⟨lpc, st, h1, h2, h3⟩

/-- C12 on `levdur -m 1` with the input `4, 2, 1`: one complete frame, one chunk
written, return value 0. -/
theorem forward_output_in_frame_order_witness :
    (levdurOptions (sampleEnv [4, 2, 1]) [('m', "1")]
        ⟨kDefaultNumOrder, kDefaultEpsilon, kDefaultWarningType⟩ =
      .ok ⟨1, 0, WarningType.kIgnore⟩ ∧
      numFrames ((1 : Int) + 1).toNat [4, 2, 1] = 1 ∧
      LevinsonDurbinRecursion.Run ⟨1, 0⟩
        (frameAt ((1 : Int) + 1).toNat [4, 2, 1] 0) = some ([1, -1 / 2], true)) ∧
    ((levdur (sampleEnv [4, 2, 1]) ⟨[('m', "1")], []⟩).code = 0 ∧
      (levdur (sampleEnv [4, 2, 1]) ⟨[('m', "1")], []⟩).out.length = 1 ∧
      (levdur (sampleEnv [4, 2, 1]) ⟨[('m', "1")], []⟩).out[0]? =
        some ([1, -1 / 2] : List ℚ)) := by
  have hopt := (sampleEnv_order1 [4, 2, 1]).1
  have e : ((1 : Int) + 1).toNat = 2 := by decide
  have hn : numFrames ((1 : Int) + 1).toNat [4, 2, 1] = 1 := by
    rw [e]; simp [numFrames]
  have hf : frameAt ((1 : Int) + 1).toNat [4, 2, 1] 0 = [4, 2] := by
    rw [e]; simp [frameAt]
  have hrun : LevinsonDurbinRecursion.Run ⟨1, 0⟩
      (frameAt ((1 : Int) + 1).toNat [4, 2, 1] 0) = some ([1, -1 / 2], true) := by
    rw [hf]; exact Run_order1.2
  have h := (forward_output_in_frame_order (sampleEnv [4, 2, 1]) ⟨[('m', "1")], []⟩
    ⟨1, 0, WarningType.kIgnore⟩ [4, 2, 1] hopt (by decide) (by simp) rfl).2
    (by
      intro j hj
      have hj0 : j = 0 := by
        have : j < 1 := by rw [← hn]; exact hj
        omega
      subst hj0
      show LevinsonDurbinRecursion.Run ⟨1, 0⟩
        (frameAt ((1 : Int) + 1).toNat [4, 2, 1] 0) ≠ none
      rw [hrun]
      simp)
    (fun _ _ => rfl) (Or.inl rfl)
  refine ⟨⟨hopt, hn, hrun⟩, h.1, ?_, ?_⟩
  · have h2 := h.2.1
    rw [h2]
    exact hn
  · obtain ⟨lpc, st, h1, h2, _⟩ := h.2.2 0 (by rw [hn]; decide)
    have h3 : LevinsonDurbinRecursion.Run ⟨1, 0⟩
        (frameAt ((1 : Int) + 1).toNat [4, 2, 1] 0) = some (lpc, st) := h1
    rw [hrun] at h3
    simp only [Option.some.injEq, Prod.mk.injEq] at h3
    rw [← h3.1] at h2
    exact h2

/-! ## The configuration handed to the recursion object -/

/-- One pass of the option loop of `levdur` that does not return: the state it hands on
keeps the order unless the option is `-m` and the epsilon unless it is `-f`, and takes
them from the option's argument otherwise. -/
theorem levdurOptions_step (env : Env) (p : Char × String) (rest : List (Char × String))
    (c c2 : Config) (h : levdurOptions env (p :: rest) c = .ok c2) :
    ∃ c1, levdurOptions env rest c1 = .ok c2 ∧
      (p.1 ≠ 'm' → c1.num_order = c.num_order) ∧
      (p.1 ≠ 'f' → c1.epsilon = c.epsilon) ∧
      (p.1 = 'm' → env.ConvertStringToInteger p.2 = some c1.num_order) ∧
      (p.1 = 'f' → env.ConvertStringToDouble p.2 = some c1.epsilon) := by
  obtain ⟨ch, arg⟩ := p
  simp only [levdurOptions] at h
  split at h
  · rename_i hm
    split at h
    · simp at h
    · rename_i n hconv
      split at h
      · simp at h
      · refine ⟨_, h, fun hc => absurd hm hc, fun _ => rfl, fun _ => hconv, ?_⟩
        intro hc
        simp only at hc hm
        rw [hm] at hc
        exact absurd hc (by decide)
  · rename_i hm
    split at h
    · rename_i hf
      split at h
      · simp at h
      · rename_i x hconv
        split at h
        · simp at h
        · exact ⟨_, h, fun _ => rfl, fun hc => absurd hf hc, fun hc => absurd hc hm,
            fun _ => hconv⟩
    · rename_i hf
      split at h
      · split at h
        · simp at h
        · split at h
          · simp at h
          · exact ⟨_, h, fun _ => rfl, fun _ => rfl, fun hc => absurd hc hm,
              fun hc => absurd hc hf⟩
      · split at h <;> simp at h

theorem levdurOptions_absent (env : Env) :
    ∀ (options : List (Char × String)) (c c2 : Config),
      levdurOptions env options c = .ok c2 →
        ((∀ p, p ∈ options → p.1 ≠ 'm') → c2.num_order = c.num_order) ∧
          ((∀ p, p ∈ options → p.1 ≠ 'f') → c2.epsilon = c.epsilon) := by
  intro options
  induction options with
  | nil =>
    intro c c2 h
    simp only [levdurOptions, Except.ok.injEq] at h
    subst h
    exact ⟨fun _ => rfl, fun _ => rfl⟩
  | cons p rest ih =>
    intro c c2 h
    obtain ⟨c1, h1, hm, hf, _, _⟩ := levdurOptions_step env p rest c c2 h
    obtain ⟨ihm, ihf⟩ := ih c1 c2 h1
    constructor
    · intro hno
      rw [ihm (fun q hq => hno q (List.mem_cons_of_mem _ hq)),
        hm (hno p (List.mem_cons_self _ _))]
    · intro hno
      rw [ihf (fun q hq => hno q (List.mem_cons_of_mem _ hq)),
        hf (hno p (List.mem_cons_self _ _))]

theorem levdurOptions_last (env : Env) (arg : String) (post : List (Char × String)) :
    ∀ (pre : List (Char × String)) (c c2 : Config),
      (levdurOptions env (pre ++ ('m', arg) :: post) c = .ok c2 →
        (∀ p, p ∈ post → p.1 ≠ 'm') →
        env.ConvertStringToInteger arg = some c2.num_order) ∧
      (levdurOptions env (pre ++ ('f', arg) :: post) c = .ok c2 →
        (∀ p, p ∈ post → p.1 ≠ 'f') →
        env.ConvertStringToDouble arg = some c2.epsilon) := by
  intro pre
  induction pre with
  | nil =>
    intro c c2
    constructor
    · intro h hno
      obtain ⟨c1, h1, _, _, hm, _⟩ := levdurOptions_step env ('m', arg) post c c2 h
      rw [((levdurOptions_absent env post c1 c2 h1).1 hno)]
      exact hm rfl
    · intro h hno
      obtain ⟨c1, h1, _, _, _, hf⟩ := levdurOptions_step env ('f', arg) post c c2 h
      rw [((levdurOptions_absent env post c1 c2 h1).2 hno)]
      exact hf rfl
  | cons q pre ih =>
    intro c c2
    constructor
    · intro h hno
      obtain ⟨c1, h1, _⟩ := levdurOptions_step env q _ c c2 h
      exact (ih c1 c2).1 h1 hno
    · intro h hno
      obtain ⟨c1, h1, _⟩ := levdurOptions_step env q _ c c2 h
      exact (ih c1 c2).2 h1 hno

/-- One pass of the option loop of `rlevdur` that does not return: the state it hands on
keeps the order unless the option is `-m` and the epsilon unless it is `-f`, and takes
them from the option's argument otherwise. -/
theorem rlevdurOptions_step (env : Env) (p : Char × String) (rest : List (Char × String))
    (c c2 : Config) (h : rlevdurOptions env (p :: rest) c = .ok c2) :
    ∃ c1, rlevdurOptions env rest c1 = .ok c2 ∧
      (p.1 ≠ 'm' → c1.num_order = c.num_order) ∧
      (p.1 ≠ 'f' → c1.epsilon = c.epsilon) ∧
      (p.1 = 'm' → env.ConvertStringToInteger p.2 = some c1.num_order) ∧
      (p.1 = 'f' → env.ConvertStringToDouble p.2 = some c1.epsilon) := by
  obtain ⟨ch, arg⟩ := p
  simp only [rlevdurOptions] at h
  split at h
  · rename_i hm
    split at h
    · simp at h
    · rename_i n hconv
      split at h
      · simp at h
      · refine ⟨_, h, fun hc => absurd hm hc, fun _ => rfl, fun _ => hconv, ?_⟩
        intro hc
        simp only at hc hm
        rw [hm] at hc
        exact absurd hc (by decide)
  · rename_i hm
    split at h
    · rename_i hf
      split at h
      · simp at h
      · rename_i x hconv
        split at h
        · simp at h
        · exact ⟨_, h, fun _ => rfl, fun hc => absurd hf hc, fun hc => absurd hc hm,
            fun _ => hconv⟩
    · rename_i hf
      split at h <;> simp at h

theorem rlevdurOptions_absent (env : Env) :
    ∀ (options : List (Char × String)) (c c2 : Config),
      rlevdurOptions env options c = .ok c2 →
        ((∀ p, p ∈ options → p.1 ≠ 'm') → c2.num_order = c.num_order) ∧
          ((∀ p, p ∈ options → p.1 ≠ 'f') → c2.epsilon = c.epsilon) := by
  intro options
  induction options with
  | nil =>
    intro c c2 h
    simp only [rlevdurOptions, Except.ok.injEq] at h
    subst h
    exact ⟨fun _ => rfl, fun _ => rfl⟩
  | cons p rest ih =>
    intro c c2 h
    obtain ⟨c1, h1, hm, hf, _, _⟩ := rlevdurOptions_step env p rest c c2 h
    obtain ⟨ihm, ihf⟩ := ih c1 c2 h1
    constructor
    · intro hno
      rw [ihm (fun q hq => hno q (List.mem_cons_of_mem _ hq)),
        hm (hno p (List.mem_cons_self _ _))]
    · intro hno
      rw [ihf (fun q hq => hno q (List.mem_cons_of_mem _ hq)),
        hf (hno p (List.mem_cons_self _ _))]

theorem rlevdurOptions_last (env : Env) (arg : String) (post : List (Char × String)) :
    ∀ (pre : List (Char × String)) (c c2 : Config),
      (rlevdurOptions env (pre ++ ('m', arg) :: post) c = .ok c2 →
        (∀ p, p ∈ post → p.1 ≠ 'm') →
        env.ConvertStringToInteger arg = some c2.num_order) ∧
      (rlevdurOptions env (pre ++ ('f', arg) :: post) c = .ok c2 →
        (∀ p, p ∈ post → p.1 ≠ 'f') →
        env.ConvertStringToDouble arg = some c2.epsilon) := by
  intro pre
  induction pre with
  | nil =>
    intro c c2
    constructor
    · intro h hno
      obtain ⟨c1, h1, _, _, hm, _⟩ := rlevdurOptions_step env ('m', arg) post c c2 h
      rw [((rlevdurOptions_absent env post c1 c2 h1).1 hno)]
      exact hm rfl
    · intro h hno
      obtain ⟨c1, h1, _, _, _, hf⟩ := rlevdurOptions_step env ('f', arg) post c c2 h
      rw [((rlevdurOptions_absent env post c1 c2 h1).2 hno)]
      exact hf rfl
  | cons q pre ih =>
    intro c c2
    constructor
    · intro h hno
      obtain ⟨c1, h1, _⟩ := rlevdurOptions_step env q _ c c2 h
      exact (ih c1 c2).1 h1 hno
    · intro h hno
      obtain ⟨c1, h1, _⟩ := rlevdurOptions_step env q _ c c2 h
      exact (ih c1 c2).2 h1 hno

/-- What holds of the configuration `levdur` hands to its recursion object, for every
argument list that gets past the option loop: the order is not negative, the epsilon
does not compare below zero (it is a non-negative number, a NaN or plus infinity), the
object is valid, an absent `-m` or `-f` leaves the default 25 or 0.0,
the last `-m` and the last `-f` are the ones used, and the frame length is
`order + 1 >= 1` as long as the order is below the largest `int`. -/
theorem levdur_config (env : Env) (options : List (Char × String)) (c : Config)
    (hopt : levdurOptions env options
      ⟨kDefaultNumOrder, kDefaultEpsilon, kDefaultWarningType⟩ = .ok c) :
    0 ≤ c.num_order ∧ c.epsilon.ltZero = false ∧
      LevinsonDurbinRecursion.IsValid ⟨c.num_order, c.epsilon⟩ = true ∧
      (c.num_order < 2147483647 →
        wrapInt (c.num_order + 1) = c.num_order + 1 ∧ 1 ≤ wrapInt (c.num_order + 1)) ∧
      ((∀ p, p ∈ options → p.1 ≠ 'm') → c.num_order = 25) ∧
      ((∀ p, p ∈ options → p.1 ≠ 'f') → c.epsilon = 0) ∧
      (∀ pre arg post, options = pre ++ ('m', arg) :: post →
        (∀ p, p ∈ post → p.1 ≠ 'm') →
        env.ConvertStringToInteger arg = some c.num_order) ∧
      (∀ pre arg post, options = pre ++ ('f', arg) :: post →
        (∀ p, p ∈ post → p.1 ≠ 'f') →
        env.ConvertStringToDouble arg = some c.epsilon) := by
  have hc := levdurOptions_ok env options _ c hopt (by decide) Double.ltZero_zero
  have ha := levdurOptions_absent env options _ c hopt
  refine ⟨hc.1, hc.2, by simp [LevinsonDurbinRecursion.IsValid, hc.1], ?_, ?_, ?_, ?_, ?_⟩
  · intro hlt
    have h0 := hc.1
    unfold wrapInt
    constructor <;> omega
  · intro hno
    rw [ha.1 hno]; rfl
  · intro hno
    rw [ha.2 hno]; rfl
  · intro pre arg post hsplit hno
    rw [hsplit] at hopt
    exact ((levdurOptions_last env arg post pre _ c).1 hopt hno)
  · intro pre arg post hsplit hno
    rw [hsplit] at hopt
    exact ((levdurOptions_last env arg post pre _ c).2 hopt hno)

/-- What holds of the configuration `rlevdur` hands to its recursion object, for every
argument list that gets past the option loop: the order is not negative, the epsilon
does not compare below zero (it is a non-negative number, a NaN or plus infinity), the
object is valid, an absent `-m` or `-f` leaves the default 25 or 0.0,
the last `-m` and the last `-f` are the ones used, and the frame length is
`order + 1 >= 1` as long as the order is below the largest `int`. -/
theorem rlevdur_config (env : Env) (options : List (Char × String)) (c : Config)
    (hopt : rlevdurOptions env options
      ⟨kDefaultNumOrder, kDefaultEpsilon, kDefaultWarningType⟩ = .ok c) :
    0 ≤ c.num_order ∧ c.epsilon.ltZero = false ∧
      ReverseLevinsonDurbinRecursion.IsValid ⟨c.num_order, c.epsilon⟩ = true ∧
      (c.num_order < 2147483647 →
        wrapInt (c.num_order + 1) = c.num_order + 1 ∧ 1 ≤ wrapInt (c.num_order + 1)) ∧
      ((∀ p, p ∈ options → p.1 ≠ 'm') → c.num_order = 25) ∧
      ((∀ p, p ∈ options → p.1 ≠ 'f') → c.epsilon = 0) ∧
      (∀ pre arg post, options = pre ++ ('m', arg) :: post →
        (∀ p, p ∈ post → p.1 ≠ 'm') →
        env.ConvertStringToInteger arg = some c.num_order) ∧
      (∀ pre arg post, options = pre ++ ('f', arg) :: post →
        (∀ p, p ∈ post → p.1 ≠ 'f') →
        env.ConvertStringToDouble arg = some c.epsilon) := by
  have hc := rlevdurOptions_ok env options _ c hopt (by decide) Double.ltZero_zero
  have ha := rlevdurOptions_absent env options _ c hopt
  refine ⟨hc.1, hc.2, by simp [ReverseLevinsonDurbinRecursion.IsValid, hc.1], ?_, ?_, ?_, ?_, ?_⟩
  · intro hlt
    have h0 := hc.1
    unfold wrapInt
    constructor <;> omega
  · intro hno
    rw [ha.1 hno]; rfl
  · intro hno
    rw [ha.2 hno]; rfl
  · intro pre arg post hsplit hno
    rw [hsplit] at hopt
    exact ((rlevdurOptions_last env arg post pre _ c).1 hopt hno)
  · intro pre arg post hsplit hno
    rw [hsplit] at hopt
    exact ((rlevdurOptions_last env arg post pre _ c).2 hopt hno)

/-- C16 fails at the order 2147483647, the largest `int`: both tools accept
`-m 2147483647` and construct a valid recursion object, and the frame length
`num_order + 1`, computed in `int`, is not `order + 1` and not `>= 1` (it is
-2147483648 with two's-complement wrap-around), so that no frame can be read. -/
theorem frame_length_overflow :
    levdurOptions largestOrderEnv [('m', "2147483647")]
        ⟨kDefaultNumOrder, kDefaultEpsilon, kDefaultWarningType⟩ =
      .ok ⟨2147483647, 0, WarningType.kIgnore⟩ ∧
    rlevdurOptions largestOrderEnv [('m', "2147483647")]
        ⟨kDefaultNumOrder, kDefaultEpsilon, kDefaultWarningType⟩ =
      .ok ⟨2147483647, 0, WarningType.kIgnore⟩ ∧
    LevinsonDurbinRecursion.IsValid ⟨2147483647, 0⟩ = true ∧
    ReverseLevinsonDurbinRecursion.IsValid ⟨2147483647, 0⟩ = true ∧
    wrapInt (2147483647 + 1) = -2147483648 ∧
    wrapInt (2147483647 + 1) ≠ 2147483647 + 1 ∧
    ¬ 1 ≤ wrapInt (2147483647 + 1) ∧
    ∀ stream, ReadStream (wrapInt (2147483647 + 1)) stream = none := by
  have hw : wrapInt (2147483647 + 1) = -2147483648 := by decide
  refine ⟨?_, ?_, by decide, by decide, hw, by rw [hw]; decide, by rw [hw]; decide, ?_⟩
  · simp [levdurOptions, largestOrderEnv, kDefaultEpsilon, kDefaultWarningType]
  · simp [rlevdurOptions, largestOrderEnv, kDefaultEpsilon, kDefaultWarningType]
  · intro stream
    rw [hw]
    simp [ReadStream]

end sptk
